import Mathlib

/-!
# aBLAS dependency scheduler

Shallow embedding of `include/aBLAS/scheduling/scheduling.hpp`.

* A `work_item*` / `std::list<work_item>::iterator` is the address of a list
  element; it is modelled by a natural number `id` that is handed out fresh at
  every `push_back` (`next`).
* A `dependency_node*` is modelled by a natural number; the heap of nodes is a
  function `Nat → dependency_node`, a node that was never touched is a
  constructed one.
* `boost::basic_thread_pool::submit` is modelled by the log `m_pool` of the
  work items handed to the pool, in call order.
* All graph mutation runs under `m_work_items_mutex`, so an execution is a
  sequence of `enqueue_work` and `finalize_work` calls.
* `unsigned int` / `std::atomic_uint` counters are natural numbers. The
  decrement wraps at zero as in the source. The state machine `Step` works with
  node counters that start at zero (`dependency_node.fresh`) and with an exact
  increment (`add_read_dependency`), i.e. fewer than `2^32` entries are held.
  `dependency_node.constructed`, `add_read_dependency_u32`, `enqueue_work_u32`
  and the state machine `Step_u32` are the constructor, the method and the
  admission with the node counter exactly as in the source (not initialised by
  the constructor, 32 bit). The two state machines differ in the node counters
  only (`same_claims_of_reachable_u32`) and agree while no counter reaches
  `4294967295` (`enqueue_work_u32_eq`).
-/

namespace aBLAS
namespace scheduling

/-- State of `class dependency_node`. -/
structure dependency_node where
  m_dependencies : List Nat
  m_num_dependencies : Nat
  m_is_write_dependency : Bool
  deriving DecidableEq, Repr

/-- State of `struct work_item`; `id` stands for the address of the item, the
`workload` is opaque to the scheduler and carries no state. -/
structure work_item where
  id : Nat
  out_edges : List Nat
  in_variables : List Nat
  active_dependencies : Nat
  deriving DecidableEq, Repr

/-- State of `class dependency_scheduling` together with the dependency nodes
it is used with. -/
structure dependency_scheduling where
  m_work_items : List work_item
  nodes : Nat → dependency_node
  m_pool : List Nat
  next : Nat

/-- Decrement of an `unsigned int` (wraps at zero). -/
def dec32 (n : Nat) : Nat :=
  if n = 0 then 4294967295 else n - 1

/-- Increment of an `unsigned int` (wraps to zero after `4294967295`). -/
def inc32 (n : Nat) : Nat :=
  (n + 1) % 4294967296

namespace dependency_node

/-- Constructor `dependency_node()` as written (line 143): the flag is set to
false and the vector is empty; `m_num_dependencies` is not initialised, and
`garbage` is the indeterminate value that the `std::atomic_uint` holds. -/
def constructed (garbage : Nat) : dependency_node :=
  { m_dependencies := [], m_num_dependencies := garbage, m_is_write_dependency := false }

/-- Node `dependency_node()` in the case that the counter, which the constructor
does not initialise, holds zero: `constructed 0`. -/
def fresh : dependency_node :=
  { m_dependencies := [], m_num_dependencies := 0, m_is_write_dependency := false }

/-- Method `is_ready()`. -/
def is_ready (n : dependency_node) : Bool :=
  n.m_num_dependencies == 0

/-- Method `write_dependency(work)`. -/
def write_dependency (_n : dependency_node) (work : Nat) : dependency_node :=
  { m_dependencies := [work], m_num_dependencies := 1, m_is_write_dependency := true }

/-- Method `add_read_dependency(work)` with an exact increment of the counter:
the method of the source (`add_read_dependency_u32`) as long as the counter is
below `4294967295`. -/
def add_read_dependency (n : dependency_node) (work : Nat) : dependency_node :=
  let n1 : dependency_node :=
    if n.m_is_write_dependency then
      { m_dependencies := [], m_num_dependencies := 0, m_is_write_dependency := false }
    else n
  { n1 with
    m_dependencies := n1.m_dependencies ++ [work]
    m_num_dependencies := n1.m_num_dependencies + 1 }

/-- Method `add_read_dependency(work)` as written (lines 167-175):
`++m_num_dependencies` is the increment of a 32-bit `std::atomic_uint`. -/
def add_read_dependency_u32 (n : dependency_node) (work : Nat) : dependency_node :=
  let n1 : dependency_node :=
    if n.m_is_write_dependency then
      { m_dependencies := [], m_num_dependencies := 0, m_is_write_dependency := false }
    else n
  { n1 with
    m_dependencies := n1.m_dependencies ++ [work]
    m_num_dependencies := inc32 n1.m_num_dependencies }

/-- Method `remove_dependency(work)`: `std::find` and `erase` of the first
occurrence, then the flag is cleared when the list is empty. -/
def remove_dependency (n : dependency_node) (work : Nat) : dependency_node :=
  let n1 : dependency_node :=
    if work ∈ n.m_dependencies then
      { n with
        m_num_dependencies := dec32 n.m_num_dependencies
        m_dependencies := n.m_dependencies.erase work }
    else n
  if n1.m_dependencies.isEmpty then { n1 with m_is_write_dependency := false } else n1

end dependency_node

/-- Assignment to one node of the heap. -/
def setNode (nodes : Nat → dependency_node) (k : Nat) (v : dependency_node) :
    Nat → dependency_node :=
  fun j => if j = k then v else nodes j

/-- Algorithm `std::unique` followed by `erase` of the tail: of every run of
consecutive equal entries only the first is kept. -/
def unique : List Nat → List Nat
  | [] => []
  | a :: l =>
    match l with
    | [] => [a]
    | b :: _ => if a = b then unique l else a :: unique l

/-- Lines 196-201 of `enqueue_work`: the dependencies of the write variable
followed by the front dependency of every read variable that is a write
dependency (`front()` of an empty vector does not occur: the flag is only set
with one entry stored). -/
def collect_dependencies (nodes : Nat → dependency_node) (write_variable : Nat)
    (read_variables : List Nat) : List Nat :=
  read_variables.foldl
    (fun dependencies node =>
      if (nodes node).m_is_write_dependency then
        dependencies ++ (nodes node).m_dependencies.take 1
      else dependencies)
    (nodes write_variable).m_dependencies

/-- Statement `item->out_edges.push_back(pos)` for the item at address `item`. -/
def push_out_edge (items : List work_item) (item pos : Nat) : List work_item :=
  items.map fun w => if w.id = item then { w with out_edges := w.out_edges ++ [pos] } else w

/-- Statement `pos->in_variables.push_back(&write_variable)`. -/
def push_in_variable (items : List work_item) (pos write_variable : Nat) : List work_item :=
  items.map fun w =>
    if w.id = pos then { w with in_variables := w.in_variables ++ [write_variable] } else w

/-- Effect of the loop `for(item : dependencies) item->out_edges.push_back(pos)`
on one work item: one entry per occurrence of its address in `dependencies`. -/
def link (dependencies : List Nat) (pos : Nat) (w : work_item) : work_item :=
  { w with out_edges := w.out_edges ++ List.replicate (dependencies.count w.id) pos }

/-- Loop `for(node : pos->in_variables) node->add_read_dependency(&(*pos))`. -/
def add_read_dependencies (nodes : Nat → dependency_node) (in_variables : List Nat)
    (pos : Nat) : Nat → dependency_node :=
  in_variables.foldl (fun ns node => setNode ns node ((ns node).add_read_dependency pos)) nodes

/-- Loop `for(node : pos->in_variables) node->add_read_dependency(&(*pos))` with
the 32-bit counter as in the source. -/
def add_read_dependencies_u32 (nodes : Nat → dependency_node) (in_variables : List Nat)
    (pos : Nat) : Nat → dependency_node :=
  in_variables.foldl
    (fun ns node => setNode ns node ((ns node).add_read_dependency_u32 pos)) nodes

namespace dependency_scheduling

/-- Scheduler without work items, all dependency nodes `fresh`: constructed, with
the counter value zero. -/
def empty : dependency_scheduling :=
  { m_work_items := [], nodes := fun _ => dependency_node.fresh, m_pool := [], next := 0 }

/-- Method `submit(work)`. -/
def submit (s : dependency_scheduling) (work : Nat) : dependency_scheduling :=
  { s with m_pool := s.m_pool ++ [work] }

/-- Method `enqueue_work(f, write_variable, read_variables)`. -/
def enqueue_work (s : dependency_scheduling) (write_variable : Nat)
    (read_variables : List Nat) : dependency_scheduling :=
  let dependencies := unique (collect_dependencies s.nodes write_variable read_variables)
  let pos := s.next
  let new_item : work_item :=
    { id := pos, out_edges := [], in_variables := read_variables,
      active_dependencies := dependencies.length }
  let items := s.m_work_items ++ [new_item]
  let items := dependencies.foldl (fun its item => push_out_edge its item pos) items
  let nodes := add_read_dependencies s.nodes read_variables pos
  let nodes := setNode nodes write_variable ((nodes write_variable).write_dependency pos)
  let items := push_in_variable items pos write_variable
  let s1 : dependency_scheduling :=
    { m_work_items := items, nodes := nodes, m_pool := s.m_pool, next := s.next + 1 }
  if dependencies.isEmpty then submit s1 pos else s1

/-- The overloads of `spawn` all forward to `enqueue_work`. -/
def spawn (s : dependency_scheduling) (write_variable : Nat) (read_variables : List Nat) :
    dependency_scheduling :=
  enqueue_work s write_variable read_variables

/-- Scheduler without work items whose dependency nodes are constructed as in
the source: node `N` holds the indeterminate counter value `garbage N`. -/
def constructed (garbage : Nat → Nat) : dependency_scheduling :=
  { m_work_items := [], nodes := fun N => dependency_node.constructed (garbage N),
    m_pool := [], next := 0 }

/-- Method `enqueue_work(f, write_variable, read_variables)` with the 32-bit
counter of the nodes as in the source: `enqueue_work` with
`add_read_dependency_u32` in the loop of lines 220-221. -/
def enqueue_work_u32 (s : dependency_scheduling) (write_variable : Nat)
    (read_variables : List Nat) : dependency_scheduling :=
  let dependencies := unique (collect_dependencies s.nodes write_variable read_variables)
  let pos := s.next
  let new_item : work_item :=
    { id := pos, out_edges := [], in_variables := read_variables,
      active_dependencies := dependencies.length }
  let items := s.m_work_items ++ [new_item]
  let items := dependencies.foldl (fun its item => push_out_edge its item pos) items
  let nodes := add_read_dependencies_u32 s.nodes read_variables pos
  let nodes := setNode nodes write_variable ((nodes write_variable).write_dependency pos)
  let items := push_in_variable items pos write_variable
  let s1 : dependency_scheduling :=
    { m_work_items := items, nodes := nodes, m_pool := s.m_pool, next := s.next + 1 }
  if dependencies.isEmpty then submit s1 pos else s1

/-- Body of the first loop of `finalize_work` for one entry of `out_edges`:
`--item->active_dependencies; if(item->active_dependencies == 0) submit(item);`. -/
def notify (s : dependency_scheduling) (item : Nat) : dependency_scheduling :=
  let items := s.m_work_items.map fun w =>
    if w.id = item then { w with active_dependencies := dec32 w.active_dependencies } else w
  let s1 : dependency_scheduling := { s with m_work_items := items }
  match items.find? (fun w => w.id == item) with
  | some w => if w.active_dependencies = 0 then submit s1 item else s1
  | none => s1

/-- Loop `for(variable : work->in_variables) variable->remove_dependency(&(*work))`. -/
def remove_dependencies (nodes : Nat → dependency_node) (in_variables : List Nat)
    (work : Nat) : Nat → dependency_node :=
  in_variables.foldl (fun ns v => setNode ns v ((ns v).remove_dependency work)) nodes

/-- Method `finalize_work(work)`; `work` has to point to a live item. -/
def finalize_work (s : dependency_scheduling) (work : Nat) : dependency_scheduling :=
  match s.m_work_items.find? (fun w => w.id == work) with
  | none => s
  | some w =>
    let s1 := w.out_edges.foldl notify s
    { s1 with
      nodes := remove_dependencies s1.nodes w.in_variables work
      m_work_items := s1.m_work_items.filter fun u => u.id != work }

/-- The work item at address `t` is in `m_work_items`: it has been admitted
and `finalize_work` has not erased it. -/
def live (s : dependency_scheduling) (t : Nat) : Prop :=
  ∃ w ∈ s.m_work_items, w.id = t

/-- Successor link: the live item at `a` stores `b` in its `out_edges`. -/
def edge (s : dependency_scheduling) (a b : Nat) : Prop :=
  ∃ w ∈ s.m_work_items, w.id = a ∧ b ∈ w.out_edges

/-- Direct or transitive predecessor along `out_edges`. -/
def precedes (s : dependency_scheduling) (a b : Nat) : Prop :=
  Relation.TransGen (edge s) a b

/-- Number of entries equal to `t` over the `out_edges` of the given items. -/
def indeg (items : List work_item) (t : Nat) : Nat :=
  (items.map fun v => v.out_edges.count t).sum

/-- One scheduler transition under the mutex: an admission, or the completion
handler of a work item that was handed to the pool and is still in the list. -/
inductive Step : dependency_scheduling → dependency_scheduling → Prop
  | spawn (s : dependency_scheduling) (write_variable : Nat) (read_variables : List Nat) :
      Step s (enqueue_work s write_variable read_variables)
  | on_complete (s : dependency_scheduling) (work : Nat) :
      work ∈ s.m_pool → live s work → Step s (finalize_work s work)

/-- States reachable from the empty scheduler. -/
inductive Reachable : dependency_scheduling → Prop
  | init : Reachable empty
  | step {s s1 : dependency_scheduling} : Reachable s → Step s s1 → Reachable s1

/-- One scheduler transition under the mutex with the node counters as in the
source: an admission by `enqueue_work_u32`, or the completion handler of a work
item that was handed to the pool and is still in the list. -/
inductive Step_u32 : dependency_scheduling → dependency_scheduling → Prop
  | spawn (s : dependency_scheduling) (write_variable : Nat) (read_variables : List Nat) :
      Step_u32 s (enqueue_work_u32 s write_variable read_variables)
  | on_complete (s : dependency_scheduling) (work : Nat) :
      work ∈ s.m_pool → live s work → Step_u32 s (finalize_work s work)

/-- States reachable with the node counters as in the source, from a scheduler
without work items whose node `N` was constructed with the counter value
`garbage N`. -/
inductive Reachable_u32 (garbage : Nat → Nat) : dependency_scheduling → Prop
  | init : Reachable_u32 garbage (constructed garbage)
  | step {s s1 : dependency_scheduling} :
      Reachable_u32 garbage s → Step_u32 s s1 → Reachable_u32 garbage s1

/-- The node heaps agree in the dependency lists and the flags (everything but
the counters). -/
def same_lists (a b : Nat → dependency_node) : Prop :=
  ∀ N, (a N).m_dependencies = (b N).m_dependencies ∧
    (a N).m_is_write_dependency = (b N).m_is_write_dependency

/-- The schedulers agree in everything but the counters of the dependency
nodes. -/
def same_claims (s t : dependency_scheduling) : Prop :=
  s.m_work_items = t.m_work_items ∧ s.m_pool = t.m_pool ∧ s.next = t.next ∧
    same_lists s.nodes t.nodes

/-- Single-writer/multiple-reader discipline on the dispatched, uncompleted
work items: two of them share a variable only if neither writes it (the write
variable of an item is the last entry of `in_variables`). -/
def exclusive_access (s : dependency_scheduling) : Prop :=
  ∀ a ∈ s.m_work_items, ∀ b ∈ s.m_work_items, a.id ≠ b.id →
    a.id ∈ s.m_pool → b.id ∈ s.m_pool →
    ∀ N ∈ a.in_variables, N ∈ b.in_variables →
      a.in_variables.getLast? ≠ some N ∧ b.in_variables.getLast? ≠ some N

/-- Bookkeeping invariant of the scheduler state. -/
structure Inv (s : dependency_scheduling) : Prop where
  ids_lt : ∀ w ∈ s.m_work_items, w.id < s.next
  ids_sorted : s.m_work_items.Pairwise fun a b => a.id < b.id
  edges_later : ∀ w ∈ s.m_work_items, ∀ e ∈ w.out_edges, w.id < e
  edges_live : ∀ w ∈ s.m_work_items, ∀ e ∈ w.out_edges, live s e
  counts : ∀ u ∈ s.m_work_items, u.active_dependencies = indeg s.m_work_items u.id
  pool_iff : ∀ u ∈ s.m_work_items, u.id ∈ s.m_pool ↔ u.active_dependencies = 0
  pool_nodup : s.m_pool.Nodup
  pool_lt : ∀ t ∈ s.m_pool, t < s.next
  done_pool : ∀ t, t < s.next → ¬ live s t → t ∈ s.m_pool
  claims_live : ∀ N, ∀ t ∈ (s.nodes N).m_dependencies, live s t
  claims_mult : ∀ u ∈ s.m_work_items, ∀ N,
    (s.nodes N).m_dependencies.count u.id ≤ u.in_variables.count N
  node_count : ∀ N, (s.nodes N).m_num_dependencies = (s.nodes N).m_dependencies.length
  node_flag : ∀ N, (s.nodes N).m_is_write_dependency = true →
    (s.nodes N).m_dependencies.length = 1
  covered : ∀ u ∈ s.m_work_items, ∀ N ∈ u.in_variables,
    ∃ c ∈ (s.nodes N).m_dependencies, Relation.ReflTransGen (edge s) u.id c

/-- Invariant of the first loop of `finalize_work(work)`; `pending` is the part
of `work->out_edges` that has not been visited yet. -/
structure NotifyInv (s : dependency_scheduling) (work : Nat) (pending : List Nat) : Prop where
  ids_lt : ∀ w ∈ s.m_work_items, w.id < s.next
  ids_sorted : s.m_work_items.Pairwise fun a b => a.id < b.id
  pending_live : ∀ e ∈ pending, live s e
  counts : ∀ u ∈ s.m_work_items, u.active_dependencies =
    indeg (s.m_work_items.filter fun v => v.id != work) u.id + pending.count u.id
  pool_iff : ∀ u ∈ s.m_work_items, u.id ∈ s.m_pool ↔ u.active_dependencies = 0
  pool_nodup : s.m_pool.Nodup
  pool_lt : ∀ t ∈ s.m_pool, t < s.next

/-- Assignment of new counter values to the work items, everything else kept. -/
def set_active (c : work_item → Nat) (w : work_item) : work_item :=
  { w with active_dependencies := c w }

/-- The scheduler `s1` differs from `s` only in counter values and in entries
appended to the pool log. -/
def Frame (s s1 : dependency_scheduling) : Prop :=
  s1.nodes = s.nodes ∧ s1.next = s.next ∧
    (∃ c, s1.m_work_items = s.m_work_items.map (set_active c)) ∧
    ∃ l, s1.m_pool = s.m_pool ++ l

/-- Method `create_closure(temporary, work_item_producer)`: the producer runs
on the scheduler, then the clean-up kernel is spawned writing the temporary;
this admission has no read variables, so it increments no node counter. -/
def create_closure (s : dependency_scheduling) (temporary : Nat)
    (work_item_producer : dependency_scheduling → dependency_scheduling) :
    dependency_scheduling :=
  spawn (work_item_producer s) temporary []

/-- Method `make_closure_variable(temporary)`: `create_closure` with a producer
that calls nothing on the scheduler. -/
def make_closure_variable (s : dependency_scheduling) (temporary : Nat) :
    dependency_scheduling :=
  create_closure s temporary fun s1 => s1

/-- Method `num_work_items()`. -/
def num_work_items (s : dependency_scheduling) : Nat :=
  s.m_work_items.length

end dependency_scheduling

/-- States of one dependency node reachable from the node `fresh` (constructed,
with the counter value zero) by calls of `write_dependency`,
`add_read_dependency` and `remove_dependency`. -/
inductive dependency_node.Reachable : dependency_node → Prop
  | fresh : dependency_node.Reachable dependency_node.fresh
  | write (n : dependency_node) (work : Nat) :
      dependency_node.Reachable n → dependency_node.Reachable (n.write_dependency work)
  | read (n : dependency_node) (work : Nat) :
      dependency_node.Reachable n → dependency_node.Reachable (n.add_read_dependency work)
  | remove (n : dependency_node) (work : Nat) :
      dependency_node.Reachable n → dependency_node.Reachable (n.remove_dependency work)

end scheduling

/-! ## Expression layer: size checks before admission

Embedding of `detail/exception.hpp`, of the expression classes of
`vector_expression.hpp` and `matrix_expression.hpp` as far as admission is
concerned (sizes and dependency nodes; the device is the cpu), and of `assign` /
`plus_assign` of `assignment.hpp`. The build is the one without `NDEBUG`. -/

/-- Class `Exception`: the description `m_what` (file and line are left out). -/
structure Exception where
  m_what : String
  deriving DecidableEq, Repr

/-- Macro `ABLAS_SIZE_CHECK(cond)` without `NDEBUG`: throws the exception
"size mismatch: " followed by the text of the condition when it is false. -/
def ABLAS_SIZE_CHECK (cond : Bool) (text : String) : Except Exception Unit :=
  if cond then pure () else throw { m_what := "size mismatch: " ++ text }

/-- Macro `ABLAS_RANGE_CHECK(cond)` without `NDEBUG`. -/
def ABLAS_RANGE_CHECK (cond : Bool) (text : String) : Except Exception Unit :=
  if cond then pure () else throw { m_what := "range check error: " ++ text }

/-- Result type of `dependencies()`: containers and proxies return one
`dependency_node&`, the other expressions a `std::vector<dependency_node*>`. -/
inductive dependency_list where
  | node (dep : Nat)
  | list (l : List Nat)
  deriving DecidableEq, Repr

/-- The four overloads of `gather_dependencies`. -/
def gather_dependencies : dependency_list → dependency_list → List Nat
  | .list list1, .list list2 => list1 ++ list2
  | .list l, .node dep => l ++ [dep]
  | .node dep, .list l => l ++ [dep]
  | .node dep1, .node dep2 => [dep1, dep2]

/-- Read variables that `spawn(f, write_variable, reads)` passes to
`enqueue_work`: the overload for one node builds a one-element vector. -/
def dependency_list.read_variables : dependency_list → List Nat
  | .node dep => [dep]
  | .list l => l

/-- Vector expressions: `vector`, `scalar_vector`, `vector_scalar_multiply`,
`vector_addition` with the data that admission uses. -/
inductive vector_expression where
  | vector (size : Nat) (dependencies : Nat)
  | scalar_vector (m_size : Nat)
  | vector_scalar_multiply (m_expression : vector_expression)
  | vector_addition (m_lhs m_rhs : vector_expression)
  deriving DecidableEq, Repr

namespace vector_expression

/-- Method `size()`. -/
def size : vector_expression → Nat
  | vector n _ => n
  | scalar_vector n => n
  | vector_scalar_multiply e => e.size
  | vector_addition lhs _ => lhs.size

/-- Method `dependencies()`. -/
def dependencies : vector_expression → dependency_list
  | vector _ d => .node d
  | scalar_vector _ => .list []
  | vector_scalar_multiply e => e.dependencies
  | vector_addition lhs rhs => .list (gather_dependencies lhs.dependencies rhs.dependencies)

/-- Operator `e1 + e2`: the constructor of `vector_addition` with its size check. -/
def operator_plus (e1 e2 : vector_expression) : Except Exception vector_expression := do
  ABLAS_SIZE_CHECK (e1.size == e2.size) "e1.size() == e2.size()"
  pure (vector_addition e1 e2)

/-- Function `assign(x, v, alpha)` for a target with the given size and
dependency node: size check, then `detail::assign` for `elementwise_tag` (the
category of every expression above), which spawns the kernel. The result is the
exception, if any, and the scheduler after the call. -/
def assign (s : scheduling.dependency_scheduling) (x_size x_dependencies : Nat)
    (v : vector_expression) : Except Exception Unit × scheduling.dependency_scheduling :=
  match ABLAS_SIZE_CHECK (x_size == v.size) "x().size() == v().size()" with
  | .error e => (.error e, s)
  | .ok _ => (.ok (), s.spawn x_dependencies v.dependencies.read_variables)

/-- Function `plus_assign(x, v, alpha)`; it differs from `assign` in the kernel
the spawned closure runs. -/
def plus_assign (s : scheduling.dependency_scheduling) (x_size x_dependencies : Nat)
    (v : vector_expression) : Except Exception Unit × scheduling.dependency_scheduling :=
  match ABLAS_SIZE_CHECK (x_size == v.size) "x().size() == v().size()" with
  | .error e => (.error e, s)
  | .ok _ => (.ok (), s.spawn x_dependencies v.dependencies.read_variables)

end vector_expression

/-- Matrix expressions: `matrix`, `scalar_matrix`, `matrix_scalar_multiply`,
`matrix_addition` with the data that admission uses. -/
inductive matrix_expression where
  | matrix (size1 size2 : Nat) (dependencies : Nat)
  | scalar_matrix (m_size1 m_size2 : Nat)
  | matrix_scalar_multiply (m_expression : matrix_expression)
  | matrix_addition (m_lhs m_rhs : matrix_expression)
  deriving DecidableEq, Repr

namespace matrix_expression

/-- Method `size1()`. -/
def size1 : matrix_expression → Nat
  | matrix n _ _ => n
  | scalar_matrix n _ => n
  | matrix_scalar_multiply e => e.size1
  | matrix_addition lhs _ => lhs.size1

/-- Method `size2()`. -/
def size2 : matrix_expression → Nat
  | matrix _ n _ => n
  | scalar_matrix _ n => n
  | matrix_scalar_multiply e => e.size2
  | matrix_addition lhs _ => lhs.size2

/-- Method `dependencies()`. -/
def dependencies : matrix_expression → dependency_list
  | matrix _ _ d => .node d
  | scalar_matrix _ _ => .list []
  | matrix_scalar_multiply e => e.dependencies
  | matrix_addition lhs rhs => .list (gather_dependencies lhs.dependencies rhs.dependencies)

/-- Operator `e1 + e2`: the constructor of `matrix_addition` stores the two
operands and checks nothing. -/
def operator_plus (e1 e2 : matrix_expression) : matrix_expression :=
  matrix_addition e1 e2

/-- Function `assign(A, B, alpha)` for a target with the given sizes and
dependency node: the two size checks, then `detail::assign` for
`elementwise_tag`, which spawns the kernel. -/
def assign (s : scheduling.dependency_scheduling) (A_size1 A_size2 A_dependencies : Nat)
    (B : matrix_expression) : Except Exception Unit × scheduling.dependency_scheduling :=
  match ABLAS_SIZE_CHECK (A_size1 == B.size1) "A().size1() == B().size1()" with
  | .error e => (.error e, s)
  | .ok _ =>
    match ABLAS_SIZE_CHECK (A_size2 == B.size2) "A().size2() == B().size2()" with
    | .error e => (.error e, s)
    | .ok _ => (.ok (), s.spawn A_dependencies B.dependencies.read_variables)

end matrix_expression

/-! ## Kernels

Embedding of `kernels/vector_assign.hpp`, `kernels/matrix_assign.hpp`,
`kernels/default/gemv.hpp`, `kernels/gemv.hpp`, `kernels/default/gemm.hpp`,
`kernels/gemm.hpp` and of the proxies of `matrix_proxy.hpp` they use.

* A vector or matrix expression that a kernel works on (a container or a proxy)
  is modelled by its sizes, its orientation tag and its element function
  `operator()`; the storage behind it is not modelled, and the range checks of
  the element access hold at every access of the kernels.
* Iterators (`detail/iterator.hpp` is not among the sources) are modelled by
  their position: a loop from `begin()` to `end()` visits the indices
  `0, ..., size()-1`, `index()` is the position, and the major iterator of line
  `i` at position `k` refers to the element with major index `i` and minor
  index `k`.
* A mutable proxy is a view: a kernel that writes through it returns the new
  contents of the view, which are stored back into the matrix behind it.
* The element type is any type with `+`, `*`, `0`, `1` (exact arithmetic).
-/

/-- Orientation tags `row_major` and `column_major` of `detail/structure.hpp`. -/
inductive orientation where
  | row_major
  | column_major
  deriving DecidableEq, Repr

namespace orientation

/-- Member type `transposed_orientation`. -/
def transposed_orientation : orientation → orientation
  | row_major => column_major
  | column_major => row_major

/-- Function `index_M(index1, index2)`. -/
def index_M : orientation → Nat → Nat → Nat
  | row_major, index1, _ => index1
  | column_major, _, index2 => index2

/-- Function `index_m(index1, index2)`. -/
def index_m : orientation → Nat → Nat → Nat
  | row_major, _, index2 => index2
  | column_major, index1, _ => index1

/-- Function `index_row(major, minor)`. -/
def index_row : orientation → Nat → Nat → Nat
  | row_major, major, _ => major
  | column_major, _, minor => minor

/-- Function `index_col(major, minor)`. -/
def index_col : orientation → Nat → Nat → Nat
  | row_major, _, minor => minor
  | column_major, major, _ => major

end orientation

/-- Vector expression as a kernel sees it: `size()` and `operator()(i)`. -/
structure dense_vector (α : Type) where
  size : Nat
  elem : Nat → α

/-- Matrix expression as a kernel sees it: `size1()`, `size2()`, the member type
`orientation` and `operator()(i, j)`. -/
structure dense_matrix (α : Type) where
  size1 : Nat
  size2 : Nat
  orientation : orientation
  elem : Nat → Nat → α

/-- Statement `for (i = 0; i != n; ++i) body`. -/
def for_range {σ : Type} (n : Nat) (body : Nat → σ → σ) (s : σ) : σ :=
  (List.range n).foldl (fun s i => body i s) s

/-- Statement `for (i = 0; i != n; ++i) body` with a body that may throw. -/
def for_range_checked {σ : Type} (n : Nat) (body : Nat → σ → Except Exception σ) (s : σ) :
    Except Exception σ :=
  (List.range n).foldlM (fun s i => body i s) s

/-- Statement `for (i = 0; i < n; i += step) body`. -/
def for_blocks {σ : Type} (n step : Nat) (body : Nat → σ → σ) (s : σ) : σ :=
  for_range ((n + step - 1) / step) (fun b => body (b * step)) s

/-- Statement `for (i = 0; i < n; i += step) body` with a body that may throw. -/
def for_blocks_checked {σ : Type} (n step : Nat) (body : Nat → σ → Except Exception σ)
    (s : σ) : Except Exception σ :=
  for_range_checked ((n + step - 1) / step) (fun b => body (b * step)) s

/-- Modelled from the spec: `detail/functional.hpp` is not among the sources.
The functor `scalar_assign` constructed with `alpha` stores `alpha * y` in its
first argument (`x = alpha * v` in `Test/assign.cpp`). -/
def scalar_assign {α : Type} [Mul α] (alpha _x y : α) : α :=
  alpha * y

/-- Modelled from the spec: `detail/functional.hpp` is not among the sources.
The functor `scalar_plus_assign` constructed with `alpha` adds `alpha * y` to
its first argument (`x += alpha * v` in `Test/assign.cpp`). -/
def scalar_plus_assign {α : Type} [Mul α] [Add α] (alpha x y : α) : α :=
  x + alpha * y

namespace dense_vector

/-- Assignment to the element `v(i)`. -/
def set {α : Type} (v : dense_vector α) (i : Nat) (x : α) : dense_vector α :=
  { v with elem := fun k => if k = i then x else v.elem k }

end dense_vector

namespace dense_matrix

/-- Assignment to the element `m(i, j)`. -/
def set {α : Type} (m : dense_matrix α) (i j : Nat) (x : α) : dense_matrix α :=
  { m with elem := fun a b => if a = i ∧ b = j then x else m.elem a b }

/-- Element the major iterator of line `i` refers to at position `k`. -/
def major {α : Type} (m : dense_matrix α) (i k : Nat) : α :=
  m.elem (m.orientation.index_row i k) (m.orientation.index_col i k)

/-- Assignment through the major iterator of line `i` at position `k`. -/
def set_major {α : Type} (m : dense_matrix α) (i k : Nat) (x : α) : dense_matrix α :=
  m.set (m.orientation.index_row i k) (m.orientation.index_col i k) x

/-- Proxy `matrix_transpose`, built by `trans(m)`. -/
def trans {α : Type} (m : dense_matrix α) : dense_matrix α :=
  { size1 := m.size2, size2 := m.size1,
    orientation := m.orientation.transposed_orientation,
    elem := fun i j => m.elem j i }

/-- Contents of `m` after a kernel wrote `t` through `matrix_transpose<M>(m)`. -/
def store_trans {α : Type} (m t : dense_matrix α) : dense_matrix α :=
  { m with elem := fun i j => t.elem j i }

/-- Proxy `matrix_row`, built by `row(m, i)`, with the check of its constructor. -/
def row {α : Type} (m : dense_matrix α) (i : Nat) : Except Exception (dense_vector α) := do
  ABLAS_SIZE_CHECK (decide (i < m.size1)) "i < expression.size1()"
  pure { size := m.size2, elem := fun j => m.elem i j }

/-- Contents of `m` after a kernel wrote `r` through `matrix_row<M>(m, i)`. -/
def store_row {α : Type} (m : dense_matrix α) (i : Nat) (r : dense_vector α) :
    dense_matrix α :=
  { m with elem := fun a b => if a = i then r.elem b else m.elem a b }

/-- Proxy `matrix_column`, built by `column(m, j)`, with the check of its constructor. -/
def column {α : Type} (m : dense_matrix α) (j : Nat) : Except Exception (dense_vector α) := do
  ABLAS_SIZE_CHECK (decide (j < m.size2)) "j < expression.size2()"
  pure { size := m.size1, elem := fun i => m.elem i j }

/-- Constructor of `matrix_range` for the ranges `[start1, start1 + size1)` and
`[start2, start2 + size2)` with its four checks. -/
def matrix_range {α : Type} (m : dense_matrix α) (start1 size1 start2 size2 : Nat) :
    Except Exception (dense_matrix α) := do
  ABLAS_SIZE_CHECK (decide (start1 ≤ m.size1)) "r1.start() <= expression.size1()"
  ABLAS_SIZE_CHECK (decide (start1 + size1 ≤ m.size1))
    "r1.start() +r1.size() <= expression.size1()"
  ABLAS_SIZE_CHECK (decide (start2 ≤ m.size2)) "r2.start() <= expression.size2()"
  ABLAS_SIZE_CHECK (decide (start2 + size2 ≤ m.size2))
    "r2.start() +r2.size() <= expression.size2()"
  pure { size1 := size1, size2 := size2, orientation := m.orientation,
         elem := fun i j => m.elem (start1 + i) (start2 + j) }

/-- Function `subrange(m, start1, stop1, start2, stop2)`. -/
def subrange {α : Type} (m : dense_matrix α) (start1 stop1 start2 stop2 : Nat) :
    Except Exception (dense_matrix α) := do
  ABLAS_RANGE_CHECK (decide (start1 ≤ stop1)) "start1 <= stop1"
  ABLAS_RANGE_CHECK (decide (start2 ≤ stop2)) "start2 <= stop2"
  ABLAS_SIZE_CHECK (decide (stop1 ≤ m.size1)) "stop1 <= expression().size1()"
  ABLAS_SIZE_CHECK (decide (stop2 ≤ m.size2)) "stop2 <= expression().size2()"
  m.matrix_range start1 (stop1 - start1) start2 (stop2 - start2)

/-- Function `rows(m, start, stop)`. -/
def rows {α : Type} (m : dense_matrix α) (start stop : Nat) :
    Except Exception (dense_matrix α) := do
  ABLAS_RANGE_CHECK (decide (start ≤ stop)) "start <= stop"
  ABLAS_SIZE_CHECK (decide (stop ≤ m.size1)) "stop <= expression().size1()"
  m.matrix_range start (stop - start) 0 (m.size2 - 0)

/-- Function `columns(m, start, stop)`. -/
def columns {α : Type} (m : dense_matrix α) (start stop : Nat) :
    Except Exception (dense_matrix α) := do
  ABLAS_RANGE_CHECK (decide (start ≤ stop)) "start <= stop"
  ABLAS_SIZE_CHECK (decide (stop ≤ m.size2)) "stop <= expression().size2()"
  m.matrix_range 0 (m.size1 - 0) start (stop - start)

/-- Contents of `m` after a kernel wrote `b` through the `matrix_range` of `m`
that starts at `(start1, start2)` and has the sizes of `b`. -/
def store_range {α : Type} (m : dense_matrix α) (start1 start2 : Nat) (b : dense_matrix α) :
    dense_matrix α :=
  { m with elem := fun i j =>
      if start1 ≤ i ∧ i < start1 + b.size1 ∧ start2 ≤ j ∧ j < start2 + b.size2 then
        b.elem (i - start1) (j - start2)
      else m.elem i j }

end dense_matrix

namespace dense_matrix

/-- Number of positions between `major_begin(m, i)` and `major_end(m, i)`. -/
def major_length {α : Type} (m : dense_matrix α) : Nat :=
  m.orientation.index_m m.size1 m.size2

end dense_matrix

namespace kernels

/-- Kernel `assign<F>(v, t)` of `vector_assign.hpp` (lines 42-51): the functor
is constructed with `1` and applied to every element and `t`. -/
def assign_vector_scalar {α : Type} [One α] (F : α → α → α → α) (v : dense_vector α)
    (t : α) : dense_vector α :=
  for_range v.size (fun it v => v.set it (F 1 (v.elem it) t)) v

/-- Kernel `assign<F>(v, e, alpha, dense, dense)` of `vector_assign.hpp`
(lines 58-72). -/
def assign_vector_dense {α : Type} (F : α → α → α → α) (v e : dense_vector α) (alpha : α) :
    dense_vector α :=
  for_range v.size (fun pos v => v.set pos (F alpha (v.elem pos) (e.elem pos))) v

/-- Dispatcher `assign<F>(v, e, alpha)` of `vector_assign.hpp` (lines 75-85). -/
def assign_vector {α : Type} (F : α → α → α → α) (v e : dense_vector α) (alpha : α) :
    Except Exception (dense_vector α) := do
  ABLAS_SIZE_CHECK (v.size == e.size) "v().size() == e().size()"
  pure (assign_vector_dense F v e alpha)

/-- Kernel `assign<F>(m, t, Orientation, dense)` of `matrix_assign.hpp`
(lines 45-57). -/
def assign_matrix_scalar_impl {α : Type} [One α] (F : α → α → α → α) (m : dense_matrix α)
    (t : α) (Orientation : orientation) : dense_matrix α :=
  let majorSize := Orientation.index_M m.size1 m.size2
  for_range majorSize (fun i m =>
    for_range m.major_length (fun k m => m.set_major i k (F 1 (m.major i k) t)) m) m

/-- Dispatcher `assign<F>(m, t)` of `matrix_assign.hpp` (lines 60-68). -/
def assign_matrix_scalar {α : Type} [One α] (F : α → α → α → α) (m : dense_matrix α)
    (t : α) : dense_matrix α :=
  assign_matrix_scalar_impl F m t m.orientation

/-- Kernel `assign<F>(m, e, alpha, Orientation, Orientation, dense, dense)` of
`matrix_assign.hpp` (lines 74-95). -/
def assign_matrix_same {α : Type} (F : α → α → α → α) (m e : dense_matrix α) (alpha : α)
    (Orientation : orientation) : dense_matrix α :=
  let size_M := Orientation.index_M m.size1 m.size2
  for_range size_M (fun i m =>
    for_range m.major_length (fun pos m =>
      m.set_major i pos (F alpha (m.major i pos) (e.major i pos))) m) m

/-- Kernel `assign<F>(m, e, alpha, Orientation, Orientation::transposed_orientation,
dense, dense)` of `matrix_assign.hpp` (lines 96-145). The state of the loops is
the target and the local array `blockStorage`, which the source does not
initialise: its contents at entry are the last argument. -/
def assign_matrix_transposed {α : Type} (F : α → α → α → α) (m e : dense_matrix α)
    (alpha : α) (Orientation : orientation) (blockStorage : Nat → Nat → α) :
    dense_matrix α :=
  let size_M := Orientation.index_M m.size1 m.size2
  let size_m := Orientation.index_m m.size1 m.size2
  (for_blocks size_M 16 (fun iblock s =>
    for_blocks size_m 16 (fun jblock s =>
      let blockSizei := min 16 (size_M - iblock)
      let blockSizej := min 16 (size_m - jblock)
      let s := for_range blockSizej (fun j s =>
        for_range blockSizei (fun i (s : dense_matrix α × (Nat → Nat → α)) =>
          let block_row := Orientation.index_row i j
          let block_col := Orientation.index_col i j
          let e_row := Orientation.index_row (iblock + i) (jblock + j)
          let e_col := Orientation.index_col (iblock + i) (jblock + j)
          (s.1, fun a b => if a = block_row ∧ b = block_col then e.elem e_row e_col
                           else s.2 a b)) s) s
      for_range blockSizei (fun i s =>
        for_range blockSizej (fun j (s : dense_matrix α × (Nat → Nat → α)) =>
          let block_row := Orientation.index_row i j
          let block_col := Orientation.index_col i j
          let m_row := Orientation.index_row (iblock + i) (jblock + j)
          let m_col := Orientation.index_col (iblock + i) (jblock + j)
          (s.1.set m_row m_col (F alpha (s.1.elem m_row m_col) (s.2 block_row block_col)),
           s.2)) s) s) s) (m, blockStorage)).1

/-- Overload resolution among the kernels `assign<F>(m, e, alpha, MOrientation,
EOrientation, dense, dense)` of `matrix_assign.hpp`: equal tags select the
kernel of lines 74-95, opposite tags the blocked kernel of lines 96-145, whose
uninitialised array is taken to hold zeros. -/
def assign_matrix_impl {α : Type} [Zero α] (F : α → α → α → α) (m e : dense_matrix α)
    (alpha : α) (MOrientation EOrientation : orientation) : dense_matrix α :=
  if EOrientation = MOrientation then assign_matrix_same F m e alpha MOrientation
  else assign_matrix_transposed F m e alpha MOrientation (fun _ _ => 0)

/-- Dispatcher `assign<F>(m, e, alpha)` of `matrix_assign.hpp` (lines 160-170). -/
def assign_matrix {α : Type} [Zero α] (F : α → α → α → α) (m e : dense_matrix α)
    (alpha : α) : Except Exception (dense_matrix α) := do
  ABLAS_SIZE_CHECK (m.size1 == e.size1) "m().size1() == e().size1()"
  ABLAS_SIZE_CHECK (m.size2 == e.size2) "m().size2() == e().size2()"
  pure (assign_matrix_impl F m e alpha m.orientation e.orientation)

end kernels

namespace bindings

/-- Modelled from the spec: `kernels/default/dot.hpp` is not among the sources.
`bindings::dot(e1, e2, result)` stores the sum of the products `e1(i) * e2(i)`
in `result` (documentation of `kernels::dot`). -/
def dot {α : Type} [Zero α] [Add α] [Mul α] (e1 e2 : dense_vector α) (_result : α) : α :=
  ((List.range e1.size).map (fun i => e1.elem i * e2.elem i)).sum

end bindings

namespace kernels

/-- Kernel `dot(e1, e2, result)` of `kernels/dot.hpp` (lines 47-59). -/
def dot {α : Type} [Zero α] [Add α] [Mul α] (e1 e2 : dense_vector α) (result : α) :
    Except Exception α := do
  ABLAS_SIZE_CHECK (e1.size == e2.size) "e1().size() == e2().size()"
  pure (bindings.dot e1 e2 result)

end kernels

namespace bindings

/-- Function `gemv_impl(A, x, result, alpha, row_major)` of
`kernels/default/gemv.hpp` (lines 40-54). -/
def gemv_impl_row_major {α : Type} [Zero α] [Add α] [Mul α] (A : dense_matrix α)
    (x result : dense_vector α) (alpha : α) : Except Exception (dense_vector α) :=
  for_range_checked A.size1 (fun i result => do
    let value : α := 0
    let r ← A.row i
    let value ← kernels.dot r x value
    pure (result.set i (result.elem i + alpha * value))) result

/-- Function `gemv_impl(A, x, result, alpha, column_major)` of
`kernels/default/gemv.hpp` (lines 57-73). -/
def gemv_impl_column_major {α : Type} [Add α] [Mul α] (A : dense_matrix α)
    (x result : dense_vector α) (alpha : α) : Except Exception (dense_vector α) :=
  for_range_checked x.size (fun it result => do
    let multiplier := alpha * x.elem it
    let c ← A.column it
    kernels.assign_vector scalar_plus_assign result c multiplier) result

/-- Overload resolution of `gemv_impl` on the orientation tag. -/
def gemv_impl {α : Type} [Zero α] [Add α] [Mul α] (A : dense_matrix α)
    (x result : dense_vector α) (alpha : α) : orientation → Except Exception (dense_vector α)
  | .row_major => gemv_impl_row_major A x result alpha
  | .column_major => gemv_impl_column_major A x result alpha

/-- Function `bindings::gemv` of `kernels/default/gemv.hpp` (lines 88-99). -/
def gemv {α : Type} [Zero α] [Add α] [Mul α] (A : dense_matrix α)
    (x result : dense_vector α) (alpha : α) : Except Exception (dense_vector α) :=
  gemv_impl A x result alpha A.orientation

end bindings

namespace kernels

/-- Kernel `gemv(e1, e2, m, alpha)` of `kernels/gemv.hpp` (lines 56-70). -/
def gemv {α : Type} [Zero α] [Add α] [Mul α] (e1 : dense_matrix α)
    (e2 m : dense_vector α) (alpha : α) : Except Exception (dense_vector α) := do
  ABLAS_SIZE_CHECK (m.size == e1.size1) "m().size() == e1().size1()"
  ABLAS_SIZE_CHECK (e1.size2 == e2.size) "e1().size2() == e2().size()"
  bindings.gemv e1 e2 m alpha

end kernels

namespace bindings

/-- Function `gemm_impl(e1, e2, m, alpha, row_major, row_major, Orientation2, Tag1,
Tag2)` of `kernels/default/gemm.hpp` (lines 44-57): one matrix-vector product
for every row of the first argument. -/
def gemm_impl_row_row {α : Type} [Zero α] [Add α] [Mul α] (e1 e2 m : dense_matrix α)
    (alpha : α) : Except Exception (dense_matrix α) :=
  for_range_checked e1.size1 (fun i m => do
    let mat_row ← m.row i
    let r ← e1.row i
    let mat_row ← kernels.gemv e2.trans r mat_row alpha
    pure (m.store_row i mat_row)) m

/-- Function `gemm_impl(e1, e2, m, alpha, row_major, column_major, row_major,
packed, Tag)` of `kernels/default/gemm.hpp` (lines 61-80): a sequence of outer
products. The tag `dense_random_access_iterator_tag` converts to the packed tag
(`detail/tags.hpp`, line 83). -/
def gemm_impl_row_column_row {α : Type} [Add α] [Mul α] (e1 e2 m : dense_matrix α)
    (alpha : α) : Except Exception (dense_matrix α) :=
  for_range_checked e1.size2 (fun k m => do
    let e2_row ← e2.row k
    for_range_checked e1.size1 (fun e1_col_pos m => do
      let m_row ← m.row e1_col_pos
      let m_row ← kernels.assign_vector scalar_plus_assign m_row e2_row
        (alpha * e1.elem e1_col_pos k)
      pure (m.store_row e1_col_pos m_row)) m) m

/-- Function `gemm_impl(e1, e2, m, alpha, row_major, column_major, column_major,
dense, dense)` of `kernels/default/gemm.hpp` (lines 83-121): blocks of size 24
are computed transposed in `blockStorage` and added to the block of `m`. The
state of the loops is `m` and `blockStorage`; the inner call has the tags
`r, r, r` and so is the function of lines 44-57. -/
def gemm_impl_row_column_column {α : Type} [Zero α] [One α] [Add α] [Mul α]
    (e1 e2 m : dense_matrix α) (alpha : α) : Except Exception (dense_matrix α) := do
  let blockStorage : dense_matrix α :=
    { size1 := 24, size2 := 24, orientation := .row_major, elem := fun _ _ => 0 }
  let size1 := m.size1
  let size2 := m.size2
  let s ← for_blocks_checked size1 24 (fun i s =>
    for_blocks_checked size2 24 (fun j (s : dense_matrix α × dense_matrix α) => do
      let blockSizei := min 24 (size1 - i)
      let blockSizej := min 24 (size2 - j)
      let transBlock ← s.2.subrange 0 blockSizej 0 blockSizei
      let transBlock := kernels.assign_matrix_scalar scalar_assign transBlock 0
      let c ← e2.columns j (j + blockSizej)
      let r ← e1.rows i (i + blockSizei)
      let transBlock ← gemm_impl_row_row c.trans r.trans transBlock alpha
      let m_block ← s.1.subrange i (i + blockSizei) j (j + blockSizej)
      let m_block ← kernels.assign_matrix scalar_plus_assign m_block transBlock.trans 1
      pure (s.1.store_range i j m_block, s.2.store_range 0 0 transBlock)) s) (m, blockStorage)
  pure s.1

/-- Overload resolution among the three functions `gemm_impl` with the result
tag `row_major`, on the tags of the two arguments. -/
def gemm_impl_row_major {α : Type} [Zero α] [One α] [Add α] [Mul α]
    (e1 e2 m : dense_matrix α) (alpha : α) :
    orientation → orientation → Except Exception (dense_matrix α)
  | .row_major, _ => gemm_impl_row_row e1 e2 m alpha
  | .column_major, .row_major => gemm_impl_row_column_row e1 e2 m alpha
  | .column_major, .column_major => gemm_impl_row_column_column e1 e2 m alpha

/-- Overload resolution of `gemm_impl` on the three orientation tags; the result
tag `column_major` selects the function of lines 125-138, which computes the
transposed product into `matrix_transpose<M>(m)`. -/
def gemm_impl {α : Type} [Zero α] [One α] [Add α] [Mul α] (e1 e2 m : dense_matrix α)
    (alpha : α) : orientation → orientation → orientation → Except Exception (dense_matrix α)
  | .row_major, Orientation1, Orientation2 =>
      gemm_impl_row_major e1 e2 m alpha Orientation1 Orientation2
  | .column_major, Orientation1, Orientation2 => do
      let transposedM ← gemm_impl_row_major e2.trans e1.trans m.trans alpha
        Orientation2.transposed_orientation Orientation1.transposed_orientation
      pure (m.store_trans transposedM)

/-- Dispatcher `bindings::gemm` of `kernels/default/gemm.hpp` (lines 141-159). -/
def gemm {α : Type} [Zero α] [One α] [Add α] [Mul α] (e1 e2 m : dense_matrix α)
    (alpha : α) : Except Exception (dense_matrix α) :=
  gemm_impl e1 e2 m alpha m.orientation e1.orientation e2.orientation

end bindings

namespace kernels

/-- Kernel `gemm(e1, e2, m, alpha)` of `kernels/gemm.hpp` (lines 56-71). -/
def gemm {α : Type} [Zero α] [One α] [Add α] [Mul α] (e1 e2 m : dense_matrix α)
    (alpha : α) : Except Exception (dense_matrix α) := do
  ABLAS_SIZE_CHECK (m.size1 == e1.size1) "m().size1() == e1().size1()"
  ABLAS_SIZE_CHECK (m.size2 == e2.size2) "m().size2() == e2().size2()"
  ABLAS_SIZE_CHECK (e1.size2 == e2.size1) "e1().size2() == e2().size1()"
  bindings.gemm e1 e2 m alpha

end kernels

/-! ### Reference results of the products

The two definitions below are not translated from the code: they state the
results that the specification gives for `gemv` and `gemm` (the textbook
definitions of `Test/gemv.cpp` and `Test/gemm.cpp`), to be compared with the
kernels above. -/

/-- Specification of `gemv`: `result(i) = result_old(i) + alpha * sum_k A(i,k) * x(k)`
for every row `i` of `A`; the size of `result` is kept. -/
def gemv_spec {α : Type} [Zero α] [Add α] [Mul α] (A : dense_matrix α)
    (x result : dense_vector α) (alpha : α) : dense_vector α :=
  { size := result.size,
    elem := fun i =>
      if i < A.size1 then
        result.elem i + alpha * ((List.range A.size2).map fun k => A.elem i k * x.elem k).sum
      else result.elem i }

/-- Specification of `gemm`: `m(i,j) = m_old(i,j) + alpha * sum_l e1(i,l) * e2(l,j)`
for every `i`, `j` inside the dimensions of `m`; dimensions and orientation of
`m` are kept. -/
def gemm_spec {α : Type} [Zero α] [Add α] [Mul α] (e1 e2 m : dense_matrix α) (alpha : α) :
    dense_matrix α :=
  { size1 := m.size1, size2 := m.size2, orientation := m.orientation,
    elem := fun i j =>
      if i < m.size1 ∧ j < m.size2 then
        m.elem i j +
          alpha * ((List.range e1.size2).map fun l => e1.elem i l * e2.elem l j).sum
      else m.elem i j }

namespace scheduling

namespace dependency_scheduling

/-- Condition under which the loop `while(num_work_items()) yield();` of
`wait()` is left. -/
def wait_returns (s : dependency_scheduling) : Bool :=
  s.num_work_items == 0

/-- Execution together with its history: the addresses of the work items
admitted by `spawn` and the addresses of the work items whose completion
handler has run (`on_complete`), both in call order. -/
inductive Run : dependency_scheduling → List Nat → List Nat → Prop
  | init : Run empty [] []
  | spawn {s : dependency_scheduling} {admitted completed : List Nat}
      (write_variable : Nat) (read_variables : List Nat) :
      Run s admitted completed →
      Run (enqueue_work s write_variable read_variables) (admitted ++ [s.next]) completed
  | on_complete {s : dependency_scheduling} {admitted completed : List Nat} (work : Nat) :
      Run s admitted completed → work ∈ s.m_pool → live s work →
      Run (finalize_work s work) admitted (completed ++ [work])

end dependency_scheduling

end scheduling

/-! ## Storage layout (`detail/structure.hpp`, `matrix.hpp`)

Values of `size_type` (`std::size_t`, 64 bit) are natural numbers below `2^64`;
`add64`, `sub64` and `mul64` are its operations, which wrap modulo `2^64`. -/

/-- Sum of two `size_type` values. -/
def add64 (a b : Nat) : Nat :=
  (a + b) % 18446744073709551616

/-- Difference of two `size_type` values. -/
def sub64 (a b : Nat) : Nat :=
  (a + 18446744073709551616 - b % 18446744073709551616) % 18446744073709551616

/-- Product of two `size_type` values. -/
def mul64 (a b : Nat) : Nat :=
  (a * b) % 18446744073709551616

/-- Tags `lower` and `upper` of `detail/structure.hpp`. -/
inductive triangular_type where
  | lower
  | upper
  deriving DecidableEq, Repr

namespace orientation

/-- Function `element(i, size_i, j, size_j)` as written, with its two checks and
the arithmetic of `size_type`. -/
def element_size_t : orientation → Nat → Nat → Nat → Nat → Except Exception Nat
  | row_major, i, size_i, j, size_j => do
      ABLAS_SIZE_CHECK (decide (i < size_i)) "i < size_i"
      ABLAS_SIZE_CHECK (decide (j < size_j)) "j < size_j"
      pure (add64 (mul64 i size_j) j)
  | column_major, i, size_i, j, size_j => do
      ABLAS_SIZE_CHECK (decide (i < size_i)) "i < size_i"
      ABLAS_SIZE_CHECK (decide (j < size_j)) "j < size_j"
      pure (add64 i (mul64 j size_i))

/-- Function `element(i, size_i, j, size_j)` with its two checks and exact
arithmetic: the value of `element_size_t` whenever the number of elements
`size_i * size_j` is a `size_type` value, as it is for an existing storage. -/
def element : orientation → Nat → Nat → Nat → Nat → Except Exception Nat
  | row_major, i, size_i, j, size_j => do
      ABLAS_SIZE_CHECK (decide (i < size_i)) "i < size_i"
      ABLAS_SIZE_CHECK (decide (j < size_j)) "j < size_j"
      pure (i * size_j + j)
  | column_major, i, size_i, j, size_j => do
      ABLAS_SIZE_CHECK (decide (i < size_i)) "i < size_i"
      ABLAS_SIZE_CHECK (decide (j < size_j)) "j < size_j"
      pure (i + j * size_i)

/-- The two overloads of `row_major::triangular_index(i, j, size, tag)`:
`i*(i+1)/2+j` and `(i*(2*size-i+1))/2+j-i` in the arithmetic of `size_type`. -/
def row_major_triangular_index (i j size : Nat) : triangular_type → Nat
  | .lower => add64 (mul64 i (add64 i 1) / 2) j
  | .upper => sub64 (add64 (mul64 i (add64 (sub64 (mul64 2 size) i) 1) / 2) j) i

/-- The two overloads of `column_major::triangular_index(i, j, size, tag)`; the
`transposed_orientation` of `column_major` is `row_major`. -/
def column_major_triangular_index (i j size : Nat) : triangular_type → Nat
  | .lower => row_major_triangular_index j i size .upper
  | .upper => row_major_triangular_index j i size .lower

/-- Function `Orientation::triangular_index(i, j, size, tag)`. -/
def triangular_index : orientation → Nat → Nat → Nat → triangular_type → Nat
  | row_major, i, j, size, t => row_major_triangular_index i j size t
  | column_major, i, j, size, t => column_major_triangular_index i j size t

end orientation

/-- State `detail::dense_matrix_state<T>` of a matrix: the storage, the
dependency node and the two sizes. -/
structure dense_matrix_state (α : Type) where
  data : List α
  dependencies : scheduling.dependency_node
  size1 : Nat
  size2 : Nat

namespace dense_matrix_state

/-- Constructor `dense_matrix_state()`; the dependency node is taken with the
counter value zero (`fresh`), here and in the other two constructors. -/
def default {α : Type} : dense_matrix_state α :=
  { data := [], dependencies := scheduling.dependency_node.fresh, size1 := 0, size2 := 0 }

/-- Constructor `dense_matrix_state(size1, size2)`: the storage holds
`size1 * size2` value-initialised elements. -/
def sized {α : Type} [Zero α] (size1 size2 : Nat) : dense_matrix_state α :=
  { data := List.replicate (size1 * size2) 0,
    dependencies := scheduling.dependency_node.fresh, size1 := size1, size2 := size2 }

/-- Constructor `dense_matrix_state(size1, size2, init)`. -/
def filled {α : Type} (size1 size2 : Nat) (init : α) : dense_matrix_state α :=
  { data := List.replicate (size1 * size2) init,
    dependencies := scheduling.dependency_node.fresh, size1 := size1, size2 := size2 }

end dense_matrix_state

/-- Method `resize(n)` of the storage container: the first `n` elements are
kept, missing ones are value-initialised. -/
def storage_resize {α : Type} [Zero α] (data : List α) (n : Nat) : List α :=
  data.take n ++ List.replicate (n - data.length) 0

namespace matrix

/-- Method `is_ready()` of a matrix that owns its state. -/
def is_ready {α : Type} (m_internals : dense_matrix_state α) : Bool :=
  m_internals.dependencies.is_ready

/-- Method `operator()(i, j)` of `dense_matrix_base` for the orientation `O`:
`storage()[orientation::element(i, size1(), j, size2())]`; `none` stands for
an index outside the storage. -/
def get {α : Type} (O : orientation) (m_internals : dense_matrix_state α) (i j : Nat) :
    Except Exception (Option α) := do
  let k ← O.element i m_internals.size1 j m_internals.size2
  pure (m_internals.data.get? k)

/-- Method `matrix::resize(new_size1, new_size2)` (lines 453-465). In the last
branch the matrix takes the state of the temporary; the old state goes to the
scheduler through the destructor of the temporary. -/
def resize {α : Type} [Zero α] (m_internals : dense_matrix_state α)
    (new_size1 new_size2 : Nat) : dense_matrix_state α :=
  if new_size1 == m_internals.size1 && new_size2 == m_internals.size2 then m_internals
  else if is_ready m_internals then
    { m_internals with
      data := storage_resize m_internals.data (new_size1 * new_size1)
      size1 := new_size1
      size2 := new_size2 }
  else dense_matrix_state.sized new_size1 new_size2

end matrix

/-! ## Evaluation of sums (`assign_to`, `plus_assign_to`)

The functions below give the contents of the target after the kernels that
`assign` and `plus_assign` spawn for elementwise operands have run in admission
order; an operand is seen through its sizes, orientation and `operator()`. -/

/-- Expression `scalar * e` (`matrix_scalar_multiply`): sizes and orientation of
`e`, `operator()(i, j) = m_scalar * m_expression(i, j)`. -/
def matrix_scalar_multiply {α : Type} [Mul α] (e : dense_matrix α) (scalar : α) :
    dense_matrix α :=
  { e with elem := fun i j => scalar * e.elem i j }

/-- Expression `scalar * e` (`vector_scalar_multiply`). -/
def vector_scalar_multiply {α : Type} [Mul α] (e : dense_vector α) (scalar : α) :
    dense_vector α :=
  { e with elem := fun i => scalar * e.elem i }

namespace evaluation

/-- Function `assign(A, B, alpha)` for matrices (`assignment.hpp`, lines 201-209)
with an elementwise `B`, followed by the spawned kernel. -/
def assign_matrix {α : Type} [Zero α] [Add α] [Mul α] (A B : dense_matrix α) (alpha : α) :
    Except Exception (dense_matrix α) := do
  ABLAS_SIZE_CHECK (A.size1 == B.size1) "A().size1() == B().size1()"
  ABLAS_SIZE_CHECK (A.size2 == B.size2) "A().size2() == B().size2()"
  kernels.assign_matrix scalar_assign A B alpha

/-- Function `plus_assign(A, B, alpha)` for matrices (`assignment.hpp`, lines
213-221) with an elementwise `B`, followed by the spawned kernel. -/
def plus_assign_matrix {α : Type} [Zero α] [Add α] [Mul α] (A B : dense_matrix α)
    (alpha : α) : Except Exception (dense_matrix α) := do
  ABLAS_SIZE_CHECK (A.size1 == B.size1) "A().size1() == B().size1()"
  ABLAS_SIZE_CHECK (A.size2 == B.size2) "A().size2() == B().size2()"
  kernels.assign_matrix scalar_plus_assign A B alpha

/-- Function `assign(x, v, alpha)` for vectors (`assignment.hpp`, lines 125-133)
with an elementwise `v`, followed by the spawned kernel. -/
def assign_vector {α : Type} [Add α] [Mul α] (x v : dense_vector α) (alpha : α) :
    Except Exception (dense_vector α) := do
  ABLAS_SIZE_CHECK (x.size == v.size) "x().size() == v().size()"
  kernels.assign_vector scalar_assign x v alpha

/-- Function `plus_assign(x, v, alpha)` for vectors (`assignment.hpp`, lines
137-145) with an elementwise `v`, followed by the spawned kernel. -/
def plus_assign_vector {α : Type} [Add α] [Mul α] (x v : dense_vector α) (alpha : α) :
    Except Exception (dense_vector α) := do
  ABLAS_SIZE_CHECK (x.size == v.size) "x().size() == v().size()"
  kernels.assign_vector scalar_plus_assign x v alpha

end evaluation

namespace matrix_addition

/-- Method `matrix_addition::assign_to(X, alpha)` (`matrix_expression.hpp`,
lines 278-281). -/
def assign_to {α : Type} [Zero α] [Add α] [Mul α] (m_lhs m_rhs X : dense_matrix α)
    (alpha : α) : Except Exception (dense_matrix α) := do
  let X ← evaluation.assign_matrix X m_lhs alpha
  evaluation.plus_assign_matrix X m_rhs alpha

/-- Method `matrix_addition::plus_assign_to(X, alpha)` (`matrix_expression.hpp`,
lines 283-286). -/
def plus_assign_to {α : Type} [Zero α] [Add α] [Mul α] (m_lhs m_rhs X : dense_matrix α)
    (alpha : α) : Except Exception (dense_matrix α) := do
  let X ← evaluation.plus_assign_matrix X (matrix_scalar_multiply m_lhs alpha) alpha
  evaluation.plus_assign_matrix X (matrix_scalar_multiply m_rhs alpha) alpha

end matrix_addition

namespace vector_addition

/-- Method `vector_addition::assign_to(x, alpha)` (`vector_expression.hpp`,
lines 305-308). -/
def assign_to {α : Type} [Add α] [Mul α] (m_lhs m_rhs x : dense_vector α) (alpha : α) :
    Except Exception (dense_vector α) := do
  let x ← evaluation.assign_vector x m_lhs alpha
  evaluation.plus_assign_vector x m_rhs alpha

/-- Method `vector_addition::plus_assign_to(x, alpha)` (`vector_expression.hpp`,
lines 310-313). -/
def plus_assign_to {α : Type} [Add α] [Mul α] (m_lhs m_rhs x : dense_vector α) (alpha : α) :
    Except Exception (dense_vector α) := do
  let x ← evaluation.plus_assign_vector x m_lhs alpha
  evaluation.plus_assign_vector x m_rhs alpha

end vector_addition

namespace scheduling

/-! ## Properties of the helper functions -/

theorem unique_cons_cons (a b : Nat) (t : List Nat) :
    unique (a :: b :: t) = if a = b then unique (b :: t) else a :: unique (b :: t) := rfl

theorem unique_singleton (a : Nat) : unique [a] = [a] := rfl

theorem mem_unique (x : Nat) : ∀ l : List Nat, x ∈ unique l ↔ x ∈ l
  | [] => by simp [unique]
  | [a] => by simp [unique]
  | a :: b :: t => by
    have ih := mem_unique x (b :: t)
    rw [unique_cons_cons]
    by_cases h : a = b
    · subst h
      rw [if_pos rfl, ih]
      simp
    · rw [if_neg h, List.mem_cons, ih]
      simp

theorem unique_eq_nil : ∀ l : List Nat, unique l = [] ↔ l = []
  | [] => by simp [unique]
  | [a] => by simp [unique]
  | a :: b :: t => by
    have ih := unique_eq_nil (b :: t)
    rw [unique_cons_cons]
    by_cases h : a = b
    · subst h
      rw [if_pos rfl, ih]
      simp
    · rw [if_neg h]
      simp

theorem foldl_push_out_edge (pos : Nat) :
    ∀ (D : List Nat) (L : List work_item),
      D.foldl (fun its item => push_out_edge its item pos) L = L.map (link D pos)
  | [], L => by
    have h : link [] pos = id := by
      funext w
      simp [link]
    simp [h]
  | d :: D, L => by
    rw [List.foldl_cons, foldl_push_out_edge pos D, push_out_edge, List.map_map]
    apply List.map_congr_left
    intro w _
    by_cases h : w.id = d
    · simp [link, h, List.replicate_succ]
    · have h2 : ¬ d = w.id := fun e => h e.symm
      simp [link, h, List.count_cons, h2]

theorem mem_collect_dependencies (nodes : Nat → dependency_node) (W x : Nat) :
    ∀ (R : List Nat) (acc : List Nat),
      x ∈ R.foldl (fun dependencies node =>
          if (nodes node).m_is_write_dependency then
            dependencies ++ (nodes node).m_dependencies.take 1
          else dependencies) acc ↔
        x ∈ acc ∨ ∃ r ∈ R, (nodes r).m_is_write_dependency = true ∧
          x ∈ (nodes r).m_dependencies.take 1
  | [], acc => by simp
  | r :: R, acc => by
    rw [List.foldl_cons, mem_collect_dependencies nodes W x R]
    by_cases h : (nodes r).m_is_write_dependency = true
    · simp only [h, if_true, List.mem_append, List.mem_cons, exists_eq_or_imp, true_and]
      tauto
    · simp only [h, List.mem_cons, exists_eq_or_imp, false_and, false_or]
      simp

/-- Repeated `add_read_dependency`. -/
theorem add_read_dependencies_apply (pos N : Nat) :
    ∀ (R : List Nat) (nodes : Nat → dependency_node),
      add_read_dependencies nodes R pos N =
        (fun n => dependency_node.add_read_dependency n pos)^[R.count N] (nodes N)
  | [], nodes => by simp [add_read_dependencies]
  | r :: R, nodes => by
    have ih := add_read_dependencies_apply pos N R
      (setNode nodes r ((nodes r).add_read_dependency pos))
    unfold add_read_dependencies at ih ⊢
    rw [List.foldl_cons, ih]
    by_cases h : r = N
    · subst h
      simp [setNode, Function.iterate_succ_apply]
    · have h2 : ¬ N = r := fun e => h e.symm
      simp [setNode, h2, List.count_cons, h]

theorem iterate_add_read_dependency (pos : Nat) (n : dependency_node) :
    ∀ k : Nat, (fun n => dependency_node.add_read_dependency n pos)^[k + 1] n =
      { m_dependencies :=
          (if n.m_is_write_dependency then [] else n.m_dependencies) ++
            List.replicate (k + 1) pos
        m_num_dependencies :=
          (if n.m_is_write_dependency then 0 else n.m_num_dependencies) + (k + 1)
        m_is_write_dependency := false }
  | 0 => by
    cases h : n.m_is_write_dependency <;>
      simp [dependency_node.add_read_dependency, h]
  | k + 1 => by
    rw [Function.iterate_succ_apply', iterate_add_read_dependency pos n k]
    simp [dependency_node.add_read_dependency, List.replicate_succ', Nat.add_assoc]

namespace dependency_scheduling

theorem enqueue_work_nodes (s : dependency_scheduling) (W : Nat) (R : List Nat) :
    (enqueue_work s W R).nodes =
      setNode (add_read_dependencies s.nodes R s.next) W
        { m_dependencies := [s.next], m_num_dependencies := 1, m_is_write_dependency := true } := by
  unfold enqueue_work
  simp only [dependency_node.write_dependency]
  split <;> rfl

theorem enqueue_work_next (s : dependency_scheduling) (W : Nat) (R : List Nat) :
    (enqueue_work s W R).next = s.next + 1 := by
  unfold enqueue_work
  simp only
  split <;> rfl

theorem enqueue_work_pool (s : dependency_scheduling) (W : Nat) (R : List Nat) :
    (enqueue_work s W R).m_pool =
      if unique (collect_dependencies s.nodes W R) = [] then s.m_pool ++ [s.next]
      else s.m_pool := by
  unfold enqueue_work
  simp only [List.isEmpty_iff]
  split <;> rfl

theorem enqueue_work_items (s : dependency_scheduling) (W : Nat) (R : List Nat)
    (h1 : ∀ w ∈ s.m_work_items, w.id ≠ s.next)
    (h2 : s.next ∉ unique (collect_dependencies s.nodes W R)) :
    (enqueue_work s W R).m_work_items =
      s.m_work_items.map (link (unique (collect_dependencies s.nodes W R)) s.next) ++
        [{ id := s.next, out_edges := [], in_variables := R ++ [W],
           active_dependencies := (unique (collect_dependencies s.nodes W R)).length }] := by
  have h3 : (enqueue_work s W R).m_work_items =
      push_in_variable
        ((unique (collect_dependencies s.nodes W R)).foldl
          (fun its item => push_out_edge its item s.next)
          (s.m_work_items ++
            [{ id := s.next, out_edges := [], in_variables := R,
               active_dependencies := (unique (collect_dependencies s.nodes W R)).length }]))
        s.next W := by
    unfold enqueue_work
    simp only
    split <;> rfl
  rw [h3, foldl_push_out_edge, push_in_variable, List.map_map, List.map_append]
  congr 1
  · apply List.map_congr_left
    intro w hw
    have := h1 w hw
    simp [link, this]
  · simp [link, List.count_eq_zero_of_not_mem h2]

theorem indeg_nil (x : Nat) : indeg [] x = 0 := rfl

theorem indeg_cons (w : work_item) (L : List work_item) (x : Nat) :
    indeg (w :: L) x = w.out_edges.count x + indeg L x := by
  simp [indeg]

theorem indeg_append (L M : List work_item) (x : Nat) :
    indeg (L ++ M) x = indeg L x + indeg M x := by
  simp [indeg]

theorem indeg_map (g : work_item → work_item) (x : Nat) :
    ∀ L : List work_item, (∀ w ∈ L, (g w).out_edges.count x = w.out_edges.count x) →
      indeg (L.map g) x = indeg L x
  | [], _ => rfl
  | w :: L, h => by
    rw [List.map_cons, indeg_cons, indeg_cons, indeg_map g x L, h w (List.mem_cons_self _ _)]
    intro v hv
    exact h v (List.mem_cons_of_mem _ hv)

theorem indeg_eq_zero (x : Nat) :
    ∀ L : List work_item, indeg L x = 0 ↔ ∀ v ∈ L, x ∉ v.out_edges
  | [] => by simp [indeg]
  | w :: L => by
    rw [indeg_cons, Nat.add_eq_zero, indeg_eq_zero x L, List.count_eq_zero]
    simp

theorem indeg_split (t x : Nat) :
    ∀ L : List work_item, L.Pairwise (fun a b => a.id < b.id) →
      ∀ w ∈ L, w.id = t →
        indeg L x = indeg (L.filter fun v => v.id != t) x + w.out_edges.count x
  | [], _, w, hw, _ => by cases hw
  | v :: L, hp, w, hw, ht => by
    rw [List.pairwise_cons] at hp
    rcases List.mem_cons.1 hw with rfl | hw2
    · have hf : (L.filter fun v => v.id != t) = L := by
        apply List.filter_eq_self.2
        intro u hu
        have := hp.1 u hu
        simp
        omega
      simp [List.filter_cons, ht, hf, indeg_cons, Nat.add_comm]
    · have hne : v.id ≠ t := by
        have := hp.1 w hw2
        omega
      have ih := indeg_split t x L hp.2 w hw2 ht
      simp [List.filter_cons, hne, indeg_cons, ih, Nat.add_assoc]

theorem find_live (t : Nat) :
    ∀ L : List work_item, L.Pairwise (fun a b => a.id < b.id) →
      ∀ w ∈ L, w.id = t → L.find? (fun u => u.id == t) = some w
  | [], _, w, hw, _ => by cases hw
  | v :: L, hp, w, hw, ht => by
    rw [List.pairwise_cons] at hp
    rcases List.mem_cons.1 hw with rfl | hw2
    · simp [List.find?_cons, ht]
    · have hne : v.id ≠ t := by
        have := hp.1 w hw2
        omega
      have hb : (v.id == t) = false := by simpa using hne
      rw [List.find?_cons, hb]
      exact find_live t L hp.2 w hw2 ht

theorem eq_of_id_eq {L : List work_item} (hp : L.Pairwise (fun a b => a.id < b.id))
    {a b : work_item} (ha : a ∈ L) (hb : b ∈ L) (h : a.id = b.id) : a = b := by
  have h1 := find_live b.id L hp a ha h
  have h2 := find_live b.id L hp b hb rfl
  rw [h1] at h2
  exact Option.some.inj h2

theorem notify_items (s : dependency_scheduling) (e : Nat) :
    (notify s e).m_work_items = s.m_work_items.map (set_active fun w =>
      if w.id = e then dec32 w.active_dependencies else w.active_dependencies) := by
  have h : ∀ L : List work_item,
      (L.map fun w =>
        if w.id = e then { w with active_dependencies := dec32 w.active_dependencies } else w) =
      L.map (set_active fun w =>
        if w.id = e then dec32 w.active_dependencies else w.active_dependencies) := by
    intro L
    apply List.map_congr_left
    intro w _
    by_cases hw : w.id = e <;> simp [set_active, hw]
  unfold notify
  simp only [h]
  split
  · split <;> rfl
  · rfl

theorem notify_nodes (s : dependency_scheduling) (e : Nat) : (notify s e).nodes = s.nodes := by
  unfold notify
  simp only
  split
  · split <;> rfl
  · rfl

theorem notify_next (s : dependency_scheduling) (e : Nat) : (notify s e).next = s.next := by
  unfold notify
  simp only
  split
  · split <;> rfl
  · rfl

theorem notify_pool (s : dependency_scheduling) (e : Nat)
    (hp : s.m_work_items.Pairwise fun a b => a.id < b.id)
    (w : work_item) (hw : w ∈ s.m_work_items) (he : w.id = e) :
    (notify s e).m_pool =
      if dec32 w.active_dependencies = 0 then s.m_pool ++ [e] else s.m_pool := by
  have hf : (s.m_work_items.map fun w =>
        if w.id = e then { w with active_dependencies := dec32 w.active_dependencies } else w).find?
        (fun u => u.id == e) =
      some { w with active_dependencies := dec32 w.active_dependencies } := by
    apply find_live
    · rw [List.pairwise_map]
      refine hp.imp ?_
      intro a b hab
      by_cases ha : a.id = e <;> by_cases hb : b.id = e <;> simp [ha, hb] <;> omega
    · refine List.mem_map.2 ⟨w, hw, ?_⟩
      simp [he]
    · exact he
  unfold notify
  simp only [hf]
  split <;> rfl

theorem notify_pool_sub (s : dependency_scheduling) (e : Nat) :
    ∃ l, (notify s e).m_pool = s.m_pool ++ l := by
  unfold notify
  simp only
  split
  · split
    · exact ⟨[e], rfl⟩
    · exact ⟨[], by simp⟩
  · exact ⟨[], by simp⟩

theorem frame_refl (s : dependency_scheduling) : Frame s s := by
  refine ⟨rfl, rfl, ⟨fun w => w.active_dependencies, ?_⟩, ⟨[], by simp⟩⟩
  have : set_active (fun w => w.active_dependencies) = id := by
    funext w
    rfl
  simp [this]

theorem frame_notify {s s1 : dependency_scheduling} (h : Frame s s1) (e : Nat) :
    Frame s (notify s1 e) := by
  obtain ⟨hn, hx, ⟨c, hc⟩, ⟨l, hl⟩⟩ := h
  obtain ⟨l2, hl2⟩ := notify_pool_sub s1 e
  refine ⟨by rw [notify_nodes, hn], by rw [notify_next, hx], ?_, ⟨l ++ l2, ?_⟩⟩
  · refine ⟨fun w => if w.id = e then dec32 (c w) else c w, ?_⟩
    rw [notify_items, hc, List.map_map]
    apply List.map_congr_left
    intro w _
    simp [set_active]
  · rw [hl2, hl, List.append_assoc]

theorem frame_foldl_notify :
    ∀ (E : List Nat) {s s1 : dependency_scheduling}, Frame s s1 → Frame s (E.foldl notify s1)
  | [], _, _, h => h
  | e :: E, _, _, h => by
    rw [List.foldl_cons]
    exact frame_foldl_notify E (frame_notify h e)

theorem filter_map_set_active (c : work_item → Nat) (t : Nat) (L : List work_item) :
    ((L.map (set_active c)).filter fun v => v.id != t) =
      (L.filter fun v => v.id != t).map (set_active c) := by
  rw [List.filter_map]
  rfl

theorem indeg_map_set_active (c : work_item → Nat) (x : Nat) (L : List work_item) :
    indeg (L.map (set_active c)) x = indeg L x :=
  indeg_map _ x L fun _ _ => rfl

theorem mem_map_set_active {c : work_item → Nat} {L : List work_item} {u : work_item} :
    u ∈ L.map (set_active c) ↔ ∃ v ∈ L, set_active c v = u :=
  List.mem_map

theorem live_of_frame {s s1 : dependency_scheduling} (h : Frame s s1) (t : Nat) :
    live s1 t ↔ live s t := by
  obtain ⟨_, _, ⟨c, hc⟩, _⟩ := h
  unfold live
  rw [hc]
  constructor
  · rintro ⟨w, hw, rfl⟩
    obtain ⟨v, hv, rfl⟩ := List.mem_map.1 hw
    exact ⟨v, hv, rfl⟩
  · rintro ⟨w, hw, rfl⟩
    exact ⟨set_active c w, List.mem_map.2 ⟨w, hw, rfl⟩, rfl⟩

theorem notifyInv_step {s : dependency_scheduling} {t e : Nat} {P : List Nat}
    (h : NotifyInv s t (e :: P)) : NotifyInv (notify s e) t P := by
  obtain ⟨w, hw, hwe⟩ := h.pending_live e (List.mem_cons_self _ _)
  have hfr : Frame s (notify s e) := frame_notify (frame_refl s) e
  have hwpos : w.active_dependencies ≠ 0 := by
    have := h.counts w hw
    rw [hwe, List.count_cons_self] at this
    omega
  have hdec : dec32 w.active_dependencies = w.active_dependencies - 1 := by
    simp [dec32, hwpos]
  have hnot : e ∉ s.m_pool := by
    intro hin
    have := (h.pool_iff w hw).1 (hwe ▸ hin)
    exact hwpos this
  have hpool := notify_pool s e h.ids_sorted w hw hwe
  have hitems := notify_items s e
  refine ⟨?_, ?_, ?_, ?_, ?_, ?_, ?_⟩
  · intro u hu
    rw [hitems] at hu
    obtain ⟨v, hv, rfl⟩ := List.mem_map.1 hu
    rw [notify_next]
    exact h.ids_lt v hv
  · rw [hitems, List.pairwise_map]
    exact h.ids_sorted
  · intro x hx
    exact (live_of_frame hfr x).2 (h.pending_live x (List.mem_cons_of_mem _ hx))
  · intro u hu
    rw [hitems] at hu ⊢
    obtain ⟨v, hv, rfl⟩ := List.mem_map.1 hu
    rw [filter_map_set_active, indeg_map_set_active]
    have hc := h.counts v hv
    by_cases hve : v.id = e
    · have hone := List.count_cons_self e P
      rw [hve] at hc
      have h1 : v = w := eq_of_id_eq h.ids_sorted hv hw (hve.trans hwe.symm)
      subst h1
      simp only [set_active, hve, if_true, hdec]
      omega
    · have hne : ¬ e = v.id := fun x => hve x.symm
      have hcnt : (e :: P).count v.id = P.count v.id := by
        simp [List.count_cons, hne]
      simp only [set_active, hve, if_false]
      omega
  · intro u hu
    rw [hitems] at hu
    obtain ⟨v, hv, rfl⟩ := List.mem_map.1 hu
    rw [hpool]
    by_cases hve : v.id = e
    · have h1 : v = w := eq_of_id_eq h.ids_sorted hv hw (hve.trans hwe.symm)
      subst h1
      simp only [set_active, hve, if_true]
      by_cases hz : dec32 v.active_dependencies = 0
      · simp [hz]
      · simp [hz, hnot]
    · have hiff := h.pool_iff v hv
      simp only [set_active, hve, if_false]
      by_cases hz : dec32 w.active_dependencies = 0
      · simp [hz, hve, hiff]
      · simp [hz, hiff]
  · rw [hpool]
    by_cases hz : dec32 w.active_dependencies = 0
    · simp only [hz, if_true]
      rw [List.nodup_append]
      refine ⟨h.pool_nodup, List.nodup_singleton _, ?_⟩
      intro a ha hb
      rw [List.mem_singleton] at hb
      exact hnot (hb ▸ ha)
    · simp only [hz, if_false]
      exact h.pool_nodup
  · intro x hx
    rw [notify_next]
    rw [hpool] at hx
    by_cases hz : dec32 w.active_dependencies = 0
    · simp only [hz, if_true, List.mem_append, List.mem_singleton] at hx
      rcases hx with hx | rfl
      · exact h.pool_lt x hx
      · exact hwe ▸ h.ids_lt w hw
    · simp only [hz, if_false] at hx
      exact h.pool_lt x hx

theorem notifyInv_foldl (t : Nat) :
    ∀ (P : List Nat) {s : dependency_scheduling}, NotifyInv s t P →
      NotifyInv (P.foldl notify s) t []
  | [], _, h => h
  | e :: P, _, h => by
    rw [List.foldl_cons]
    exact notifyInv_foldl t P (notifyInv_step h)

end dependency_scheduling

theorem remove_dependency_deps (n : dependency_node) (t : Nat) :
    (n.remove_dependency t).m_dependencies = n.m_dependencies.erase t := by
  unfold dependency_node.remove_dependency
  by_cases h : t ∈ n.m_dependencies
  · simp only [h, if_true]
    split <;> rfl
  · simp only [h, if_false, List.erase_of_not_mem h]
    split <;> rfl

theorem remove_dependency_ok (n : dependency_node) (t : Nat)
    (h1 : n.m_num_dependencies = n.m_dependencies.length)
    (h2 : n.m_is_write_dependency = true → n.m_dependencies.length = 1) :
    (n.remove_dependency t).m_num_dependencies = (n.remove_dependency t).m_dependencies.length ∧
    ((n.remove_dependency t).m_is_write_dependency = true →
      (n.remove_dependency t).m_dependencies.length = 1) := by
  unfold dependency_node.remove_dependency
  by_cases h : t ∈ n.m_dependencies
  · have hlen := List.length_erase_of_mem h
    have hpos : 0 < n.m_dependencies.length := List.length_pos_of_mem h
    have hdec : dec32 n.m_num_dependencies = n.m_dependencies.length - 1 := by
      rw [h1]
      unfold dec32
      rw [if_neg (by omega)]
    simp only [h, if_true]
    split
    · rename_i he
      simp only [List.isEmpty_iff] at he
      simp [hdec, hlen]
    · rename_i he
      simp only [List.isEmpty_iff] at he
      refine ⟨by simp [hdec, hlen], ?_⟩
      intro hf
      exfalso
      apply he
      have := h2 hf
      apply List.eq_nil_of_length_eq_zero
      simp only at hlen ⊢
      omega
  · simp only [h, if_false]
    split
    · rename_i he
      simp only [List.isEmpty_iff] at he
      simp [h1, he]
    · exact ⟨h1, h2⟩

theorem iterate_remove_dependency_deps (t : Nat) :
    ∀ (k : Nat) (n : dependency_node),
      ((fun n => dependency_node.remove_dependency n t)^[k] n).m_dependencies =
        (fun l : List Nat => l.erase t)^[k] n.m_dependencies
  | 0, _ => rfl
  | k + 1, n => by
    rw [Function.iterate_succ_apply, Function.iterate_succ_apply,
      iterate_remove_dependency_deps t k, remove_dependency_deps]

theorem iterate_remove_dependency_ok (t : Nat) :
    ∀ (k : Nat) (n : dependency_node),
      n.m_num_dependencies = n.m_dependencies.length →
      (n.m_is_write_dependency = true → n.m_dependencies.length = 1) →
      ((fun n => dependency_node.remove_dependency n t)^[k] n).m_num_dependencies =
        ((fun n => dependency_node.remove_dependency n t)^[k] n).m_dependencies.length ∧
      (((fun n => dependency_node.remove_dependency n t)^[k] n).m_is_write_dependency = true →
        ((fun n => dependency_node.remove_dependency n t)^[k] n).m_dependencies.length = 1)
  | 0, _, h1, h2 => ⟨h1, h2⟩
  | k + 1, n, h1, h2 => by
    rw [Function.iterate_succ_apply]
    have := remove_dependency_ok n t h1 h2
    exact iterate_remove_dependency_ok t k _ this.1 this.2

theorem count_iterate_erase_of_ne {x t : Nat} (h : x ≠ t) :
    ∀ (k : Nat) (l : List Nat), ((fun l : List Nat => l.erase t)^[k] l).count x = l.count x
  | 0, _ => rfl
  | k + 1, l => by
    rw [Function.iterate_succ_apply, count_iterate_erase_of_ne h k, List.count_erase_of_ne h]

theorem count_iterate_erase_self (t : Nat) :
    ∀ (k : Nat) (l : List Nat), ((fun l : List Nat => l.erase t)^[k] l).count t = l.count t - k
  | 0, _ => rfl
  | k + 1, l => by
    rw [Function.iterate_succ_apply, count_iterate_erase_self t k, List.count_erase_self]
    omega

theorem mem_iterate_erase (x t : Nat) :
    ∀ (k : Nat) (l : List Nat), x ∈ (fun l : List Nat => l.erase t)^[k] l → x ∈ l
  | 0, _, h => h
  | k + 1, l, h => by
    rw [Function.iterate_succ_apply] at h
    exact List.mem_of_mem_erase (mem_iterate_erase x t k _ h)

namespace dependency_scheduling

theorem remove_dependencies_apply (t N : Nat) :
    ∀ (V : List Nat) (nodes : Nat → dependency_node),
      remove_dependencies nodes V t N =
        (fun n => dependency_node.remove_dependency n t)^[V.count N] (nodes N)
  | [], nodes => by simp [remove_dependencies]
  | r :: V, nodes => by
    have ih := remove_dependencies_apply t N V
      (setNode nodes r ((nodes r).remove_dependency t))
    unfold remove_dependencies at ih ⊢
    rw [List.foldl_cons, ih]
    by_cases h : r = N
    · subst h
      simp [setNode, Function.iterate_succ_apply]
    · have h2 : ¬ N = r := fun e => h e.symm
      simp [setNode, h2, List.count_cons, h]

theorem finalize_work_eq (s : dependency_scheduling) (t : Nat) (w : work_item)
    (h : s.m_work_items.find? (fun u => u.id == t) = some w) :
    finalize_work s t =
      { w.out_edges.foldl notify s with
        nodes := remove_dependencies (w.out_edges.foldl notify s).nodes w.in_variables t
        m_work_items := (w.out_edges.foldl notify s).m_work_items.filter fun u => u.id != t } := by
  unfold finalize_work
  rw [h]

theorem notifyInv_of_inv {s : dependency_scheduling} (h : Inv s) (w : work_item)
    (hw : w ∈ s.m_work_items) : NotifyInv s w.id w.out_edges := by
  refine ⟨h.ids_lt, h.ids_sorted, h.edges_live w hw, ?_, h.pool_iff, h.pool_nodup, h.pool_lt⟩
  intro u hu
  rw [h.counts u hu, indeg_split w.id u.id _ h.ids_sorted w hw rfl]

theorem no_edge_to_dispatched {s : dependency_scheduling} (h : Inv s) (w : work_item)
    (hw : w ∈ s.m_work_items) (hp : w.id ∈ s.m_pool) :
    ∀ v ∈ s.m_work_items, w.id ∉ v.out_edges := by
  have h0 := (h.pool_iff w hw).1 hp
  rw [h.counts w hw] at h0
  exact (indeg_eq_zero _ _).1 h0

theorem chain_transfer {s s2 : dependency_scheduling} {t a c : Nat}
    (hno : ∀ b, ¬ edge s b t) (hedge : ∀ x y, edge s x y → x ≠ t → edge s2 x y)
    (ha : a ≠ t) (h : Relation.ReflTransGen (edge s) a c) :
    Relation.ReflTransGen (edge s2) a c ∧ c ≠ t := by
  induction h with
  | refl => exact ⟨Relation.ReflTransGen.refl, ha⟩
  | tail _ hbc ih =>
    refine ⟨ih.1.tail (hedge _ _ hbc ih.2), ?_⟩
    rintro rfl
    exact hno _ hbc

/-- Components of the state after `finalize_work` of a live, dispatched item. -/
theorem finalize_work_shape {s : dependency_scheduling} (h : Inv s) (w : work_item)
    (hw : w ∈ s.m_work_items) :
    (finalize_work s w.id).nodes = remove_dependencies s.nodes w.in_variables w.id ∧
    (finalize_work s w.id).next = s.next ∧
    (∃ c, (finalize_work s w.id).m_work_items =
      (s.m_work_items.filter fun u => u.id != w.id).map (set_active c)) ∧
    (∃ l, (finalize_work s w.id).m_pool = s.m_pool ++ l) ∧
    (finalize_work s w.id).m_pool = (w.out_edges.foldl notify s).m_pool ∧
    (finalize_work s w.id).m_work_items =
      (w.out_edges.foldl notify s).m_work_items.filter (fun u => u.id != w.id) := by
  have hf := find_live w.id _ h.ids_sorted w hw rfl
  have hfr : Frame s (w.out_edges.foldl notify s) := frame_foldl_notify _ (frame_refl s)
  obtain ⟨hn, hx, ⟨c, hc⟩, hl⟩ := hfr
  rw [finalize_work_eq s w.id w hf]
  refine ⟨by simp only [hn], hx, ⟨c, ?_⟩, hl, rfl, rfl⟩
  simp only [hc, filter_map_set_active]

theorem inv_finalize_work {s : dependency_scheduling} (h : Inv s) (w : work_item)
    (hw : w ∈ s.m_work_items) (hp : w.id ∈ s.m_pool) : Inv (finalize_work s w.id) := by
  obtain ⟨hnodes, hnext, ⟨c, hitems⟩, ⟨l, hpool⟩, hpool1, hitems1⟩ := finalize_work_shape h w hw
  have hNI : NotifyInv (w.out_edges.foldl notify s) w.id [] :=
    notifyInv_foldl _ _ (notifyInv_of_inv h w hw)
  have hno := no_edge_to_dispatched h w hw hp
  have hmem : ∀ u, u ∈ (finalize_work s w.id).m_work_items ↔
      ∃ v ∈ s.m_work_items, v.id ≠ w.id ∧ set_active c v = u := by
    intro u
    rw [hitems, List.mem_map]
    constructor
    · rintro ⟨v, hv, rfl⟩
      rw [List.mem_filter] at hv
      exact ⟨v, hv.1, by simpa using hv.2, rfl⟩
    · rintro ⟨v, hv, hne, rfl⟩
      exact ⟨v, List.mem_filter.2 ⟨hv, by simpa using hne⟩, rfl⟩
  have hlive : ∀ x, live s x → x ≠ w.id → live (finalize_work s w.id) x := by
    rintro x ⟨v, hv, rfl⟩ hne
    exact ⟨set_active c v, (hmem _).2 ⟨v, hv, hne, rfl⟩, rfl⟩
  have hlive2 : ∀ x, live (finalize_work s w.id) x → live s x ∧ x ≠ w.id := by
    rintro x ⟨u, hu, rfl⟩
    obtain ⟨v, hv, hne, rfl⟩ := (hmem _).1 hu
    exact ⟨⟨v, hv, rfl⟩, hne⟩
  have hedge : ∀ x y, edge s x y → x ≠ w.id → edge (finalize_work s w.id) x y := by
    rintro x y ⟨v, hv, rfl, hy⟩ hne
    exact ⟨set_active c v, (hmem _).2 ⟨v, hv, hne, rfl⟩, rfl, hy⟩
  have hnoedge : ∀ b, ¬ edge s b w.id := by
    rintro b ⟨v, hv, _, hy⟩
    exact hno v hv hy
  have hdeps : ∀ N, ((finalize_work s w.id).nodes N).m_dependencies =
      (fun l : List Nat => l.erase w.id)^[w.in_variables.count N] (s.nodes N).m_dependencies := by
    intro N
    rw [hnodes, remove_dependencies_apply, iterate_remove_dependency_deps]
  have hself : ∀ N, w.id ∉ ((finalize_work s w.id).nodes N).m_dependencies := by
    intro N
    rw [hdeps, ← List.count_eq_zero, count_iterate_erase_self]
    have := h.claims_mult w hw N
    omega
  have hkeep : ∀ N x, x ≠ w.id → x ∈ (s.nodes N).m_dependencies →
      x ∈ ((finalize_work s w.id).nodes N).m_dependencies := by
    intro N x hne hx
    rw [hdeps, ← List.count_pos_iff, count_iterate_erase_of_ne hne]
    exact List.count_pos_iff.2 hx
  refine ⟨?_, ?_, ?_, ?_, ?_, ?_, ?_, ?_, ?_, ?_, ?_, ?_, ?_, ?_⟩
  · intro u hu
    obtain ⟨v, hv, _, rfl⟩ := (hmem _).1 hu
    rw [hnext]
    exact h.ids_lt v hv
  · rw [hitems, List.pairwise_map]
    exact h.ids_sorted.filter _
  · intro u hu e he
    obtain ⟨v, hv, _, rfl⟩ := (hmem _).1 hu
    exact h.edges_later v hv e he
  · intro u hu e he
    obtain ⟨v, hv, _, rfl⟩ := (hmem _).1 hu
    refine hlive e (h.edges_live v hv e he) ?_
    rintro rfl
    exact hno v hv he
  · intro u hu
    have hu1 : u ∈ (w.out_edges.foldl notify s).m_work_items := by
      rw [hitems1] at hu
      exact (List.mem_filter.1 hu).1
    have := hNI.counts u hu1
    rw [hitems1]
    simpa using this
  · intro u hu
    have hu1 : u ∈ (w.out_edges.foldl notify s).m_work_items := by
      rw [hitems1] at hu
      exact (List.mem_filter.1 hu).1
    rw [hpool1]
    exact hNI.pool_iff u hu1
  · rw [hpool1]
    exact hNI.pool_nodup
  · intro x hx
    rw [hpool1] at hx
    have := hNI.pool_lt x hx
    rw [hnext]
    have hfr : Frame s (w.out_edges.foldl notify s) := frame_foldl_notify _ (frame_refl s)
    rw [hfr.2.1] at this
    exact this
  · intro x hx hnl
    rw [hnext] at hx
    rw [hpool]
    apply List.mem_append_left
    by_cases hxw : x = w.id
    · exact hxw ▸ hp
    · exact h.done_pool x hx fun hl => hnl (hlive x hl hxw)
  · intro N x hx
    have hne : x ≠ w.id := by
      rintro rfl
      exact hself N hx
    rw [hdeps] at hx
    exact hlive x (h.claims_live N x (mem_iterate_erase _ _ _ _ hx)) hne
  · intro u hu N
    obtain ⟨v, hv, hne, rfl⟩ := (hmem _).1 hu
    rw [hdeps]
    show List.count v.id _ ≤ _
    rw [count_iterate_erase_of_ne hne]
    exact h.claims_mult v hv N
  · intro N
    rw [hnodes, remove_dependencies_apply]
    exact (iterate_remove_dependency_ok _ _ _ (h.node_count N) (h.node_flag N)).1
  · intro N
    rw [hnodes, remove_dependencies_apply]
    exact (iterate_remove_dependency_ok _ _ _ (h.node_count N) (h.node_flag N)).2
  · intro u hu N hN
    obtain ⟨v, hv, hne, rfl⟩ := (hmem _).1 hu
    obtain ⟨x, hx, hchain⟩ := h.covered v hv N hN
    have := chain_transfer hnoedge hedge hne hchain
    exact ⟨x, hkeep N x this.2 hx, this.1⟩

theorem enqueue_work_node_write (s : dependency_scheduling) (W : Nat) (R : List Nat) :
    (enqueue_work s W R).nodes W =
      { m_dependencies := [s.next], m_num_dependencies := 1, m_is_write_dependency := true } := by
  rw [enqueue_work_nodes]
  simp [setNode]

theorem enqueue_work_node_other (s : dependency_scheduling) (W : Nat) (R : List Nat) (N : Nat)
    (hW : N ≠ W) (hR : N ∉ R) : (enqueue_work s W R).nodes N = s.nodes N := by
  rw [enqueue_work_nodes]
  simp [setNode, hW, add_read_dependencies_apply, List.count_eq_zero_of_not_mem hR]

theorem enqueue_work_node_read (s : dependency_scheduling) (W : Nat) (R : List Nat) (N : Nat)
    (hW : N ≠ W) (hR : N ∈ R) :
    (enqueue_work s W R).nodes N =
      { m_dependencies :=
          (if (s.nodes N).m_is_write_dependency then [] else (s.nodes N).m_dependencies) ++
            List.replicate (R.count N) s.next
        m_num_dependencies :=
          (if (s.nodes N).m_is_write_dependency then 0 else (s.nodes N).m_num_dependencies) +
            R.count N
        m_is_write_dependency := false } := by
  rw [enqueue_work_nodes]
  have hpos : 0 < R.count N := List.count_pos_iff.2 hR
  obtain ⟨k, hk⟩ : ∃ k, R.count N = k + 1 := ⟨R.count N - 1, by omega⟩
  simp only [setNode, hW, if_false, add_read_dependencies_apply, hk]
  exact iterate_add_read_dependency s.next (s.nodes N) k

theorem sum_indicator (d : Nat) :
    ∀ L : List work_item, L.Pairwise (fun a b => a.id < b.id) → (∃ x ∈ L, x.id = d) →
      (L.map fun x => if d = x.id then 1 else 0).sum = 1
  | [], _, h => by
    obtain ⟨x, hx, _⟩ := h
    cases hx
  | v :: L, hp, h => by
    rw [List.pairwise_cons] at hp
    obtain ⟨x, hx, hxd⟩ := h
    rcases List.mem_cons.1 hx with rfl | hx2
    · have hz : (L.map fun y => if d = y.id then 1 else 0).sum = 0 := by
        apply List.sum_eq_zero
        intro n hn
        obtain ⟨y, hy, rfl⟩ := List.mem_map.1 hn
        have := hp.1 y hy
        rw [if_neg (by omega)]
      simp [hxd, hz]
    · have hne : ¬ d = v.id := by
        have := hp.1 x hx2
        omega
      simp only [List.map_cons, List.sum_cons, hne, if_false, Nat.zero_add]
      exact sum_indicator d L hp.2 ⟨x, hx2, hxd⟩

theorem sum_count_ids (L : List work_item) (hp : L.Pairwise (fun a b => a.id < b.id)) :
    ∀ D : List Nat, (∀ d ∈ D, ∃ x ∈ L, x.id = d) →
      (L.map fun x => D.count x.id).sum = D.length
  | [], _ => by simp
  | d :: D, h => by
    have ih := sum_count_ids L hp D fun e he => h e (List.mem_cons_of_mem _ he)
    have h1 := sum_indicator d L hp (h d (List.mem_cons_self _ _))
    have h2 : (L.map fun x => (d :: D).count x.id) =
        L.map fun x => D.count x.id + (if d = x.id then 1 else 0) := by
      apply List.map_congr_left
      intro x _
      rw [List.count_cons]
      simp
    rw [h2, List.sum_map_add, ih, h1, List.length_cons]

theorem indeg_map_link_of_ne (D : List Nat) (p x : Nat) (hx : x ≠ p) (L : List work_item) :
    indeg (L.map (link D p)) x = indeg L x := by
  apply indeg_map
  intro w _
  have h : ¬ p = x := fun e => hx e.symm
  simp [link, List.count_replicate, h]

theorem indeg_map_link_self (D : List Nat) (p : Nat) (L : List work_item)
    (hfresh : ∀ w ∈ L, p ∉ w.out_edges) :
    indeg (L.map (link D p)) p = (L.map fun x => D.count x.id).sum := by
  unfold indeg
  rw [List.map_map]
  congr 1
  apply List.map_congr_left
  intro w hw
  simp [link, List.count_replicate, List.count_eq_zero_of_not_mem (hfresh w hw)]

theorem mem_dependencies (s : dependency_scheduling) (W : Nat) (R : List Nat) (x : Nat) :
    x ∈ unique (collect_dependencies s.nodes W R) ↔
      x ∈ (s.nodes W).m_dependencies ∨
        ∃ r ∈ R, (s.nodes r).m_is_write_dependency = true ∧
          x ∈ (s.nodes r).m_dependencies.take 1 := by
  rw [mem_unique]
  exact mem_collect_dependencies s.nodes W x R _

theorem dependencies_live {s : dependency_scheduling} (h : Inv s) (W : Nat) (R : List Nat) :
    ∀ d ∈ unique (collect_dependencies s.nodes W R), live s d := by
  intro d hd
  rcases (mem_dependencies s W R d).1 hd with hd | ⟨r, _, _, hd⟩
  · exact h.claims_live W d hd
  · exact h.claims_live r d (List.mem_of_mem_take hd)

theorem lt_next_of_live {s : dependency_scheduling} (h : Inv s) {t : Nat} (ht : live s t) :
    t < s.next := by
  obtain ⟨w, hw, rfl⟩ := ht
  exact h.ids_lt w hw

theorem next_not_mem_dependencies {s : dependency_scheduling} (h : Inv s) (W : Nat)
    (R : List Nat) : s.next ∉ unique (collect_dependencies s.nodes W R) := by
  intro hd
  have := lt_next_of_live h (dependencies_live h W R _ hd)
  omega

/-- List of work items after `enqueue_work` from a state that satisfies the invariant. -/
theorem enqueue_work_items_of_inv {s : dependency_scheduling} (h : Inv s) (W : Nat)
    (R : List Nat) :
    (enqueue_work s W R).m_work_items =
      s.m_work_items.map (link (unique (collect_dependencies s.nodes W R)) s.next) ++
        [{ id := s.next, out_edges := [], in_variables := R ++ [W],
           active_dependencies := (unique (collect_dependencies s.nodes W R)).length }] := by
  apply enqueue_work_items
  · intro w hw
    have := h.ids_lt w hw
    omega
  · exact next_not_mem_dependencies h W R

theorem mem_enqueue_work_items {s : dependency_scheduling} (h : Inv s) (W : Nat)
    (R : List Nat) (u : work_item) :
    u ∈ (enqueue_work s W R).m_work_items ↔
      (∃ v ∈ s.m_work_items, link (unique (collect_dependencies s.nodes W R)) s.next v = u) ∨
        u = { id := s.next, out_edges := [], in_variables := R ++ [W],
              active_dependencies := (unique (collect_dependencies s.nodes W R)).length } := by
  rw [enqueue_work_items_of_inv h, List.mem_append, List.mem_map, List.mem_singleton]

theorem live_enqueue_work {s : dependency_scheduling} (h : Inv s) (W : Nat) (R : List Nat)
    (t : Nat) : live (enqueue_work s W R) t ↔ live s t ∨ t = s.next := by
  unfold live
  constructor
  · rintro ⟨u, hu, rfl⟩
    rcases (mem_enqueue_work_items h W R u).1 hu with ⟨v, hv, rfl⟩ | rfl
    · exact Or.inl ⟨v, hv, rfl⟩
    · exact Or.inr rfl
  · rintro (⟨v, hv, rfl⟩ | rfl)
    · exact ⟨_, (mem_enqueue_work_items h W R _).2 (Or.inl ⟨v, hv, rfl⟩), rfl⟩
    · exact ⟨_, (mem_enqueue_work_items h W R _).2 (Or.inr rfl), rfl⟩

theorem edge_enqueue_work_of_edge {s : dependency_scheduling} (h : Inv s) (W : Nat)
    (R : List Nat) {a b : Nat} (hab : edge s a b) : edge (enqueue_work s W R) a b := by
  obtain ⟨v, hv, rfl, hb⟩ := hab
  refine ⟨_, (mem_enqueue_work_items h W R _).2 (Or.inl ⟨v, hv, rfl⟩), rfl, ?_⟩
  simp [link, hb]

theorem edge_enqueue_work_new {s : dependency_scheduling} (h : Inv s) (W : Nat)
    (R : List Nat) {d : Nat} (hd : d ∈ unique (collect_dependencies s.nodes W R)) :
    edge (enqueue_work s W R) d s.next := by
  obtain ⟨v, hv, rfl⟩ := dependencies_live h W R d hd
  refine ⟨_, (mem_enqueue_work_items h W R _).2 (Or.inl ⟨v, hv, rfl⟩), rfl, ?_⟩
  have : 0 < (unique (collect_dependencies s.nodes W R)).count v.id := List.count_pos_iff.2 hd
  have hne : (unique (collect_dependencies s.nodes W R)).count v.id ≠ 0 := by omega
  simp [link, List.mem_replicate, hne]

theorem next_not_mem_out_edges {s : dependency_scheduling} (h : Inv s) :
    ∀ w ∈ s.m_work_items, s.next ∉ w.out_edges := by
  intro w hw he
  have := lt_next_of_live h (h.edges_live w hw _ he)
  omega

theorem inv_enqueue_work {s : dependency_scheduling} (h : Inv s) (W : Nat) (R : List Nat) :
    Inv (enqueue_work s W R) := by
  have hmem := mem_enqueue_work_items h W R
  have hitems := enqueue_work_items_of_inv h W R
  have hnext := enqueue_work_next s W R
  have hpool := enqueue_work_pool s W R
  have hDlive := dependencies_live h W R
  have hpD := next_not_mem_dependencies h W R
  have hlive := live_enqueue_work h W R
  have hppool : s.next ∉ s.m_pool := fun hx => Nat.lt_irrefl _ (h.pool_lt _ hx)
  have hpdeps : ∀ N, s.next ∉ (s.nodes N).m_dependencies := by
    intro N hx
    have := lt_next_of_live h (h.claims_live N _ hx)
    omega
  have hsub : ∀ x, x ∈ s.m_pool → x ∈ (enqueue_work s W R).m_pool := by
    intro x hx
    rw [hpool]
    split
    · exact List.mem_append_left _ hx
    · exact hx
  refine ⟨?_, ?_, ?_, ?_, ?_, ?_, ?_, ?_, ?_, ?_, ?_, ?_, ?_, ?_⟩
  · intro u hu
    rw [hnext]
    rcases (hmem u).1 hu with ⟨v, hv, rfl⟩ | rfl
    · have := h.ids_lt v hv
      show v.id < _
      omega
    · show s.next < _
      omega
  · rw [hitems, List.pairwise_append]
    refine ⟨?_, List.pairwise_singleton _ _, ?_⟩
    · rw [List.pairwise_map]
      exact h.ids_sorted
    · intro a ha b hb
      rw [List.mem_singleton] at hb
      obtain ⟨v, hv, rfl⟩ := List.mem_map.1 ha
      subst hb
      exact h.ids_lt v hv
  · intro u hu e he
    rcases (hmem u).1 hu with ⟨v, hv, rfl⟩ | rfl
    · simp only [link, List.mem_append, List.mem_replicate] at he
      rcases he with he | ⟨_, rfl⟩
      · exact h.edges_later v hv e he
      · exact h.ids_lt v hv
    · cases he
  · intro u hu e he
    rcases (hmem u).1 hu with ⟨v, hv, rfl⟩ | rfl
    · simp only [link, List.mem_append, List.mem_replicate] at he
      rcases he with he | ⟨_, rfl⟩
      · exact (hlive e).2 (Or.inl (h.edges_live v hv e he))
      · exact (hlive _).2 (Or.inr rfl)
    · cases he
  · intro u hu
    rw [hitems, indeg_append, indeg_cons, indeg_nil]
    rcases (hmem u).1 hu with ⟨v, hv, rfl⟩ | rfl
    · have hne : v.id ≠ s.next := Nat.ne_of_lt (h.ids_lt v hv)
      show v.active_dependencies = indeg _ v.id + _
      rw [indeg_map_link_of_ne _ _ _ hne, ← h.counts v hv]
      simp
    · show _ = indeg _ s.next + _
      rw [indeg_map_link_self _ _ _ (next_not_mem_out_edges h),
        sum_count_ids _ h.ids_sorted _ hDlive]
      simp
  · intro u hu
    rw [hpool]
    rcases (hmem u).1 hu with ⟨v, hv, rfl⟩ | rfl
    · have hne : v.id ≠ s.next := Nat.ne_of_lt (h.ids_lt v hv)
      show v.id ∈ _ ↔ v.active_dependencies = 0
      rw [← h.pool_iff v hv]
      split
      · simp [hne]
      · rfl
    · show s.next ∈ _ ↔ (unique (collect_dependencies s.nodes W R)).length = 0
      by_cases hD : unique (collect_dependencies s.nodes W R) = []
      · simp [hD]
      · simp [hD, hppool]
  · rw [hpool]
    split
    · rw [List.nodup_append]
      refine ⟨h.pool_nodup, List.nodup_singleton _, ?_⟩
      intro a ha hb
      rw [List.mem_singleton] at hb
      exact hppool (hb ▸ ha)
    · exact h.pool_nodup
  · intro x hx
    rw [hnext]
    rw [hpool] at hx
    split at hx
    · rcases List.mem_append.1 hx with hx | hx
      · have := h.pool_lt x hx
        omega
      · rw [List.mem_singleton] at hx
        omega
    · have := h.pool_lt x hx
      omega
  · intro x hx hnl
    rw [hnext] at hx
    have hne : x ≠ s.next := fun e => hnl ((hlive x).2 (Or.inr e))
    exact hsub x (h.done_pool x (by omega) fun hl => hnl ((hlive x).2 (Or.inl hl)))
  · intro N x hx
    by_cases hW : N = W
    · subst hW
      rw [enqueue_work_node_write] at hx
      simp only [List.mem_singleton] at hx
      exact (hlive x).2 (Or.inr hx)
    · by_cases hR : N ∈ R
      · rw [enqueue_work_node_read s W R N hW hR] at hx
        simp only [List.mem_append, List.mem_replicate] at hx
        rcases hx with hx | ⟨_, rfl⟩
        · refine (hlive x).2 (Or.inl (h.claims_live N x ?_))
          split at hx
          · cases hx
          · exact hx
        · exact (hlive _).2 (Or.inr rfl)
      · rw [enqueue_work_node_other s W R N hW hR] at hx
        exact (hlive x).2 (Or.inl (h.claims_live N x hx))
  · intro u hu N
    rcases (hmem u).1 hu with ⟨v, hv, rfl⟩ | rfl
    · have hne : v.id ≠ s.next := Nat.ne_of_lt (h.ids_lt v hv)
      have hne2 : ¬ s.next = v.id := fun e => hne e.symm
      have hm := h.claims_mult v hv N
      show List.count v.id _ ≤ v.in_variables.count N
      by_cases hW : N = W
      · subst hW
        rw [enqueue_work_node_write]
        simp [List.count_cons, hne2]
      · by_cases hR : N ∈ R
        · rw [enqueue_work_node_read s W R N hW hR]
          simp only [List.count_append, List.count_replicate, beq_iff_eq, hne2, if_false,
            Nat.add_zero]
          split
          · simp
          · exact hm
        · rw [enqueue_work_node_other s W R N hW hR]
          exact hm
    · show List.count s.next _ ≤ (R ++ [W]).count N
      by_cases hW : N = W
      · subst hW
        rw [enqueue_work_node_write]
        simp
      · have hWN : ¬ W = N := fun e => hW e.symm
        have hz : (s.nodes N).m_dependencies.count s.next = 0 :=
          List.count_eq_zero_of_not_mem (hpdeps N)
        by_cases hR : N ∈ R
        · rw [enqueue_work_node_read s W R N hW hR]
          simp only [List.count_append, List.count_replicate, beq_self_eq_true, if_true,
            List.count_cons, beq_iff_eq, hWN, if_false, List.count_nil, Nat.add_zero]
          split
          · simp
          · omega
        · rw [enqueue_work_node_other s W R N hW hR, hz]
          exact Nat.zero_le _
  · intro N
    by_cases hW : N = W
    · subst hW
      rw [enqueue_work_node_write]
      rfl
    · by_cases hR : N ∈ R
      · rw [enqueue_work_node_read s W R N hW hR]
        have := h.node_count N
        simp only [List.length_append, List.length_replicate]
        split
        · simp
        · omega
      · rw [enqueue_work_node_other s W R N hW hR]
        exact h.node_count N
  · intro N
    by_cases hW : N = W
    · subst hW
      rw [enqueue_work_node_write]
      intro _
      rfl
    · by_cases hR : N ∈ R
      · rw [enqueue_work_node_read s W R N hW hR]
        intro hf
        simp at hf
      · rw [enqueue_work_node_other s W R N hW hR]
        exact h.node_flag N
  · intro u hu N hN
    rcases (hmem u).1 hu with ⟨v, hv, rfl⟩ | rfl
    · obtain ⟨c, hc, hchain⟩ := h.covered v hv N hN
      have hchain2 : Relation.ReflTransGen (edge (enqueue_work s W R)) v.id c :=
        hchain.mono fun a b hab => edge_enqueue_work_of_edge h W R hab
      show ∃ c ∈ _, Relation.ReflTransGen _ v.id c
      by_cases hW : N = W
      · subst hW
        rw [enqueue_work_node_write]
        refine ⟨s.next, List.mem_singleton.2 rfl, hchain2.tail ?_⟩
        exact edge_enqueue_work_new h N R ((mem_dependencies s N R c).2 (Or.inl hc))
      · by_cases hR : N ∈ R
        · rw [enqueue_work_node_read s W R N hW hR]
          have hcnt : R.count N ≠ 0 := Nat.ne_of_gt (List.count_pos_iff.2 hR)
          by_cases hf : (s.nodes N).m_is_write_dependency = true
          · refine ⟨s.next, by simp [List.mem_replicate, hcnt], hchain2.tail ?_⟩
            apply edge_enqueue_work_new h W R
            refine (mem_dependencies s W R c).2 (Or.inr ⟨N, hR, hf, ?_⟩)
            have hlen := h.node_flag N hf
            rw [List.take_of_length_le (by omega)]
            exact hc
          · exact ⟨c, by simp [hf, hc], hchain2⟩
        · rw [enqueue_work_node_other s W R N hW hR]
          exact ⟨c, hc, hchain2⟩
    · show ∃ c ∈ _, Relation.ReflTransGen _ s.next c
      refine ⟨s.next, ?_, Relation.ReflTransGen.refl⟩
      by_cases hW : N = W
      · subst hW
        rw [enqueue_work_node_write]
        exact List.mem_singleton.2 rfl
      · have hR : N ∈ R := by
          simp only [List.mem_append, List.mem_singleton] at hN
          rcases hN with hN | hN
          · exact hN
          · exact absurd hN hW
        rw [enqueue_work_node_read s W R N hW hR]
        have hcnt : R.count N ≠ 0 := Nat.ne_of_gt (List.count_pos_iff.2 hR)
        simp [List.mem_replicate, hcnt]

theorem inv_empty : Inv empty := by
  refine ⟨?_, ?_, ?_, ?_, ?_, ?_, ?_, ?_, ?_, ?_, ?_, ?_, ?_, ?_⟩ <;>
    simp [empty, dependency_node.fresh]

theorem inv_step {s s1 : dependency_scheduling} (h : Inv s) (hs : Step s s1) : Inv s1 := by
  cases hs with
  | spawn W R => exact inv_enqueue_work h W R
  | on_complete t hp hl =>
    obtain ⟨w, hw, rfl⟩ := hl
    exact inv_finalize_work h w hw hp

theorem inv_of_reachable {s : dependency_scheduling} (h : Reachable s) : Inv s := by
  induction h with
  | init => exact inv_empty
  | step _ hs ih => exact inv_step ih hs

theorem reachable_of_steps {s s1 : dependency_scheduling} (h : Reachable s)
    (hs : Relation.ReflTransGen Step s s1) : Reachable s1 := by
  induction hs with
  | refl => exact h
  | tail _ hst ih => exact Reachable.step ih hst

theorem mem_finalize_work_items {s : dependency_scheduling} (h : Inv s) (w : work_item)
    (hw : w ∈ s.m_work_items) :
    ∃ c, ∀ u, u ∈ (finalize_work s w.id).m_work_items ↔
      ∃ v ∈ s.m_work_items, v.id ≠ w.id ∧ set_active c v = u := by
  obtain ⟨_, _, ⟨c, hitems⟩, _⟩ := finalize_work_shape h w hw
  refine ⟨c, fun u => ?_⟩
  rw [hitems, List.mem_map]
  constructor
  · rintro ⟨v, hv, rfl⟩
    rw [List.mem_filter] at hv
    exact ⟨v, hv.1, by simpa using hv.2, rfl⟩
  · rintro ⟨v, hv, hne, rfl⟩
    exact ⟨v, List.mem_filter.2 ⟨hv, by simpa using hne⟩, rfl⟩

theorem live_finalize_work {s : dependency_scheduling} (h : Inv s) (w : work_item)
    (hw : w ∈ s.m_work_items) (x : Nat) :
    live (finalize_work s w.id) x ↔ live s x ∧ x ≠ w.id := by
  obtain ⟨c, hmem⟩ := mem_finalize_work_items h w hw
  constructor
  · rintro ⟨u, hu, rfl⟩
    obtain ⟨v, hv, hne, rfl⟩ := (hmem _).1 hu
    exact ⟨⟨v, hv, rfl⟩, hne⟩
  · rintro ⟨⟨v, hv, rfl⟩, hne⟩
    exact ⟨set_active c v, (hmem _).2 ⟨v, hv, hne, rfl⟩, rfl⟩

theorem edge_finalize_work {s : dependency_scheduling} (h : Inv s) (w : work_item)
    (hw : w ∈ s.m_work_items) {x y : Nat} (hxy : edge s x y) (hne : x ≠ w.id) :
    edge (finalize_work s w.id) x y := by
  obtain ⟨c, hmem⟩ := mem_finalize_work_items h w hw
  obtain ⟨v, hv, rfl, hy⟩ := hxy
  exact ⟨set_active c v, (hmem _).2 ⟨v, hv, hne, rfl⟩, rfl, hy⟩

theorem edge_target_waits {s : dependency_scheduling} (h : Inv s) {a b : Nat}
    (hab : edge s a b) : live s a ∧ live s b ∧ b ∉ s.m_pool := by
  obtain ⟨v, hv, rfl, hb⟩ := hab
  refine ⟨⟨v, hv, rfl⟩, h.edges_live v hv b hb, ?_⟩
  intro hp
  obtain ⟨u, hu, rfl⟩ := h.edges_live v hv b hb
  exact no_edge_to_dispatched h u hu hp v hv hb

theorem precedes_waits {s : dependency_scheduling} (h : Inv s) {a b : Nat}
    (hab : precedes s a b) : live s a ∧ live s b ∧ b ∉ s.m_pool := by
  unfold precedes at hab
  induction hab with
  | single hxy => exact edge_target_waits h hxy
  | tail _ hxy ih =>
    have := edge_target_waits h hxy
    exact ⟨ih.1, this.2⟩

theorem precedes_transfer {s s2 : dependency_scheduling} {t a c : Nat}
    (hno : ∀ b, ¬ edge s b t) (hedge : ∀ x y, edge s x y → x ≠ t → edge s2 x y)
    (ha : a ≠ t) (h : precedes s a c) : precedes s2 a c ∧ c ≠ t := by
  unfold precedes at h ⊢
  induction h with
  | single hxy =>
    refine ⟨Relation.TransGen.single (hedge _ _ hxy ha), ?_⟩
    rintro rfl
    exact hno _ hxy
  | tail _ hbc ih =>
    refine ⟨ih.1.tail (hedge _ _ hbc ih.2), ?_⟩
    rintro rfl
    exact hno _ hbc

/-- A predecessor relation survives every step in which the predecessor stays live. -/
theorem precedes_step {s s1 : dependency_scheduling} (h : Inv s) (hs : Step s s1)
    {a b : Nat} (hab : precedes s a b) (hl : live s1 a) : precedes s1 a b := by
  cases hs with
  | spawn W R =>
    exact Relation.TransGen.mono (fun x y hxy => edge_enqueue_work_of_edge h W R hxy) hab
  | on_complete t hp ht =>
    obtain ⟨w, hw, rfl⟩ := ht
    have hne := ((live_finalize_work h w hw a).1 hl).2
    refine (precedes_transfer ?_ (fun x y hxy hx => edge_finalize_work h w hw hxy hx) hne hab).1
    rintro b ⟨v, hv, _, hy⟩
    exact no_edge_to_dispatched h w hw hp v hv hy

theorem next_le_of_step {s s1 : dependency_scheduling} (h : Inv s) (hs : Step s s1) :
    s.next ≤ s1.next := by
  cases hs with
  | spawn W R =>
    rw [enqueue_work_next]
    omega
  | on_complete t hp ht =>
    obtain ⟨w, hw, rfl⟩ := ht
    rw [(finalize_work_shape h w hw).2.1]

theorem live_of_step {s s1 : dependency_scheduling} (h : Inv s) (hs : Step s s1) {a : Nat}
    (ha : a < s.next) (hl : live s1 a) : live s a := by
  cases hs with
  | spawn W R =>
    rcases (live_enqueue_work h W R a).1 hl with hl | rfl
    · exact hl
    · omega
  | on_complete t hp ht =>
    obtain ⟨w, hw, rfl⟩ := ht
    exact ((live_finalize_work h w hw a).1 hl).1

/-- While `a` is live, a work item that `a` precedes is not handed to the pool. -/
theorem waits_along_steps {s s1 : dependency_scheduling} (h : Inv s) {a b : Nat}
    (hab : precedes s a b) (hs : Relation.ReflTransGen Step s s1) :
    Inv s1 ∧ s.next ≤ s1.next ∧ (live s1 a → precedes s1 a b ∧ b ∉ s1.m_pool) := by
  induction hs with
  | refl => exact ⟨h, Nat.le_refl _, fun _ => ⟨hab, (precedes_waits h hab).2.2⟩⟩
  | tail _ hst ih =>
    obtain ⟨hinv, hle, hw⟩ := ih
    have hinv1 := inv_step hinv hst
    refine ⟨hinv1, Nat.le_trans hle (next_le_of_step hinv hst), ?_⟩
    intro hl
    have ha : a < s.next := lt_next_of_live h (precedes_waits h hab).1
    have hl0 := live_of_step hinv hst (Nat.lt_of_lt_of_le ha hle) hl
    have hp := precedes_step hinv hst (hw hl0).1 hl
    exact ⟨hp, (precedes_waits hinv1 hp).2.2⟩

/-- Every live item that names the write variable of an admission becomes a
direct or transitive predecessor of the admitted item. -/
theorem precedes_new_of_write {s : dependency_scheduling} (h : Inv s) (X : Nat) (R : List Nat)
    (T : work_item) (hT : T ∈ s.m_work_items) (hX : X ∈ T.in_variables) :
    precedes (enqueue_work s X R) T.id s.next := by
  obtain ⟨c, hc, hchain⟩ := h.covered T hT X hX
  have hchain2 : Relation.ReflTransGen (edge (enqueue_work s X R)) T.id c :=
    hchain.mono fun a b hab => edge_enqueue_work_of_edge h X R hab
  have hedge : edge (enqueue_work s X R) c s.next :=
    edge_enqueue_work_new h X R ((mem_dependencies s X R c).2 (Or.inl hc))
  exact Relation.TransGen.tail' hchain2 hedge

/-! ## Claims about the scheduler -/

theorem reachable_spawn {s : dependency_scheduling} (h : Reachable s) (W : Nat) (R : List Nat) :
    Reachable (spawn s W R) :=
  Reachable.step h (Step.spawn s W R)

/-- C1: the single-writer/multiple-reader discipline fails on the code. Task 0
writes variable 0, task 1 reads variable 0 (and is linked behind task 0), task 2
reads variable 0 as well: variable 0 is no write dependency any more, so task 2
is handed to the pool at admission while the writer, task 0, is dispatched and
not completed. -/
theorem exclusive_access_violated :
    Reachable (spawn (spawn (spawn empty 0 []) 1 [0]) 2 [0]) ∧
      ¬ exclusive_access (spawn (spawn (spawn empty 0 []) 1 [0]) 2 [0]) := by
  refine ⟨reachable_spawn (reachable_spawn (reachable_spawn Reachable.init _ _) _ _) _ _, ?_⟩
  intro h
  have h1 := h ⟨0, [1], [0], 0⟩ (by decide) ⟨2, [], [0, 2], 0⟩ (by decide) (by decide)
    (by decide) (by decide) 0 (by decide) (by decide)
  exact h1.1 rfl

/-- C2: after a spawn with write variable `X` from a reachable state, every
live work item that has `X` among its variables is a direct or transitive
predecessor of the new item, and in every later state in which that item is
still live the new item has not been handed to the pool. -/
theorem write_waits_for_prior_claims {s : dependency_scheduling} (hs : Reachable s)
    (X : Nat) (R : List Nat) (T : work_item) (hT : T ∈ s.m_work_items)
    (hX : X ∈ T.in_variables) :
    precedes (spawn s X R) T.id s.next ∧
      ∀ s1, Relation.ReflTransGen Step (spawn s X R) s1 → live s1 T.id →
        s.next ∉ s1.m_pool := by
  have h := inv_of_reachable hs
  have hp := precedes_new_of_write h X R T hT hX
  refine ⟨hp, fun s1 hsteps hl => ?_⟩
  exact ((waits_along_steps (inv_enqueue_work h X R) hp hsteps).2.2 hl).2

/-- Instance of C2: task 0 writes variable 0, the next writer of variable 0 waits for it. -/
theorem write_waits_for_prior_claims_witness :
    Reachable (spawn empty 0 []) ∧
      (⟨0, [], [0], 0⟩ : work_item) ∈ (spawn empty 0 []).m_work_items ∧
      precedes (spawn (spawn empty 0 []) 0 [1]) 0 1 ∧
      1 ∉ (spawn (spawn empty 0 []) 0 [1]).m_pool :=
  ⟨reachable_spawn Reachable.init 0 [], by decide,
    (write_waits_for_prior_claims (reachable_spawn Reachable.init 0 []) 0 [1]
      ⟨0, [], [0], 0⟩ (by decide) (by decide)).1,
    (write_waits_for_prior_claims (reachable_spawn Reachable.init 0 []) 0 [1]
      ⟨0, [], [0], 0⟩ (by decide) (by decide)).2 _ Relation.ReflTransGen.refl
      ⟨⟨0, [1], [0], 0⟩, by decide, rfl⟩⟩

/-- C3: read-after-write fails on the code once a reader was admitted between
the writer and the new reader. Task 0 writes variable 0 and is not completed,
task 1 reads variable 0; task 2, spawned reading variable 0, has no direct or
transitive predecessor and is handed to the pool while task 0 is still live. -/
theorem read_after_write_violated :
    Reachable (spawn (spawn empty 0 []) 1 [0]) ∧
      (⟨0, [1], [0], 0⟩ : work_item) ∈ (spawn (spawn empty 0 []) 1 [0]).m_work_items ∧
      ¬ precedes (spawn (spawn (spawn empty 0 []) 1 [0]) 2 [0]) 0 2 ∧
      2 ∈ (spawn (spawn (spawn empty 0 []) 1 [0]) 2 [0]).m_pool ∧
      live (spawn (spawn (spawn empty 0 []) 1 [0]) 2 [0]) 0 := by
  refine ⟨reachable_spawn (reachable_spawn Reachable.init _ _) _ _, by decide, ?_, by decide,
    ⟨⟨0, [1], [0], 0⟩, by decide, rfl⟩⟩
  intro hp
  obtain ⟨x, _, w, hw, _, h2⟩ := Relation.TransGen.tail'_iff.1 hp
  have hall : ∀ w ∈ (spawn (spawn (spawn empty 0 []) 1 [0]) 2 [0]).m_work_items,
      2 ∉ w.out_edges := by decide
  exact hall w hw h2

/-- C5: when `create_closure` admits the clean-up kernel, every live work item
that names the dependency node of the temporary (in particular every one the
producer spawned) is a direct or transitive predecessor of the clean-up kernel,
and in every later state in which such an item is still live the clean-up
kernel has not been handed to the pool. -/
theorem closure_sentinel_waits {s : dependency_scheduling} (hs : Reachable s) (V : Nat)
    (producer : dependency_scheduling → dependency_scheduling)
    (hprod : Relation.ReflTransGen Step s (producer s))
    (T : work_item) (hT : T ∈ (producer s).m_work_items) (hV : V ∈ T.in_variables) :
    live (create_closure s V producer) (producer s).next ∧
    precedes (create_closure s V producer) T.id (producer s).next ∧
      ∀ s1, Relation.ReflTransGen Step (create_closure s V producer) s1 → live s1 T.id →
        (producer s).next ∉ s1.m_pool := by
  have h := inv_of_reachable (reachable_of_steps hs hprod)
  have hp := precedes_new_of_write h V [] T hT hV
  refine ⟨(live_enqueue_work h V [] _).2 (Or.inr rfl), hp, fun s1 hsteps hl => ?_⟩
  exact ((waits_along_steps (inv_enqueue_work h V []) hp hsteps).2.2 hl).2

/-- Instance of C5: the producer spawns one reader of the temporary. -/
theorem closure_sentinel_waits_witness :
    Reachable empty ∧
      Relation.ReflTransGen Step empty (spawn empty 1 [0]) ∧
      (⟨0, [], [0, 1], 0⟩ : work_item) ∈ (spawn empty 1 [0]).m_work_items ∧
      precedes (create_closure empty 0 fun s => spawn s 1 [0]) 0 1 ∧
      1 ∉ (create_closure empty 0 fun s => spawn s 1 [0]).m_pool :=
  ⟨Reachable.init, Relation.ReflTransGen.single (Step.spawn empty 1 [0]), by decide,
    (closure_sentinel_waits Reachable.init 0 (fun s => spawn s 1 [0])
      (Relation.ReflTransGen.single (Step.spawn empty 1 [0]))
      ⟨0, [], [0, 1], 0⟩ (by decide) (by decide)).2.1,
    (closure_sentinel_waits Reachable.init 0 (fun s => spawn s 1 [0])
      (Relation.ReflTransGen.single (Step.spawn empty 1 [0]))
      ⟨0, [], [0, 1], 0⟩ (by decide) (by decide)).2.2 _ Relation.ReflTransGen.refl
      ⟨⟨0, [1], [0, 1], 0⟩, by decide, rfl⟩⟩

/-- C6 fails on the code: `dependency_node()` does not initialise
`m_num_dependencies`. With a node 0 whose counter holds `4294967295` after its
construction, `spawn(f, 1, {0})` admits task 0 reading node 0; the increment of
`add_read_dependency` wraps to zero, so node 0 reports ready while task 0, which
it stores as a claim, is in the list of work items. For every value `garbage 0`
of the counter, node 0 reports ready after this admission exactly when the
incremented value is zero modulo `2^32`. -/
theorem claimed_node_reports_ready :
    Reachable_u32 (fun _ => 4294967295)
      (enqueue_work_u32 (constructed fun _ => 4294967295) 1 [0]) ∧
    (⟨0, [], [0, 1], 0⟩ : work_item) ∈
      (enqueue_work_u32 (constructed fun _ => 4294967295) 1 [0]).m_work_items ∧
    ((enqueue_work_u32 (constructed fun _ => 4294967295) 1 [0]).nodes 0).m_dependencies
      = [0] ∧
    ((enqueue_work_u32 (constructed fun _ => 4294967295) 1 [0]).nodes 0).m_num_dependencies
      = 0 ∧
    ((enqueue_work_u32 (constructed fun _ => 4294967295) 1 [0]).nodes 0).is_ready = true ∧
    ∀ garbage : Nat → Nat,
      (((enqueue_work_u32 (constructed garbage) 1 [0]).nodes 0).is_ready = true ↔
        (garbage 0 + 1) % 4294967296 = 0) := by
  refine ⟨Reachable_u32.step Reachable_u32.init (Step_u32.spawn _ 1 [0]), by decide,
    by decide, by decide, by decide, fun garbage => ?_⟩
  show (inc32 (garbage 0) == 0) = true ↔ _
  simp only [inc32, beq_iff_eq]

/-- C7: in every reachable state a live work item is in the pool log exactly
when its `active_dependencies` is zero; the log holds no work item twice; a
work item in the log is in no live item's `out_edges` (no unfinished
predecessor); and every work item that was admitted and is no longer live has
been handed to the pool. -/
theorem dispatched_iff_no_active_dependencies {s : dependency_scheduling}
    (hs : Reachable s) :
    (∀ u ∈ s.m_work_items, u.id ∈ s.m_pool ↔ u.active_dependencies = 0) ∧
    (∀ t, s.m_pool.count t ≤ 1) ∧
    (∀ u ∈ s.m_work_items, u.id ∈ s.m_pool → ∀ v ∈ s.m_work_items, u.id ∉ v.out_edges) ∧
    (∀ t, t < s.next → ¬ live s t → s.m_pool.count t = 1) := by
  have h := inv_of_reachable hs
  have hcount : ∀ t, s.m_pool.count t ≤ 1 := fun t => List.nodup_iff_count_le_one.1 h.pool_nodup t
  refine ⟨h.pool_iff, hcount, fun u hu hp => no_edge_to_dispatched h u hu hp, ?_⟩
  intro t ht hl
  have hpos : 0 < s.m_pool.count t := List.count_pos_iff.2 (h.done_pool t ht hl)
  have := hcount t
  omega

/-- Instance of C7: after one completion the pool log is `[0, 1]`. -/
theorem dispatched_iff_no_active_dependencies_witness :
    Reachable (finalize_work (spawn (spawn empty 0 []) 1 [0]) 0) ∧
      (finalize_work (spawn (spawn empty 0 []) 1 [0]) 0).m_pool = [0, 1] ∧
      (finalize_work (spawn (spawn empty 0 []) 1 [0]) 0).m_pool.count 0 = 1 :=
  ⟨Reachable.step (reachable_spawn (reachable_spawn Reachable.init 0 []) 1 [0])
      (Step.on_complete _ 0 (by decide) ⟨⟨0, [1], [0], 0⟩, by decide, rfl⟩),
    by decide,
    (dispatched_iff_no_active_dependencies
      (Reachable.step (reachable_spawn (reachable_spawn Reachable.init 0 []) 1 [0])
        (Step.on_complete _ 0 (by decide) ⟨⟨0, [1], [0], 0⟩, by decide, rfl⟩))).2.2.2 0
      (by decide) (by
        rintro ⟨w, hw, hid⟩
        have hall : ∀ w ∈ (finalize_work (spawn (spawn empty 0 []) 1 [0]) 0).m_work_items,
            w.id ≠ 0 := by decide
        exact hall w hw hid)⟩

/-- C8: after a spawn from a reachable state the live items whose `out_edges`
hold the new item are exactly the members of the write variable's dependencies
and, for every read variable that is a write dependency, the single member of
its dependencies; before the spawn no live item holds the new item. -/
theorem linked_behind_iff {s : dependency_scheduling} (hs : Reachable s) (W : Nat)
    (R : List Nat) (a : Nat) :
    ¬ edge s a s.next ∧
    (edge (spawn s W R) a s.next ↔
      a ∈ (s.nodes W).m_dependencies ∨
        ∃ r ∈ R, (s.nodes r).m_is_write_dependency = true ∧
          (s.nodes r).m_dependencies = [a]) := by
  have h := inv_of_reachable hs
  have hfresh : ¬ edge s a s.next := by
    rintro ⟨v, hv, _, he⟩
    exact next_not_mem_out_edges h v hv he
  have htake : ∀ r, (s.nodes r).m_is_write_dependency = true →
      (a ∈ (s.nodes r).m_dependencies.take 1 ↔ (s.nodes r).m_dependencies = [a]) := by
    intro r hf
    have hlen := h.node_flag r hf
    rw [List.take_of_length_le (by omega)]
    obtain ⟨x, hx⟩ := List.length_eq_one.1 hlen
    rw [hx]
    simp [eq_comm]
  refine ⟨hfresh, ?_, ?_⟩
  · rintro ⟨u, hu, rfl, he⟩
    rcases (mem_enqueue_work_items h W R u).1 hu with ⟨v, hv, rfl⟩ | rfl
    · simp only [link, List.mem_append, List.mem_replicate] at he
      rcases he with he | ⟨hc, _⟩
      · exact absurd he (next_not_mem_out_edges h v hv)
      · have hd : v.id ∈ unique (collect_dependencies s.nodes W R) :=
          List.count_pos_iff.1 (Nat.pos_of_ne_zero hc)
        rcases (mem_dependencies s W R v.id).1 hd with hd | ⟨r, hr, hf, hd⟩
        · exact Or.inl hd
        · exact Or.inr ⟨r, hr, hf, (htake r hf).1 hd⟩
    · cases he
  · intro hd
    apply edge_enqueue_work_new h W R
    rcases hd with hd | ⟨r, hr, hf, hd⟩
    · exact (mem_dependencies s W R a).2 (Or.inl hd)
    · exact (mem_dependencies s W R a).2 (Or.inr ⟨r, hr, hf, (htake r hf).2 hd⟩)

/-- Instance of C8: a reader of the variable written by task 0 is linked behind task 0. -/
theorem linked_behind_iff_witness :
    Reachable (spawn empty 0 []) ∧ edge (spawn (spawn empty 0 []) 1 [0]) 0 1 :=
  ⟨reachable_spawn Reachable.init 0 [],
    ((linked_behind_iff (reachable_spawn Reachable.init 0 []) 1 [0] 0).2).2
      (Or.inr ⟨0, by decide, by decide, by decide⟩)⟩

/-- C9: the predecessor count is not the number of distinct predecessors.
Tasks 0 and 1 read variable 0 and task 0 writes variable 1; the spawn that
writes variable 0 and reads variable 1 collects `[0, 1, 0]`, `std::unique`
removes nothing, and the new item gets `active_dependencies = 3` for the two
predecessors 0 and 1. -/
theorem active_dependencies_counts_duplicates :
    Reachable (spawn (spawn empty 1 [0]) 2 [0]) ∧
      unique (collect_dependencies (spawn (spawn empty 1 [0]) 2 [0]).nodes 0 [1]) = [0, 1, 0] ∧
      (unique (collect_dependencies (spawn (spawn empty 1 [0]) 2 [0]).nodes 0 [1])).dedup.length
        = 2 ∧
      (spawn (spawn (spawn empty 1 [0]) 2 [0]) 0 [1]).m_work_items.getLast? =
        some { id := 2, out_edges := [], in_variables := [1, 0], active_dependencies := 3 } :=
  ⟨reachable_spawn (reachable_spawn Reachable.init _ _) _ _, by decide, by decide, by decide⟩

theorem getLast_append_replicate (l : List Nat) (p : Nat) {k : Nat} (hk : k ≠ 0) :
    (l ++ List.replicate k p).getLast? = some p := by
  obtain ⟨j, rfl⟩ : ∃ j, k = j + 1 := ⟨k - 1, by omega⟩
  rw [List.replicate_succ', ← List.append_assoc, List.getLast?_append]
  simp

/-- C10: after `spawn(body, W, R)` the write variable `W` holds exactly the new
item, is a write dependency and has counter 1 (also when `W` occurs in `R`);
every read variable different from `W` is no write dependency and its
dependency list ends with the new item. -/
theorem claims_after_spawn (s : dependency_scheduling) (W : Nat) (R : List Nat) :
    (spawn s W R).nodes W =
        { m_dependencies := [s.next], m_num_dependencies := 1, m_is_write_dependency := true } ∧
      ∀ r ∈ R, r ≠ W →
        ((spawn s W R).nodes r).m_is_write_dependency = false ∧
          ((spawn s W R).nodes r).m_dependencies.getLast? = some s.next := by
  refine ⟨enqueue_work_node_write s W R, fun r hr hW => ?_⟩
  unfold spawn
  rw [enqueue_work_node_read s W R r hW hr]
  exact ⟨rfl, getLast_append_replicate _ _ (Nat.ne_of_gt (List.count_pos_iff.2 hr))⟩

end dependency_scheduling
end scheduling
end aBLAS

/-! ## Claims about one dependency node -/

namespace aBLAS
namespace scheduling

theorem node_reachable_ok {n : dependency_node} (h : dependency_node.Reachable n) :
    n.m_num_dependencies = n.m_dependencies.length ∧
      (n.m_is_write_dependency = true → n.m_dependencies.length = 1) := by
  induction h with
  | fresh => exact ⟨rfl, fun hf => by cases hf⟩
  | write n work _ _ => exact ⟨rfl, fun _ => rfl⟩
  | read n work _ ih =>
    cases hf : n.m_is_write_dependency
    · refine ⟨by simp [dependency_node.add_read_dependency, hf, ih.1], fun hg => ?_⟩
      simp [dependency_node.add_read_dependency, hf] at hg
    · refine ⟨by simp [dependency_node.add_read_dependency, hf], fun hg => ?_⟩
      simp [dependency_node.add_read_dependency, hf] at hg
  | remove n work _ ih => exact remove_dependency_ok n work ih.1 ih.2

/-- C14: `write_dependency` on a node in any state leaves the dependency list
`[work]`, the flag set and the counter 1. -/
theorem write_dependency_result (n : dependency_node) (work : Nat) :
    (n.write_dependency work).m_dependencies = [work] ∧
      (n.write_dependency work).m_is_write_dependency = true ∧
      (n.write_dependency work).m_num_dependencies = 1 :=
  ⟨rfl, rfl, rfl⟩

/-- Below `4294967295` the increment of the counter does not wrap:
`add_read_dependency` with the exact increment is the method of the source. -/
theorem add_read_dependency_u32_eq (n : dependency_node) (work : Nat)
    (h : n.m_num_dependencies < 4294967295) :
    n.add_read_dependency_u32 work = n.add_read_dependency work := by
  unfold dependency_node.add_read_dependency_u32 dependency_node.add_read_dependency
  cases hf : n.m_is_write_dependency
  · have e : inc32 n.m_num_dependencies = n.m_num_dependencies + 1 :=
      Nat.mod_eq_of_lt (by omega)
    simp [e]
  · simp [inc32]

/-- C15, as stated, fails: on a node that is no write dependency and whose
counter holds `4294967295`, `add_read_dependency` appends the task and leaves
the counter at 0, not at `4294967296`. -/
theorem add_read_dependency_count_wraps :
    (dependency_node.constructed 4294967295).m_is_write_dependency = false ∧
    (dependency_node.constructed 4294967295).m_num_dependencies = 4294967295 ∧
    ((dependency_node.constructed 4294967295).add_read_dependency_u32 7).m_dependencies
      = [7] ∧
    ((dependency_node.constructed 4294967295).add_read_dependency_u32 7).m_num_dependencies
      = 0 ∧
    ((dependency_node.constructed 4294967295).add_read_dependency_u32 7).m_num_dependencies
      ≠ (dependency_node.constructed 4294967295).m_num_dependencies + 1 :=
  ⟨rfl, rfl, by decide, by decide, by decide⟩

/-- C15, amended: `add_read_dependency` on a node that is a write dependency
gives the list `[work]`, counter 1 and the flag cleared; on a node that is no
write dependency the old list with `work` appended, the flag still cleared and
the counter plus one modulo `2^32`: plus one below `4294967295`, and 0 from
`4294967295`. -/
theorem add_read_dependency_u32_result (n : dependency_node) (work : Nat) :
    (n.m_is_write_dependency = true →
      n.add_read_dependency_u32 work =
        { m_dependencies := [work], m_num_dependencies := 1, m_is_write_dependency := false }) ∧
    (n.m_is_write_dependency = false →
      n.add_read_dependency_u32 work =
        { m_dependencies := n.m_dependencies ++ [work],
          m_num_dependencies := (n.m_num_dependencies + 1) % 4294967296,
          m_is_write_dependency := false }) ∧
    (n.m_is_write_dependency = false → n.m_num_dependencies < 4294967295 →
      (n.add_read_dependency_u32 work).m_num_dependencies = n.m_num_dependencies + 1) ∧
    (n.m_is_write_dependency = false → n.m_num_dependencies = 4294967295 →
      (n.add_read_dependency_u32 work).m_num_dependencies = 0) := by
  refine ⟨fun hf => ?_, fun hf => ?_, fun hf hlt => ?_, fun hf he => ?_⟩
  · simp [dependency_node.add_read_dependency_u32, hf, inc32]
  · simp [dependency_node.add_read_dependency_u32, hf, inc32]
  · simp only [dependency_node.add_read_dependency_u32, hf, inc32, Bool.false_eq_true,
      if_false]
    exact Nat.mod_eq_of_lt (by omega)
  · simp [dependency_node.add_read_dependency_u32, hf, inc32, he]

/-- C17: every sequence of `write_dependency`, `add_read_dependency` and
`remove_dependency` calls on a fresh node keeps the invariant that a node that
is a write dependency stores exactly one dependency. -/
theorem write_dependency_single {n : dependency_node} (h : dependency_node.Reachable n)
    (hf : n.m_is_write_dependency = true) : ∃ work, n.m_dependencies = [work] :=
  List.length_eq_one.1 ((node_reachable_ok h).2 hf)

/-- Instance of C17: a node after `write_dependency`, `add_read_dependency` and
`write_dependency` again. -/
theorem write_dependency_single_witness :
    dependency_node.Reachable
        (((dependency_node.fresh.write_dependency 1).add_read_dependency 2).write_dependency 3) ∧
      ∃ work, (((dependency_node.fresh.write_dependency 1).add_read_dependency 2).write_dependency
        3).m_dependencies = [work] :=
  ⟨dependency_node.Reachable.write _ 3 (dependency_node.Reachable.read _ 2
      (dependency_node.Reachable.write _ 1 dependency_node.Reachable.fresh)),
    write_dependency_single
      (dependency_node.Reachable.write _ 3 (dependency_node.Reachable.read _ 2
        (dependency_node.Reachable.write _ 1 dependency_node.Reachable.fresh))) rfl⟩

/-- C18 fails on the code: `dependency_node()` initialises the flag and leaves
`m_num_dependencies` with an indeterminate value. A node just constructed has an
empty dependency list and reports ready only if that value happens to be zero.
With the value `2880154539` the node is not ready before any task is admitted,
its counter differs from the length of its list, and it is still not ready after
`add_read_dependency` and the `remove_dependency` that empties the list again.
Only `write_dependency`, which stores 1, brings counter and list into step. -/
theorem constructed_counter_indeterminate :
    (∀ garbage : Nat,
      (dependency_node.constructed garbage).m_dependencies = [] ∧
      (dependency_node.constructed garbage).m_is_write_dependency = false ∧
      (dependency_node.constructed garbage).m_num_dependencies = garbage ∧
      ((dependency_node.constructed garbage).is_ready = true ↔ garbage = 0)) ∧
    (dependency_node.constructed 2880154539).is_ready = false ∧
    (dependency_node.constructed 2880154539).m_num_dependencies ≠
      (dependency_node.constructed 2880154539).m_dependencies.length ∧
    (((dependency_node.constructed 2880154539).add_read_dependency_u32 4).remove_dependency
      4).m_dependencies = [] ∧
    (((dependency_node.constructed 2880154539).add_read_dependency_u32 4).remove_dependency
      4).is_ready = false ∧
    (((dependency_node.constructed 2880154539).write_dependency 4).remove_dependency
      4).is_ready = true := by
  refine ⟨fun garbage => ⟨rfl, rfl, rfl, ?_⟩, by decide, by decide, by decide, by decide,
    by decide⟩
  simp [dependency_node.constructed, dependency_node.is_ready]

end scheduling
end aBLAS

/-! ## Claims about admission and completion -/

namespace aBLAS
namespace scheduling
namespace dependency_scheduling

theorem mem_pool_notify (s : dependency_scheduling) (e x : Nat)
    (hx : x ∈ (notify s e).m_pool) : x ∈ s.m_pool ∨ x = e := by
  unfold notify at hx
  simp only at hx
  split at hx
  · split at hx
    · simpa [submit] using hx
    · exact Or.inl hx
  · exact Or.inl hx

theorem mem_pool_foldl_notify (x : Nat) :
    ∀ (E : List Nat) (s : dependency_scheduling),
      x ∈ (E.foldl notify s).m_pool → x ∈ s.m_pool ∨ x ∈ E
  | [], _, h => Or.inl h
  | e :: E, s, h => by
    rw [List.foldl_cons] at h
    rcases mem_pool_foldl_notify x E _ h with h1 | h1
    · rcases mem_pool_notify s e x h1 with h2 | h2
      · exact Or.inl h2
      · exact Or.inr (h2 ▸ List.mem_cons_self _ _)
    · exact Or.inr (List.mem_cons_of_mem _ h1)

theorem count_out_edges_le {s : dependency_scheduling} (h : Inv s) (w : work_item)
    (hw : w ∈ s.m_work_items) :
    ∀ u ∈ s.m_work_items, u.active_dependencies =
      indeg (s.m_work_items.filter fun v => v.id != w.id) u.id + w.out_edges.count u.id := by
  intro u hu
  rw [h.counts u hu, indeg_split w.id u.id _ h.ids_sorted w hw rfl]

/-- Counters after `finalize_work` of a live item: one decrement per entry of
its `out_edges`. -/
theorem finalize_work_items_of_inv {s : dependency_scheduling} (h : Inv s) (w : work_item)
    (hw : w ∈ s.m_work_items) :
    (finalize_work s w.id).m_work_items =
      (s.m_work_items.filter fun u => u.id != w.id).map
        (set_active fun u => u.active_dependencies - w.out_edges.count u.id) := by
  obtain ⟨_, _, ⟨c, hitems⟩, _, _, hitems1⟩ := finalize_work_shape h w hw
  have hNI : NotifyInv (w.out_edges.foldl notify s) w.id [] :=
    notifyInv_foldl _ _ (notifyInv_of_inv h w hw)
  rw [hitems]
  apply List.map_congr_left
  intro u hu
  have hu0 : u ∈ s.m_work_items := (List.mem_filter.1 hu).1
  have hu1 : set_active c u ∈ (finalize_work s w.id).m_work_items := by
    rw [hitems]
    exact List.mem_map.2 ⟨u, hu, rfl⟩
  have hu2 : set_active c u ∈ (w.out_edges.foldl notify s).m_work_items := by
    rw [hitems1] at hu1
    exact (List.mem_filter.1 hu1).1
  have h1 := hNI.counts _ hu2
  rw [← hitems1, hitems, indeg_map_set_active] at h1
  have h2 := count_out_edges_le h w hw u hu0
  have h3 : c u = indeg (s.m_work_items.filter fun v => v.id != w.id) u.id := by
    simpa [set_active] using h1
  have h4 : c u = u.active_dependencies - w.out_edges.count u.id := by
    omega
  simp only [set_active, h4]

/-- The new item is in the `out_edges` of exactly the members of `dependencies`. -/
theorem edge_new_iff {s : dependency_scheduling} (h : Inv s) (W : Nat) (R : List Nat)
    (a : Nat) :
    edge (enqueue_work s W R) a s.next ↔ a ∈ unique (collect_dependencies s.nodes W R) := by
  constructor
  · rintro ⟨u, hu, rfl, he⟩
    rcases (mem_enqueue_work_items h W R u).1 hu with ⟨v, hv, rfl⟩ | rfl
    · simp only [link, List.mem_append, List.mem_replicate] at he
      rcases he with he | ⟨hc, _⟩
      · exact absurd he (next_not_mem_out_edges h v hv)
      · exact List.count_pos_iff.1 (Nat.pos_of_ne_zero hc)
    · cases he
  · exact edge_enqueue_work_new h W R

/-- C11: `spawn` hands the new item to the pool inside the call exactly when
its list of dependencies is empty, i.e. when no live item is linked in front of
it; a live item that is not in the pool log enters it only through
`finalize_work` of an item that holds it in `out_edges`. -/
theorem spawn_submits_iff {s : dependency_scheduling} (hs : Reachable s) (W : Nat)
    (R : List Nat) :
    s.next ∉ s.m_pool ∧
    (s.next ∈ (spawn s W R).m_pool ↔ unique (collect_dependencies s.nodes W R) = []) ∧
    (unique (collect_dependencies s.nodes W R) = [] ↔ ∀ a, ¬ edge (spawn s W R) a s.next) ∧
    ∀ t s1, Step s s1 → live s t → t ∉ s.m_pool → t ∈ s1.m_pool →
      ∃ w ∈ s.m_work_items, w.id ∈ s.m_pool ∧ t ∈ w.out_edges ∧
        s1 = finalize_work s w.id := by
  have h := inv_of_reachable hs
  have hfresh : s.next ∉ s.m_pool := fun hx => Nat.lt_irrefl _ (h.pool_lt _ hx)
  refine ⟨hfresh, ?_, ?_, ?_⟩
  · unfold spawn
    rw [enqueue_work_pool]
    by_cases hD : unique (collect_dependencies s.nodes W R) = []
    · simp [hD]
    · simp [hD, hfresh]
  · constructor
    · intro hD a ha
      have := (edge_new_iff h W R a).1 ha
      rw [hD] at this
      cases this
    · intro hall
      apply List.eq_nil_iff_forall_not_mem.2
      intro a ha
      exact hall a ((edge_new_iff h W R a).2 ha)
  · intro t s1 hst hl hnp hin
    cases hst with
    | spawn W1 R1 =>
      exfalso
      rw [enqueue_work_pool] at hin
      have hlt := lt_next_of_live h hl
      split at hin
      · rcases List.mem_append.1 hin with hin | hin
        · exact hnp hin
        · rw [List.mem_singleton] at hin
          omega
      · exact hnp hin
    | on_complete x hp hx =>
      obtain ⟨w, hw, rfl⟩ := hx
      refine ⟨w, hw, hp, ?_, rfl⟩
      rw [(finalize_work_shape h w hw).2.2.2.2.1] at hin
      rcases mem_pool_foldl_notify t _ _ hin with hin | hin
      · exact absurd hin hnp
      · exact hin

/-- Instance of C11: a reader of a written variable is not submitted by `spawn`. -/
theorem spawn_submits_iff_witness :
    Reachable (spawn empty 0 []) ∧
      1 ∉ (spawn (spawn empty 0 []) 1 [0]).m_pool ∧
      unique (collect_dependencies (spawn empty 0 []).nodes 1 [0]) = [0] :=
  ⟨reachable_spawn Reachable.init 0 [],
    fun hin => absurd
      (((spawn_submits_iff (reachable_spawn Reachable.init 0 []) 1 [0]).2.1).1 hin)
      (by decide),
    by decide⟩

/-- C12: `finalize_work` of a live item lowers the counter of every live item
by the number of its entries in the finished item's `out_edges` (without
underflow, so items that are not in `out_edges` keep their counter), the pool
log gains exactly the items of `out_edges` whose counter reaches zero, and no
item enters the log twice. -/
theorem on_complete_notifies {s : dependency_scheduling} (hs : Reachable s) (w : work_item)
    (hw : w ∈ s.m_work_items) :
    (∀ u ∈ s.m_work_items, w.out_edges.count u.id ≤ u.active_dependencies) ∧
    (finalize_work s w.id).m_work_items =
      (s.m_work_items.filter fun u => u.id != w.id).map
        (set_active fun u => u.active_dependencies - w.out_edges.count u.id) ∧
    (∀ t, t ∈ (finalize_work s w.id).m_pool ↔
      t ∈ s.m_pool ∨ ∃ u ∈ s.m_work_items, u.id = t ∧ t ∈ w.out_edges ∧
        u.active_dependencies = w.out_edges.count t) ∧
    (w.id ∈ s.m_pool → (finalize_work s w.id).m_pool.Nodup) := by
  have h := inv_of_reachable hs
  have hle : ∀ u ∈ s.m_work_items, w.out_edges.count u.id ≤ u.active_dependencies := by
    intro u hu
    have := count_out_edges_le h w hw u hu
    omega
  have hitems := finalize_work_items_of_inv h w hw
  obtain ⟨_, _, _, ⟨l, hl⟩, hpool1, hitems1⟩ := finalize_work_shape h w hw
  have hNI : NotifyInv (w.out_edges.foldl notify s) w.id [] :=
    notifyInv_foldl _ _ (notifyInv_of_inv h w hw)
  have hpost : ∀ u ∈ s.m_work_items, u.id ≠ w.id →
      (u.id ∈ (finalize_work s w.id).m_pool ↔
        u.active_dependencies - w.out_edges.count u.id = 0) := by
    intro u hu hne
    have hu1 : set_active (fun u => u.active_dependencies - w.out_edges.count u.id) u ∈
        (finalize_work s w.id).m_work_items := by
      rw [hitems]
      exact List.mem_map.2 ⟨u, List.mem_filter.2 ⟨hu, by simpa using hne⟩, rfl⟩
    rw [hitems1] at hu1
    rw [hpool1]
    exact hNI.pool_iff _ (List.mem_filter.1 hu1).1
  refine ⟨hle, hitems, fun t => ⟨fun hin => ?_, fun hin => ?_⟩, fun hp => ?_⟩
  · by_cases hold : t ∈ s.m_pool
    · exact Or.inl hold
    · right
      rw [hpool1] at hin
      rcases mem_pool_foldl_notify t _ _ hin with hin2 | hin2
      · exact absurd hin2 hold
      · obtain ⟨u, hu, rfl⟩ := h.edges_live w hw t hin2
        have hne : u.id ≠ w.id := Nat.ne_of_gt (h.edges_later w hw _ hin2)
        have hz := (hpost u hu hne).1 (hpool1 ▸ hin)
        have := hle u hu
        exact ⟨u, hu, rfl, hin2, by omega⟩
  · rcases hin with hin | ⟨u, hu, rfl, hin2, heq⟩
    · rw [hl]
      exact List.mem_append_left _ hin
    · have hne : u.id ≠ w.id := Nat.ne_of_gt (h.edges_later w hw _ hin2)
      exact (hpost u hu hne).2 (by omega)
  · exact (inv_finalize_work h w hw hp).pool_nodup

/-- Instance of C12: completing the writer hands its reader to the pool. -/
theorem on_complete_notifies_witness :
    Reachable (spawn (spawn empty 0 []) 1 [0]) ∧
      (⟨0, [1], [0], 0⟩ : work_item) ∈ (spawn (spawn empty 0 []) 1 [0]).m_work_items ∧
      (finalize_work (spawn (spawn empty 0 []) 1 [0]) 0).m_work_items =
        [⟨1, [], [0, 1], 0⟩] :=
  ⟨reachable_spawn (reachable_spawn Reachable.init 0 []) 1 [0], by decide,
    ((on_complete_notifies (reachable_spawn (reachable_spawn Reachable.init 0 []) 1 [0])
      ⟨0, [1], [0], 0⟩ (by decide)).2.1).trans (by decide)⟩

theorem filter_erase_self (t : Nat) :
    ∀ l : List Nat, (l.erase t).filter (fun x => x != t) = l.filter fun x => x != t
  | [] => rfl
  | a :: l => by
    by_cases h : a = t
    · subst h
      simp
    · have hb : ¬ (a == t) = true := by simpa using h
      rw [List.erase_cons_tail hb]
      simp [List.filter_cons, h, filter_erase_self t l]

theorem iterate_erase_eq_filter (t : Nat) :
    ∀ (k : Nat) (l : List Nat), l.count t ≤ k →
      (fun l : List Nat => l.erase t)^[k] l = l.filter fun x => x != t
  | 0, l, h => by
    have hnot : t ∉ l := List.count_eq_zero.1 (by omega)
    symm
    apply List.filter_eq_self.2
    intro x hx
    have : x ≠ t := fun e => hnot (e ▸ hx)
    simpa using this
  | k + 1, l, h => by
    rw [Function.iterate_succ_apply, iterate_erase_eq_filter t k, filter_erase_self]
    rw [List.count_erase_self]
    omega

theorem length_filter_ne_id (w : work_item) :
    ∀ L : List work_item, L.Pairwise (fun a b => a.id < b.id) → w ∈ L →
      (L.filter fun u => u.id != w.id).length + 1 = L.length
  | [], _, hw => by cases hw
  | v :: L, hp, hw => by
    rw [List.pairwise_cons] at hp
    rcases List.mem_cons.1 hw with rfl | hw2
    · have hf : (L.filter fun u => u.id != w.id) = L := by
        apply List.filter_eq_self.2
        intro u hu
        have := hp.1 u hu
        simp
        omega
      simp [List.filter_cons, hf]
    · have hne : v.id ≠ w.id := by
        have := hp.1 w hw2
        omega
      have ih := length_filter_ne_id w L hp.2 hw2
      simp [List.filter_cons, hne, ih]

/-- C13: after `finalize_work` of a live item the item is stored in the
dependency list of no node and is not in `m_work_items`, the list is shorter by
exactly one, and every dependency list is the old one without the entries of
the finished item (the claims of other items are unchanged). -/
theorem on_complete_releases {s : dependency_scheduling} (hs : Reachable s) (w : work_item)
    (hw : w ∈ s.m_work_items) :
    (∀ N, w.id ∉ ((finalize_work s w.id).nodes N).m_dependencies) ∧
    ¬ live (finalize_work s w.id) w.id ∧
    (finalize_work s w.id).num_work_items + 1 = s.num_work_items ∧
    ∀ N, ((finalize_work s w.id).nodes N).m_dependencies =
      (s.nodes N).m_dependencies.filter fun x => x != w.id := by
  have h := inv_of_reachable hs
  have hdeps : ∀ N, ((finalize_work s w.id).nodes N).m_dependencies =
      (s.nodes N).m_dependencies.filter fun x => x != w.id := by
    intro N
    rw [(finalize_work_shape h w hw).1, remove_dependencies_apply,
      iterate_remove_dependency_deps]
    exact iterate_erase_eq_filter _ _ _ (h.claims_mult w hw N)
  refine ⟨fun N hin => ?_, fun hl => ?_, ?_, hdeps⟩
  · rw [hdeps N, List.mem_filter] at hin
    simp at hin
  · exact ((live_finalize_work h w hw w.id).1 hl).2 rfl
  · unfold num_work_items
    rw [finalize_work_items_of_inv h w hw, List.length_map]
    exact length_filter_ne_id w _ h.ids_sorted hw

/-- Instance of C13: completing the writer of variable 0 while its reader is live. -/
theorem on_complete_releases_witness :
    Reachable (spawn (spawn empty 0 []) 1 [0]) ∧
      (⟨0, [1], [0], 0⟩ : work_item) ∈ (spawn (spawn empty 0 []) 1 [0]).m_work_items ∧
      (finalize_work (spawn (spawn empty 0 []) 1 [0]) 0).num_work_items + 1 = 2 :=
  ⟨reachable_spawn (reachable_spawn Reachable.init 0 []) 1 [0], by decide,
    (on_complete_releases (reachable_spawn (reachable_spawn Reachable.init 0 []) 1 [0])
      ⟨0, [1], [0], 0⟩ (by decide)).2.2.1⟩

theorem collect_dependencies_congr {a b : Nat → dependency_node} (h : same_lists a b)
    (W : Nat) (R : List Nat) :
    collect_dependencies a W R = collect_dependencies b W R := by
  unfold collect_dependencies
  have hf : (fun (dependencies : List Nat) (node : Nat) =>
      if (a node).m_is_write_dependency then
        dependencies ++ (a node).m_dependencies.take 1
      else dependencies) =
      fun (dependencies : List Nat) (node : Nat) =>
      if (b node).m_is_write_dependency then
        dependencies ++ (b node).m_dependencies.take 1
      else dependencies := by
    funext d node
    rw [(h node).1, (h node).2]
  rw [hf, (h W).1]

theorem same_lists_setNode {a b : Nat → dependency_node} (h : same_lists a b) (k : Nat)
    {x y : dependency_node} (hl : x.m_dependencies = y.m_dependencies)
    (hf : x.m_is_write_dependency = y.m_is_write_dependency) :
    same_lists (setNode a k x) (setNode b k y) := by
  intro N
  unfold setNode
  by_cases hN : N = k
  · simp only [hN, if_true]
    exact ⟨hl, hf⟩
  · simp only [hN, if_false]
    exact h N

theorem add_read_dependency_u32_lists (x y : dependency_node) (work : Nat)
    (hl : x.m_dependencies = y.m_dependencies)
    (hf : x.m_is_write_dependency = y.m_is_write_dependency) :
    (x.add_read_dependency_u32 work).m_dependencies =
        (y.add_read_dependency work).m_dependencies ∧
      (x.add_read_dependency_u32 work).m_is_write_dependency =
        (y.add_read_dependency work).m_is_write_dependency := by
  unfold dependency_node.add_read_dependency_u32 dependency_node.add_read_dependency
  cases hy : y.m_is_write_dependency <;> simp [hf, hy, hl]

theorem remove_dependency_lists (x y : dependency_node) (work : Nat)
    (hl : x.m_dependencies = y.m_dependencies)
    (hf : x.m_is_write_dependency = y.m_is_write_dependency) :
    (x.remove_dependency work).m_dependencies = (y.remove_dependency work).m_dependencies ∧
      (x.remove_dependency work).m_is_write_dependency =
        (y.remove_dependency work).m_is_write_dependency := by
  unfold dependency_node.remove_dependency
  rw [hl]
  by_cases hin : work ∈ y.m_dependencies
  · simp only [hin, if_true]
    split <;> simp [hf]
  · simp only [hin, if_false, hl]
    split <;> simp [hf, hl]

theorem add_read_dependencies_congr :
    ∀ (R : List Nat) (a b : Nat → dependency_node) (pos : Nat), same_lists a b →
      same_lists (add_read_dependencies_u32 a R pos) (add_read_dependencies b R pos)
  | [], _, _, _, h => h
  | r :: R, _, _, pos, h =>
    add_read_dependencies_congr R _ _ pos
      (same_lists_setNode h r (add_read_dependency_u32_lists _ _ pos (h r).1 (h r).2).1
        (add_read_dependency_u32_lists _ _ pos (h r).1 (h r).2).2)

theorem remove_dependencies_congr :
    ∀ (R : List Nat) (a b : Nat → dependency_node) (work : Nat), same_lists a b →
      same_lists (remove_dependencies a R work) (remove_dependencies b R work)
  | [], _, _, _, h => h
  | r :: R, _, _, work, h =>
    remove_dependencies_congr R _ _ work
      (same_lists_setNode h r (remove_dependency_lists _ _ work (h r).1 (h r).2).1
        (remove_dependency_lists _ _ work (h r).1 (h r).2).2)

theorem same_claims_enqueue_work {s t : dependency_scheduling} (h : same_claims s t)
    (W : Nat) (R : List Nat) :
    same_claims (enqueue_work_u32 s W R) (enqueue_work t W R) := by
  obtain ⟨h1, h2, h3, h4⟩ := h
  have hc := collect_dependencies_congr h4 W R
  have hn := add_read_dependencies_congr R _ _ t.next h4
  unfold enqueue_work_u32 enqueue_work
  simp only [h1, h2, h3, hc]
  split
  · exact ⟨rfl, rfl, rfl, same_lists_setNode hn W rfl rfl⟩
  · exact ⟨rfl, rfl, rfl, same_lists_setNode hn W rfl rfl⟩

theorem same_claims_notify {s t : dependency_scheduling} (h : same_claims s t) (e : Nat) :
    same_claims (notify s e) (notify t e) := by
  obtain ⟨h1, h2, h3, h4⟩ := h
  refine ⟨?_, ?_, ?_, ?_⟩
  · rw [notify_items, notify_items, h1]
  · unfold notify
    simp only [h1]
    split
    · split
      · simp only [submit, h2]
      · exact h2
    · exact h2
  · rw [notify_next, notify_next, h3]
  · rw [notify_nodes, notify_nodes]
    exact h4

theorem same_claims_foldl_notify :
    ∀ (E : List Nat) {s t : dependency_scheduling}, same_claims s t →
      same_claims (E.foldl notify s) (E.foldl notify t)
  | [], _, _, h => h
  | e :: E, _, _, h => same_claims_foldl_notify E (same_claims_notify h e)

theorem same_claims_finalize_work {s t : dependency_scheduling} (h : same_claims s t)
    (work : Nat) : same_claims (finalize_work s work) (finalize_work t work) := by
  unfold finalize_work
  rw [h.1]
  cases hf : t.m_work_items.find? (fun w => w.id == work) with
  | none => exact h
  | some w =>
    obtain ⟨g1, g2, g3, g4⟩ := same_claims_foldl_notify w.out_edges h
    exact ⟨by simp only [g1], g2, g3, remove_dependencies_congr _ _ _ work g4⟩

/-- The dependency lists, the flags, the work items and the pool log do not
depend on the node counters: every state reachable with the counters of the
source agrees, up to the counters, with a state reachable from the empty
scheduler. -/
theorem same_claims_of_reachable_u32 {garbage : Nat → Nat} {s : dependency_scheduling}
    (hs : Reachable_u32 garbage s) : ∃ t, Reachable t ∧ same_claims s t := by
  induction hs with
  | init => exact ⟨empty, Reachable.init, rfl, rfl, rfl, fun _ => ⟨rfl, rfl⟩⟩
  | step _ hst ih =>
    obtain ⟨t, ht, hc⟩ := ih
    cases hst with
    | spawn W R =>
      exact ⟨enqueue_work t W R, Reachable.step ht (Step.spawn t W R),
        same_claims_enqueue_work hc W R⟩
    | on_complete work hp hl =>
      refine ⟨finalize_work t work, Reachable.step ht (Step.on_complete t work ?_ ?_),
        same_claims_finalize_work hc work⟩
      · rw [← hc.2.1]
        exact hp
      · unfold live at hl ⊢
        rw [← hc.1]
        exact hl

/-- In every state reached with the node counters of the source, a dependency
node that is among the variables of a live work item stores a dependency. -/
theorem claimed_node_stores_claim {garbage : Nat → Nat} {s : dependency_scheduling}
    (hs : Reachable_u32 garbage s) (u : work_item) (hu : u ∈ s.m_work_items) (N : Nat)
    (hN : N ∈ u.in_variables) : (s.nodes N).m_dependencies ≠ [] := by
  obtain ⟨t, ht, hc⟩ := same_claims_of_reachable_u32 hs
  have h := inv_of_reachable ht
  obtain ⟨c, hcm, _⟩ := h.covered u (hc.1 ▸ hu) N hN
  rw [(hc.2.2.2 N).1]
  exact List.ne_nil_of_mem hcm

/-- While no counter reaches `4294967295` in the loop over the read variables,
`enqueue_work` with the exact increment is the method of the source. -/
theorem add_read_dependencies_u32_eq :
    ∀ (R : List Nat) (nodes : Nat → dependency_node) (pos : Nat),
      (∀ N, (nodes N).m_num_dependencies + R.length < 4294967296) →
      add_read_dependencies_u32 nodes R pos = add_read_dependencies nodes R pos
  | [], _, _, _ => rfl
  | r :: R, nodes, pos, h => by
    have hr := h r
    simp only [List.length_cons] at hr
    have e := add_read_dependency_u32_eq (nodes r) pos (by omega)
    show add_read_dependencies_u32 (setNode nodes r ((nodes r).add_read_dependency_u32 pos)) R
        pos = add_read_dependencies (setNode nodes r ((nodes r).add_read_dependency pos)) R pos
    rw [e]
    apply add_read_dependencies_u32_eq R
    intro N
    have hN := h N
    simp only [List.length_cons] at hN
    unfold setNode
    by_cases hNr : N = r
    · subst hNr
      simp only [if_true]
      have : ((nodes N).add_read_dependency pos).m_num_dependencies ≤
          (nodes N).m_num_dependencies + 1 := by
        unfold dependency_node.add_read_dependency
        cases hf : (nodes N).m_is_write_dependency <;> simp
      omega
    · simp only [hNr, if_false]
      omega

theorem enqueue_work_u32_eq (s : dependency_scheduling) (W : Nat) (R : List Nat)
    (h : ∀ N, (s.nodes N).m_num_dependencies + R.length < 4294967296) :
    enqueue_work_u32 s W R = enqueue_work s W R := by
  simp only [enqueue_work_u32, enqueue_work, add_read_dependencies_u32_eq R s.nodes s.next h]

/-- The clean-up kernel admitted by `enqueue_work(f, V, {})`: it is handed to
the pool in the call exactly when the dependency list of `V` is empty, its
counter is the number of dependencies, and every work item stored in the
dependency list of `V` gets it as successor. -/
theorem closure_sentinel_of_inv {t : dependency_scheduling} (h : Inv t) (V : Nat) :
    (t.next ∈ (enqueue_work t V []).m_pool ↔ (t.nodes V).m_dependencies = []) ∧
    (enqueue_work t V []).m_work_items.getLast? =
      some { id := t.next, out_edges := [], in_variables := [V],
             active_dependencies := (unique (t.nodes V).m_dependencies).length } ∧
    ∀ c ∈ (t.nodes V).m_dependencies, edge (enqueue_work t V []) c t.next := by
  have hfresh : t.next ∉ t.m_pool := fun hx => Nat.lt_irrefl _ (h.pool_lt _ hx)
  have hcol : collect_dependencies t.nodes V [] = (t.nodes V).m_dependencies := rfl
  refine ⟨?_, ?_, fun c hc => ?_⟩
  · rw [enqueue_work_pool, hcol]
    by_cases hD : (t.nodes V).m_dependencies = []
    · rw [if_pos ((unique_eq_nil _).2 hD)]
      simp [hD]
    · rw [if_neg fun hu => hD ((unique_eq_nil _).1 hu)]
      simp only [hD, iff_false]
      exact hfresh
  · rw [enqueue_work_items_of_inv h V [], hcol]
    simp
  · rw [edge_new_iff h V [] c, hcol, mem_unique]
    exact hc

/-- C19, as stated, fails: with task 0 writing variable 0 and not completed,
`make_closure_variable` on variable 0 (the producer enqueues nothing) admits a
clean-up kernel with one predecessor that is not handed to the pool in the call. -/
theorem closure_sentinel_not_immediate :
    Reachable (spawn empty 0 []) ∧
      (make_closure_variable (spawn empty 0 []) 0).m_work_items.getLast? =
        some { id := 1, out_edges := [], in_variables := [0], active_dependencies := 1 } ∧
      1 ∉ (make_closure_variable (spawn empty 0 []) 0).m_pool :=
  ⟨reachable_spawn Reachable.init 0 [], by decide, by decide⟩

/-- C19, amended: in every state reached with the node counters of the source,
when the producer enqueues nothing, `create_closure` is the admission
`enqueue_work(f, V, {})` and `make_closure_variable` admits the same clean-up
kernel; this kernel is handed to the pool inside the call exactly when the
dependency list of the temporary is empty at the call, and then it has
`active_dependencies = 0`; every work item stored in the dependency list gets
the clean-up kernel as successor, and when the list is not empty the kernel is
not handed to the pool in the call and waits with a positive counter, the number
of stored dependencies after `unique`. -/
theorem closure_sentinel_immediate_iff {garbage : Nat → Nat} {s : dependency_scheduling}
    (hs : Reachable_u32 garbage s) (V : Nat)
    (producer : dependency_scheduling → dependency_scheduling) (hprod : producer s = s) :
    create_closure s V producer = enqueue_work_u32 s V [] ∧
    make_closure_variable s V = create_closure s V producer ∧
    (s.next ∈ (create_closure s V producer).m_pool ↔ (s.nodes V).m_dependencies = []) ∧
    ((s.nodes V).m_dependencies = [] →
      (create_closure s V producer).m_work_items.getLast? =
        some { id := s.next, out_edges := [], in_variables := [V],
               active_dependencies := 0 }) ∧
    (∀ c ∈ (s.nodes V).m_dependencies, edge (create_closure s V producer) c s.next) ∧
    ((s.nodes V).m_dependencies ≠ [] →
      s.next ∉ (create_closure s V producer).m_pool ∧
      (create_closure s V producer).m_work_items.getLast? =
        some { id := s.next, out_edges := [], in_variables := [V],
               active_dependencies := (unique (s.nodes V).m_dependencies).length } ∧
      0 < (unique (s.nodes V).m_dependencies).length) := by
  obtain ⟨t, ht, hc⟩ := same_claims_of_reachable_u32 hs
  have hcc : create_closure s V producer = enqueue_work s V [] := by
    unfold create_closure spawn
    rw [hprod]
  have hmk : make_closure_variable s V = enqueue_work s V [] := rfl
  have hst : same_claims (enqueue_work s V []) (enqueue_work t V []) :=
    same_claims_enqueue_work hc V []
  obtain ⟨h1, h2, h3⟩ := closure_sentinel_of_inv (inv_of_reachable ht) V
  have hn : s.next = t.next := hc.2.2.1
  have hl : (s.nodes V).m_dependencies = (t.nodes V).m_dependencies := (hc.2.2.2 V).1
  rw [← hst.2.1, ← hn, ← hl] at h1
  rw [← hst.1, ← hn, ← hl] at h2
  have h3s : ∀ c ∈ (s.nodes V).m_dependencies, edge (enqueue_work s V []) c s.next := by
    intro c hcm
    have := h3 c (hl ▸ hcm)
    unfold edge at this ⊢
    rw [hst.1, hn]
    exact this
  rw [hcc]
  refine ⟨rfl, hmk, h1, fun he => ?_, h3s, fun hne => ⟨fun hin => hne (h1.1 hin), h2, ?_⟩⟩
  · rw [h2, he]
    rfl
  · cases hu : unique (s.nodes V).m_dependencies with
    | nil => exact absurd ((unique_eq_nil _).1 hu) hne
    | cons a l => simp

/-- Instance of C19 (amended): on a scheduler whose nodes were constructed with
the counter value 5, the closure of the never claimed temporary 0 is handed to
the pool in the call although the node does not report ready; after task 0 has
written the temporary, the clean-up kernel 1 is linked behind task 0. -/
theorem closure_sentinel_immediate_iff_witness :
    (Reachable_u32 (fun _ => 5) (constructed fun _ => 5) ∧
      ((constructed fun _ => 5).nodes 0).is_ready = false ∧
      0 ∈ (create_closure (constructed fun _ => 5) 0 fun s => s).m_pool) ∧
    (Reachable_u32 (fun _ => 5) (enqueue_work_u32 (constructed fun _ => 5) 0 []) ∧
      edge (create_closure (enqueue_work_u32 (constructed fun _ => 5) 0 []) 0 fun s => s)
        0 1) :=
  ⟨⟨Reachable_u32.init, by decide,
      (closure_sentinel_immediate_iff (Reachable_u32.init : Reachable_u32 (fun _ => 5) _) 0
        (fun s => s) rfl).2.2.1.2 rfl⟩,
    ⟨Reachable_u32.step Reachable_u32.init (Step_u32.spawn _ 0 []),
      (closure_sentinel_immediate_iff
        (Reachable_u32.step (Reachable_u32.init : Reachable_u32 (fun _ => 5) _)
          (Step_u32.spawn _ 0 [])) 0 (fun s => s) rfl).2.2.2.2.1 0 (by decide)⟩⟩

/-- C20, as stated, fails: after task 0 (A) wrote variable 0, task 1 (B) read
it and task 2 (C) wrote it, C has `active_dependencies = 1` and A does not hold
C in its `out_edges`: the direct predecessors of C are `{B}`, not `{A, B}`. -/
theorem scenario_predecessors_not_both :
    (spawn (spawn (spawn empty 0 []) 1 [0]) 0 []).m_work_items.getLast? =
        some { id := 2, out_edges := [], in_variables := [0], active_dependencies := 1 } ∧
      ¬ edge (spawn (spawn (spawn empty 0 []) 1 [0]) 0 []) 0 2 := by
  refine ⟨by decide, ?_⟩
  rintro ⟨w, hw, hid, h2⟩
  have hall : ∀ w ∈ (spawn (spawn (spawn empty 0 []) 1 [0]) 0 []).m_work_items,
      w.id = 0 → 2 ∉ w.out_edges := by decide
  exact hall w hw hid h2

/-- C20, amended: from a reachable state let A write `X`, B read `X` (writing
any `Y`) and C write `X`, with no completion in between. Then the only direct
predecessor of C is B and C has `active_dependencies = 1`; A is a transitive
predecessor of C through B; and in every later state in which A or B is still
live, C has not been handed to the pool. -/
theorem scenario_write_read_write {s : dependency_scheduling} (hs : Reachable s)
    (X Y : Nat) :
    (∀ a, edge (spawn (spawn (spawn s X []) Y [X]) X []) a (s.next + 2) ↔ a = s.next + 1) ∧
    (spawn (spawn (spawn s X []) Y [X]) X []).m_work_items.getLast? =
      some { id := s.next + 2, out_edges := [], in_variables := [X],
             active_dependencies := 1 } ∧
    edge (spawn (spawn (spawn s X []) Y [X]) X []) s.next (s.next + 1) ∧
    precedes (spawn (spawn (spawn s X []) Y [X]) X []) s.next (s.next + 2) ∧
    ∀ s1, Relation.ReflTransGen Step (spawn (spawn (spawn s X []) Y [X]) X []) s1 →
      live s1 s.next ∨ live s1 (s.next + 1) → s.next + 2 ∉ s1.m_pool := by
  unfold spawn
  have h := inv_of_reachable hs
  have hA := inv_enqueue_work h X []
  have hB := inv_enqueue_work hA Y [X]
  have hC := inv_enqueue_work hB X []
  have hnA : (enqueue_work s X []).next = s.next + 1 := enqueue_work_next s X []
  have hnB : (enqueue_work (enqueue_work s X []) Y [X]).next = s.next + 2 := by
    rw [enqueue_work_next, hnA]
  have hXA : (enqueue_work s X []).nodes X =
      { m_dependencies := [s.next], m_num_dependencies := 1, m_is_write_dependency := true } :=
    enqueue_work_node_write s X []
  have hXB : ((enqueue_work (enqueue_work s X []) Y [X]).nodes X).m_dependencies =
      [s.next + 1] := by
    by_cases hXY : X = Y
    · subst hXY
      rw [enqueue_work_node_write, hnA]
    · rw [enqueue_work_node_read _ Y [X] X hXY (List.mem_singleton.2 rfl), hXA, hnA]
      simp
  have hDC : unique (collect_dependencies (enqueue_work (enqueue_work s X []) Y [X]).nodes X [])
      = [s.next + 1] := by
    simp [collect_dependencies, hXB, unique]
  have hAB : edge (enqueue_work (enqueue_work s X []) Y [X]) s.next (s.next + 1) := by
    have := edge_enqueue_work_new hA Y [X] (d := s.next)
      ((mem_dependencies _ Y [X] s.next).2
        (Or.inr ⟨X, List.mem_singleton.2 rfl, by rw [hXA], by rw [hXA]; simp⟩))
    rwa [hnA] at this
  have hAB2 := edge_enqueue_work_of_edge hB X [] hAB
  have hBC : edge (enqueue_work (enqueue_work (enqueue_work s X []) Y [X]) X [])
      (s.next + 1) (s.next + 2) := by
    have := (edge_new_iff hB X [] (s.next + 1)).2 (by rw [hDC]; exact List.mem_singleton.2 rfl)
    rwa [hnB] at this
  have hpB : precedes (enqueue_work (enqueue_work (enqueue_work s X []) Y [X]) X [])
      (s.next + 1) (s.next + 2) := Relation.TransGen.single hBC
  have hpA : precedes (enqueue_work (enqueue_work (enqueue_work s X []) Y [X]) X [])
      s.next (s.next + 2) := Relation.TransGen.head hAB2 hpB
  refine ⟨fun a => ?_, ?_, hAB2, hpA, fun s1 hsteps hl => ?_⟩
  · have := edge_new_iff hB X [] a
    rw [hnB, hDC, List.mem_singleton] at this
    exact this
  · rw [enqueue_work_items_of_inv hB X [], hDC, hnB]
    simp
  · rcases hl with hl | hl
    · exact ((waits_along_steps hC hpA hsteps).2.2 hl).2
    · exact ((waits_along_steps hC hpB hsteps).2.2 hl).2

/-- Instance of C20 (amended) on the empty scheduler. -/
theorem scenario_write_read_write_witness :
    Reachable empty ∧
      precedes (spawn (spawn (spawn empty 0 []) 1 [0]) 0 []) 0 2 ∧
      2 ∉ (spawn (spawn (spawn empty 0 []) 1 [0]) 0 []).m_pool :=
  ⟨Reachable.init, (scenario_write_read_write Reachable.init 0 1).2.2.2.1,
    (scenario_write_read_write Reachable.init 0 1).2.2.2.2 _ Relation.ReflTransGen.refl
      (Or.inl ⟨⟨0, [1], [0], 0⟩, by decide, rfl⟩)⟩

end dependency_scheduling
end scheduling
end aBLAS

/-! ## Claims about scenarios and the shape of the graph -/

namespace aBLAS
namespace scheduling
namespace dependency_scheduling

/-- C23: in every reachable state every entry of `out_edges` of a live item is
a live item with a larger address, i.e. one admitted strictly later (the list
of work items is in admission order); hence a direct or transitive predecessor
always has the smaller address and no item precedes itself. -/
theorem out_edges_point_later {s : dependency_scheduling} (hs : Reachable s) :
    (s.m_work_items.Pairwise fun a b => a.id < b.id) ∧
    (∀ w ∈ s.m_work_items, ∀ e ∈ w.out_edges, w.id < e ∧ live s e) ∧
    (∀ a b, precedes s a b → a < b) ∧
    ∀ a, ¬ precedes s a a := by
  have h := inv_of_reachable hs
  have hlt : ∀ a b, precedes s a b → a < b := by
    intro a b hab
    unfold precedes at hab
    induction hab with
    | single hxy =>
      obtain ⟨v, hv, rfl, he⟩ := hxy
      exact h.edges_later v hv _ he
    | tail _ hxy ih =>
      obtain ⟨v, hv, rfl, he⟩ := hxy
      exact Nat.lt_trans ih (h.edges_later v hv _ he)
  exact ⟨h.ids_sorted, fun w hw e he => ⟨h.edges_later w hw e he, h.edges_live w hw e he⟩,
    hlt, fun a ha => Nat.lt_irrefl a (hlt a a ha)⟩

/-- Instance of C23: the link from the writer 0 to the reader 1. -/
theorem out_edges_point_later_witness :
    Reachable (spawn (spawn empty 0 []) 1 [0]) ∧ ¬ precedes (spawn (spawn empty 0 []) 1 [0]) 1 1 :=
  ⟨reachable_spawn (reachable_spawn Reachable.init 0 []) 1 [0],
    (out_edges_point_later (reachable_spawn (reachable_spawn Reachable.init 0 []) 1 [0])).2.2.2
      1⟩

end dependency_scheduling
end scheduling
end aBLAS

/-! ## Claims about the size checks of the expression layer -/

namespace aBLAS

open scheduling scheduling.dependency_scheduling in
/-- C24: with the size checks compiled in, `assign` and `plus_assign` on a
target whose size differs from the size of the source return the size-mismatch
exception and the scheduler they were given (nothing is spawned); when the
sizes are equal the check raises nothing and the kernel is spawned. -/
theorem assign_size_check (s : dependency_scheduling) (x_size x_dependencies : Nat)
    (v : vector_expression) :
    (x_size ≠ v.size →
      vector_expression.assign s x_size x_dependencies v =
          (.error { m_what := "size mismatch: x().size() == v().size()" }, s) ∧
        vector_expression.plus_assign s x_size x_dependencies v =
          (.error { m_what := "size mismatch: x().size() == v().size()" }, s)) ∧
    (x_size = v.size →
      vector_expression.assign s x_size x_dependencies v =
          (.ok (), spawn s x_dependencies v.dependencies.read_variables) ∧
        vector_expression.plus_assign s x_size x_dependencies v =
          (.ok (), spawn s x_dependencies v.dependencies.read_variables)) := by
  constructor
  · intro hne
    have hb : (x_size == v.size) = false := by simpa using hne
    simp [vector_expression.assign, vector_expression.plus_assign, ABLAS_SIZE_CHECK, hb, throw,
      throwThe, MonadExceptOf.throw]
  · intro heq
    have hb : (x_size == v.size) = true := by simpa using heq
    simp [vector_expression.assign, vector_expression.plus_assign, ABLAS_SIZE_CHECK, hb, pure,
      Except.pure]

open scheduling scheduling.dependency_scheduling in
/-- C25: for `A` and `B` of size 2 x 2 and `C` of size 3 x 3, `B + C` is built
without an exception, `assign(A, B + C)` compares `A` with the left operand
only, raises nothing and spawns the kernel (one work item is admitted); the
vector sibling `vector_addition` raises the size mismatch at construction. -/
theorem matrix_addition_unchecked :
    matrix_expression.operator_plus (.matrix 2 2 1) (.matrix 3 3 2) =
        .matrix_addition (.matrix 2 2 1) (.matrix 3 3 2) ∧
      matrix_expression.assign empty 2 2 0
          (matrix_expression.operator_plus (.matrix 2 2 1) (.matrix 3 3 2)) =
        (.ok (), spawn empty 0 [1, 2]) ∧
      (spawn empty 0 [1, 2]).m_work_items =
        [{ id := 0, out_edges := [], in_variables := [1, 2, 0], active_dependencies := 0 }] ∧
      vector_expression.operator_plus (.vector 2 1) (.vector 3 2) =
        .error { m_what := "size mismatch: e1.size() == e2.size()" } := by
  refine ⟨rfl, rfl, by decide, rfl⟩

end aBLAS

namespace aBLAS

/-! ## Properties of the kernels -/

theorem for_range_succ {σ : Type} (n : Nat) (body : Nat → σ → σ) (s : σ) :
    for_range (n + 1) body s = body n (for_range n body s) := by
  simp [for_range, List.range_succ, List.foldl_append]

theorem for_range_checked_succ {σ : Type} (n : Nat) (body : Nat → σ → Except Exception σ)
    (s : σ) :
    for_range_checked (n + 1) body s = for_range_checked n body s >>= body n := by
  simp [for_range_checked, List.range_succ, List.foldlM_append]

/-- Loop rule: a property that holds at entry and is carried over by every
iteration holds at exit. -/
theorem for_range_rule {σ : Type} (P : Nat → σ → Prop) (n : Nat) (body : Nat → σ → σ)
    (s : σ) (h0 : P 0 s) (hstep : ∀ k t, k < n → P k t → P (k + 1) (body k t)) :
    P n (for_range n body s) := by
  have h : ∀ m, m ≤ n → P m (for_range m body s) := by
    intro m
    induction m with
    | zero => intro _; simpa [for_range] using h0
    | succ m ih =>
      intro hm
      rw [for_range_succ]
      exact hstep m _ (by omega) (ih (by omega))
  exact h n (le_refl n)

/-- Loop rule for a body that may throw: if every iteration returns and
carries the property over, the loop returns and the property holds at exit. -/
theorem for_range_checked_rule {σ : Type} (P : Nat → σ → Prop) (n : Nat)
    (body : Nat → σ → Except Exception σ) (s : σ) (h0 : P 0 s)
    (hstep : ∀ k t, k < n → P k t → ∃ t', body k t = .ok t' ∧ P (k + 1) t') :
    ∃ r, for_range_checked n body s = .ok r ∧ P n r := by
  have h : ∀ m, m ≤ n → ∃ r, for_range_checked m body s = .ok r ∧ P m r := by
    intro m
    induction m with
    | zero => intro _; exact ⟨s, by simp [for_range_checked, pure, Except.pure], h0⟩
    | succ m ih =>
      intro hm
      obtain ⟨r, hr, hP⟩ := ih (by omega)
      obtain ⟨t', ht', hP'⟩ := hstep m r (by omega) hP
      refine ⟨t', ?_, hP'⟩
      rw [for_range_checked_succ, hr]
      exact ht'
  exact h n (le_refl n)

/-- Loop whose iterations update disjoint sets of observations: every
observation in one of the sets is updated exactly once, the others are kept. -/
theorem for_range_pointwise {σ κ α : Type} (get : σ → κ → α) (I : σ → Prop) (n : Nat)
    (body : Nat → σ → σ) (K : Nat → κ → Prop) (V : κ → α → α)
    (hdisj : ∀ i j p, i < n → j < n → K i p → K j p → i = j)
    (hbody : ∀ i t, i < n → I t → I (body i t) ∧
      ∀ p, (K i p → get (body i t) p = V p (get t p)) ∧
           (¬ K i p → get (body i t) p = get t p))
    (s : σ) (hs : I s) :
    I (for_range n body s) ∧
      ∀ p, ((∃ i, i < n ∧ K i p) → get (for_range n body s) p = V p (get s p)) ∧
           ((¬ ∃ i, i < n ∧ K i p) → get (for_range n body s) p = get s p) := by
  refine for_range_rule
    (fun m t => I t ∧ ∀ p, ((∃ i, i < m ∧ K i p) → get t p = V p (get s p)) ∧
           ((¬ ∃ i, i < m ∧ K i p) → get t p = get s p)) n body s ⟨hs, ?_⟩ ?_
  · intro p
    exact ⟨fun ⟨i, hi, _⟩ => absurd hi (Nat.not_lt_zero i), fun _ => rfl⟩
  · intro k t hk ⟨hI, hget⟩
    obtain ⟨hI', hb⟩ := hbody k t hk hI
    refine ⟨hI', fun p => ⟨?_, ?_⟩⟩
    · rintro ⟨i, hi, hKi⟩
      by_cases hKk : K k p
      · have hno : ¬ ∃ i, i < k ∧ K i p := by
          rintro ⟨j, hj, hKj⟩
          have := hdisj j k p (by omega) hk hKj hKk
          omega
        rw [(hb p).1 hKk, (hget p).2 hno]
      · have hik : i < k := by
          rcases Nat.lt_or_ge i k with h | h
          · exact h
          · have : i = k := by omega
            exact absurd (this ▸ hKi) hKk
        rw [(hb p).2 hKk, (hget p).1 ⟨i, hik, hKi⟩]
    · intro hno
      have hKk : ¬ K k p := fun h => hno ⟨k, by omega, h⟩
      have hno' : ¬ ∃ i, i < k ∧ K i p := by
        rintro ⟨j, hj, hKj⟩
        exact hno ⟨j, by omega, hKj⟩
      rw [(hb p).2 hKk, (hget p).2 hno']

/-- The same for a body that may throw. -/
theorem for_range_checked_pointwise {σ κ α : Type} (get : σ → κ → α) (I : σ → Prop)
    (n : Nat) (body : Nat → σ → Except Exception σ) (K : Nat → κ → Prop) (V : κ → α → α)
    (hdisj : ∀ i j p, i < n → j < n → K i p → K j p → i = j)
    (hbody : ∀ i t, i < n → I t → ∃ t', body i t = .ok t' ∧ I t' ∧
      ∀ p, (K i p → get t' p = V p (get t p)) ∧ (¬ K i p → get t' p = get t p))
    (s : σ) (hs : I s) :
    ∃ r, for_range_checked n body s = .ok r ∧ I r ∧
      ∀ p, ((∃ i, i < n ∧ K i p) → get r p = V p (get s p)) ∧
           ((¬ ∃ i, i < n ∧ K i p) → get r p = get s p) := by
  refine for_range_checked_rule
    (fun m t => I t ∧ ∀ p, ((∃ i, i < m ∧ K i p) → get t p = V p (get s p)) ∧
           ((¬ ∃ i, i < m ∧ K i p) → get t p = get s p)) n body s ⟨hs, ?_⟩ ?_
  · intro p
    exact ⟨fun ⟨i, hi, _⟩ => absurd hi (Nat.not_lt_zero i), fun _ => rfl⟩
  · intro k t hk ⟨hI, hget⟩
    obtain ⟨t', ht', hI', hb⟩ := hbody k t hk hI
    refine ⟨t', ht', hI', fun p => ⟨?_, ?_⟩⟩
    · rintro ⟨i, hi, hKi⟩
      by_cases hKk : K k p
      · have hno : ¬ ∃ i, i < k ∧ K i p := by
          rintro ⟨j, hj, hKj⟩
          have := hdisj j k p (by omega) hk hKj hKk
          omega
        rw [(hb p).1 hKk, (hget p).2 hno]
      · have hik : i < k := by
          rcases Nat.lt_or_ge i k with h | h
          · exact h
          · have : i = k := by omega
            exact absurd (this ▸ hKi) hKk
        rw [(hb p).2 hKk, (hget p).1 ⟨i, hik, hKi⟩]
    · intro hno
      have hKk : ¬ K k p := fun h => hno ⟨k, by omega, h⟩
      have hno' : ¬ ∃ i, i < k ∧ K i p := by
        rintro ⟨j, hj, hKj⟩
        exact hno ⟨j, by omega, hKj⟩
      rw [(hb p).2 hKk, (hget p).2 hno']

theorem dense_vector_ext {α : Type} (v w : dense_vector α) (hs : v.size = w.size)
    (he : ∀ i, v.elem i = w.elem i) : v = w := by
  cases v; cases w
  simp only [dense_vector.mk.injEq] at *
  exact ⟨hs, funext he⟩

theorem dense_matrix_ext {α : Type} (m w : dense_matrix α) (h1 : m.size1 = w.size1)
    (h2 : m.size2 = w.size2) (ho : m.orientation = w.orientation)
    (he : ∀ i j, m.elem i j = w.elem i j) : m = w := by
  cases m; cases w
  simp only [dense_matrix.mk.injEq] at *
  exact ⟨h1, h2, ho, funext fun i => funext fun j => he i j⟩

/-- Closed form of a loop over the positions of a vector that replaces the
element at position `i` by `g i` of it. -/
theorem for_range_vector {α : Type} (g : Nat → α → α) (v : dense_vector α) :
    for_range v.size (fun i w => w.set i (g i (w.elem i))) v =
      { size := v.size, elem := fun i => if i < v.size then g i (v.elem i) else v.elem i } := by
  have h := for_range_pointwise (fun (w : dense_vector α) (i : Nat) => w.elem i)
    (fun w => w.size = v.size) v.size (fun i w => w.set i (g i (w.elem i)))
    (fun i p => p = i) g
    (fun i j p _ _ hi hj => hi.symm.trans hj)
    (fun i t _ ht => ⟨ht, fun p => ⟨fun hp => by simp [dense_vector.set, hp],
      fun hp => by simp [dense_vector.set, hp]⟩⟩) v rfl
  apply dense_vector_ext
  · exact h.1
  · intro i
    by_cases hi : i < v.size
    · simpa [hi] using (h.2 i).1 ⟨i, hi, rfl⟩
    · have hno : ¬ ∃ j, j < v.size ∧ i = j := by
        rintro ⟨j, hj, rfl⟩
        exact hi hj
      simpa [hi] using (h.2 i).2 hno

end aBLAS

namespace aBLAS

theorem major_position_inj (O : orientation) (i k i' k' : Nat)
    (h : (O.index_row i k, O.index_col i k) = (O.index_row i' k', O.index_col i' k')) :
    i = i' ∧ k = k' := by
  cases O <;> simp [orientation.index_row, orientation.index_col] at h <;> omega

theorem major_range_iff (O : orientation) (n1 n2 : Nat) (p : Nat × Nat) :
    (∃ i, i < O.index_M n1 n2 ∧
      ∃ k, k < O.index_m n1 n2 ∧ p = (O.index_row i k, O.index_col i k)) ↔
    p.1 < n1 ∧ p.2 < n2 := by
  obtain ⟨a, b⟩ := p
  cases O <;>
    simp only [orientation.index_M, orientation.index_m, orientation.index_row,
      orientation.index_col, Prod.mk.injEq]
  · constructor
    · rintro ⟨i, hi, k, hk, rfl, rfl⟩
      exact ⟨hi, hk⟩
    · rintro ⟨ha, hb⟩
      exact ⟨a, ha, b, hb, rfl, rfl⟩
  · constructor
    · rintro ⟨i, hi, k, hk, rfl, rfl⟩
      exact ⟨hk, hi⟩
    · rintro ⟨ha, hb⟩
      exact ⟨b, hb, a, ha, rfl, rfl⟩

theorem index_row_major (O : orientation) (a b : Nat) :
    O.index_row (O.index_M a b) (O.index_m a b) = a := by
  cases O <;> rfl

theorem index_col_major (O : orientation) (a b : Nat) :
    O.index_col (O.index_M a b) (O.index_m a b) = b := by
  cases O <;> rfl

/-- Closed form of the two loops over the major lines of a matrix and the
positions in a line that replace the element at position `k` of line `i` by
`g i k` of it: every element of the matrix is updated exactly once. -/
theorem for_range_major {α : Type} (g : Nat → Nat → α → α) (m : dense_matrix α) :
    for_range (m.orientation.index_M m.size1 m.size2) (fun i w =>
      for_range w.major_length (fun k w => w.set_major i k (g i k (w.major i k))) w) m =
      { m with elem := fun a b =>
          (if a < m.size1 ∧ b < m.size2 then
            g (m.orientation.index_M a b) (m.orientation.index_m a b) (m.elem a b)
          else m.elem a b) } := by
  have hinner : ∀ i (t : dense_matrix α),
      (t.size1 = m.size1 ∧ t.size2 = m.size2 ∧ t.orientation = m.orientation) →
      (fun (w : dense_matrix α) => w.size1 = m.size1 ∧ w.size2 = m.size2 ∧
          w.orientation = m.orientation)
        (for_range t.major_length (fun k w => w.set_major i k (g i k (w.major i k))) t) ∧
      ∀ p : Nat × Nat,
        ((∃ k, k < t.major_length ∧
            p = (m.orientation.index_row i k, m.orientation.index_col i k)) →
          (for_range t.major_length
              (fun k w => w.set_major i k (g i k (w.major i k))) t).elem p.1 p.2 =
            g (m.orientation.index_M p.1 p.2) (m.orientation.index_m p.1 p.2)
              (t.elem p.1 p.2)) ∧
        ((¬ ∃ k, k < t.major_length ∧
            p = (m.orientation.index_row i k, m.orientation.index_col i k)) →
          (for_range t.major_length
              (fun k w => w.set_major i k (g i k (w.major i k))) t).elem p.1 p.2 =
            t.elem p.1 p.2) := by
    intro i t ht
    refine for_range_pointwise (fun (w : dense_matrix α) (p : Nat × Nat) => w.elem p.1 p.2)
      (fun w => w.size1 = m.size1 ∧ w.size2 = m.size2 ∧ w.orientation = m.orientation)
      t.major_length (fun k w => w.set_major i k (g i k (w.major i k)))
      (fun k p => p = (m.orientation.index_row i k, m.orientation.index_col i k))
      (fun p x => g (m.orientation.index_M p.1 p.2) (m.orientation.index_m p.1 p.2) x)
      ?_ ?_ t ht
    · intro k k' p _ _ hk hk'
      exact (major_position_inj _ _ _ _ _ (hk.symm.trans hk')).2
    · intro k w _ hw
      refine ⟨hw, fun p => ⟨?_, ?_⟩⟩
      · rintro rfl
        cases hO : m.orientation <;>
          simp [dense_matrix.set_major, dense_matrix.set, dense_matrix.major, hw.2.2, hO,
            orientation.index_row, orientation.index_col, orientation.index_M,
            orientation.index_m]
      · intro hp
        have : ¬ (p.1 = m.orientation.index_row i k ∧ p.2 = m.orientation.index_col i k) :=
          fun h => hp (Prod.ext h.1 h.2)
        simp [dense_matrix.set_major, dense_matrix.set, hw.2.2, this]
  have houter := for_range_pointwise
    (fun (w : dense_matrix α) (p : Nat × Nat) => w.elem p.1 p.2)
    (fun w => w.size1 = m.size1 ∧ w.size2 = m.size2 ∧ w.orientation = m.orientation)
    (m.orientation.index_M m.size1 m.size2)
    (fun i w => for_range w.major_length
      (fun k w => w.set_major i k (g i k (w.major i k))) w)
    (fun i p => ∃ k, k < m.orientation.index_m m.size1 m.size2 ∧
      p = (m.orientation.index_row i k, m.orientation.index_col i k))
    (fun p x => g (m.orientation.index_M p.1 p.2) (m.orientation.index_m p.1 p.2) x)
    (by
      rintro i i' p _ _ ⟨k, _, hk⟩ ⟨k', _, hk'⟩
      exact (major_position_inj _ _ _ _ _ (hk.symm.trans hk')).1)
    (by
      intro i t _ ht
      have hlen : t.major_length = m.orientation.index_m m.size1 m.size2 := by
        simp [dense_matrix.major_length, ht.1, ht.2.1, ht.2.2]
      have := hinner i t ht
      rw [hlen] at this
      beta_reduce at this ⊢
      rw [hlen]
      exact this) m ⟨rfl, rfl, rfl⟩
  apply dense_matrix_ext
  · exact houter.1.1
  · exact houter.1.2.1
  · exact houter.1.2.2
  · intro a b
    have hiff := major_range_iff m.orientation m.size1 m.size2 (a, b)
    by_cases hab : a < m.size1 ∧ b < m.size2
    · simpa [hab] using (houter.2 (a, b)).1 (hiff.2 hab)
    · have hno := fun h => hab (hiff.1 h)
      simpa [hab] using (houter.2 (a, b)).2 hno

theorem major_eq_elem {α : Type} (e : dense_matrix α) (a b : Nat) :
    e.major (e.orientation.index_M a b) (e.orientation.index_m a b) = e.elem a b := by
  simp [dense_matrix.major, index_row_major, index_col_major]

namespace kernels

/-- Closed form of the kernel `assign<F>(v, t)`. -/
theorem assign_vector_scalar_eq {α : Type} [One α] (F : α → α → α → α) (v : dense_vector α)
    (t : α) :
    assign_vector_scalar F v t =
      { size := v.size, elem := fun i => if i < v.size then F 1 (v.elem i) t else v.elem i } :=
  for_range_vector (fun _ x => F 1 x t) v

/-- Closed form of the dense kernel `assign<F>(v, e, alpha)`. -/
theorem assign_vector_dense_eq {α : Type} (F : α → α → α → α) (v e : dense_vector α)
    (alpha : α) :
    assign_vector_dense F v e alpha =
      { size := v.size,
        elem := fun i => if i < v.size then F alpha (v.elem i) (e.elem i) else v.elem i } :=
  for_range_vector (fun i x => F alpha x (e.elem i)) v

/-- The dispatcher `assign<F>(v, e, alpha)` returns when the sizes agree. -/
theorem assign_vector_eq {α : Type} (F : α → α → α → α) (v e : dense_vector α)
    (alpha : α) (h : v.size = e.size) :
    assign_vector F v e alpha =
      .ok { size := v.size,
            elem := fun i => if i < v.size then F alpha (v.elem i) (e.elem i)
                             else v.elem i } := by
  simp [assign_vector, ABLAS_SIZE_CHECK, h, assign_vector_dense_eq, bind, Except.bind, pure,
    Except.pure]

/-- Closed form of the dispatcher `assign<F>(m, t)`. -/
theorem assign_matrix_scalar_eq {α : Type} [One α] (F : α → α → α → α) (m : dense_matrix α)
    (t : α) :
    assign_matrix_scalar F m t =
      { m with elem := fun a b =>
          if a < m.size1 ∧ b < m.size2 then F 1 (m.elem a b) t else m.elem a b } :=
  for_range_major (fun _ _ x => F 1 x t) m

/-- Closed form of the kernel for operands of the same orientation. -/
theorem assign_matrix_same_eq {α : Type} (F : α → α → α → α) (m e : dense_matrix α)
    (alpha : α) (he : e.orientation = m.orientation) :
    assign_matrix_same F m e alpha m.orientation =
      { m with elem := fun a b =>
          if a < m.size1 ∧ b < m.size2 then F alpha (m.elem a b) (e.elem a b)
          else m.elem a b } := by
  have h := for_range_major (fun i k x => F alpha x (e.major i k)) m
  rw [← he] at h
  simp only [major_eq_elem] at h
  rw [he] at h
  exact h

end kernels

end aBLAS

namespace aBLAS

theorem for_range_checked_ok {σ : Type} (n : Nat) (body : Nat → σ → σ) (s : σ) :
    for_range_checked n (fun i t => Except.ok (body i t)) s = .ok (for_range n body s) := by
  induction n with
  | zero => simp [for_range_checked, for_range, pure, Except.pure]
  | succ n ih => rw [for_range_checked_succ, ih, for_range_succ]; rfl

/-- The blocks of a loop with stride `step` cover the indices below `n`. -/
theorem blocks_cover (n step : Nat) (hstep : 0 < step) (x : Nat) :
    (∃ b, b < (n + step - 1) / step ∧ ∃ i, i < min step (n - b * step) ∧ x = b * step + i) ↔
      x < n := by
  constructor
  · rintro ⟨b, hb, i, hi, rfl⟩
    have h1 : (b + 1) * step ≤ n + step - 1 := (Nat.le_div_iff_mul_le hstep).1 hb
    have h2 : (b + 1) * step = b * step + step := by ring
    have h3 : i < n - b * step := lt_of_lt_of_le hi (min_le_right _ _)
    omega
  · intro hx
    have hdm : step * (x / step) + x % step = x := Nat.div_add_mod x step
    have hmul : step * (x / step) = x / step * step := Nat.mul_comm _ _
    have hmod : x % step < step := Nat.mod_lt x hstep
    refine ⟨x / step, ?_, x % step, ?_, by omega⟩
    · have h2 : (x / step + 1) * step = x / step * step + step := by ring
      have h3 : (x / step + 1) * step ≤ n + step - 1 := by omega
      exact (Nat.le_div_iff_mul_le hstep).2 h3
    · exact lt_min hmod (by omega)

theorem block_index_unique (step b b' j j' : Nat) (hj : j < step) (hj' : j' < step)
    (h : b * step + j = b' * step + j') : b = b' := by
  have hstep : 0 < step := by omega
  have h1 : (j + step * b) / step = b := by
    rw [Nat.add_mul_div_left _ _ hstep, Nat.div_eq_of_lt hj, Nat.zero_add]
  have h2 : (j' + step * b') / step = b' := by
    rw [Nat.add_mul_div_left _ _ hstep, Nat.div_eq_of_lt hj', Nat.zero_add]
  have h3 : j + step * b = j' + step * b' := by
    rw [Nat.mul_comm step b, Nat.mul_comm step b']; omega
  rw [← h1, ← h2, h3]

/-- Two nested loops over blocks whose body updates the observations at the
positions of its block exactly once: the observations at all positions
`pos x y` with `x < n1`, `y < n2` are updated exactly once, the others kept. -/
theorem for_blocks_checked_pointwise {σ κ α : Type} (get : σ → κ → α) (I : σ → Prop)
    (n1 n2 step : Nat) (hstep : 0 < step) (pos : Nat → Nat → κ)
    (hpos : ∀ x y x' y', pos x y = pos x' y' → x = x' ∧ y = y')
    (body : Nat → Nat → σ → Except Exception σ) (V : κ → α → α)
    (hbody : ∀ ib jb t, ib < n1 → jb < n2 → I t → ∃ t', body ib jb t = .ok t' ∧ I t' ∧
      ∀ p, ((∃ i, i < min step (n1 - ib) ∧ ∃ j, j < min step (n2 - jb) ∧
              p = pos (ib + i) (jb + j)) → get t' p = V p (get t p)) ∧
           ((¬ ∃ i, i < min step (n1 - ib) ∧ ∃ j, j < min step (n2 - jb) ∧
              p = pos (ib + i) (jb + j)) → get t' p = get t p))
    (s : σ) (hs : I s) :
    ∃ r, for_blocks_checked n1 step (fun ib t =>
          for_blocks_checked n2 step (fun jb t => body ib jb t) t) s = .ok r ∧ I r ∧
      ∀ p, ((∃ x, x < n1 ∧ ∃ y, y < n2 ∧ p = pos x y) → get r p = V p (get s p)) ∧
           ((¬ ∃ x, x < n1 ∧ ∃ y, y < n2 ∧ p = pos x y) → get r p = get s p) := by
  have hlt : ∀ n b, b < (n + step - 1) / step → b * step < n := by
    intro n b hb
    have := (blocks_cover n step hstep (b * step)).1
      ⟨b, hb, 0, lt_min hstep (by
        have h1 : (b + 1) * step ≤ n + step - 1 := (Nat.le_div_iff_mul_le hstep).1 hb
        have h2 : (b + 1) * step = b * step + step := by ring
        omega), rfl⟩
    exact this
  have hinner : ∀ bi t, bi < (n1 + step - 1) / step → I t →
      ∃ t', for_blocks_checked n2 step (fun jb t => body (bi * step) jb t) t = .ok t' ∧ I t' ∧
        ∀ p, ((∃ bj, bj < (n2 + step - 1) / step ∧ ∃ i, i < min step (n1 - bi * step) ∧
                ∃ j, j < min step (n2 - bj * step) ∧
                  p = pos (bi * step + i) (bj * step + j)) → get t' p = V p (get t p)) ∧
             ((¬ ∃ bj, bj < (n2 + step - 1) / step ∧ ∃ i, i < min step (n1 - bi * step) ∧
                ∃ j, j < min step (n2 - bj * step) ∧
                  p = pos (bi * step + i) (bj * step + j)) → get t' p = get t p) := by
    intro bi t hbi ht
    refine for_range_checked_pointwise get I ((n2 + step - 1) / step)
      (fun bj t => body (bi * step) (bj * step) t)
      (fun bj p => ∃ i, i < min step (n1 - bi * step) ∧
          ∃ j, j < min step (n2 - bj * step) ∧ p = pos (bi * step + i) (bj * step + j))
      V ?_ ?_ t ht
    · rintro bj bj' p _ _ ⟨i, _, j, hj, hp⟩ ⟨i', _, j', hj', hp'⟩
      have := (hpos _ _ _ _ (hp.symm.trans hp')).2
      exact block_index_unique step bj bj' j j' (lt_of_lt_of_le hj (min_le_left _ _))
        (lt_of_lt_of_le hj' (min_le_left _ _)) this
    · intro bj u hbj hu
      exact hbody (bi * step) (bj * step) u (hlt n1 bi hbi) (hlt n2 bj hbj) hu
  obtain ⟨r, hr, hIr, hget⟩ := for_range_checked_pointwise get I ((n1 + step - 1) / step)
    (fun bi t => for_blocks_checked n2 step (fun jb t => body (bi * step) jb t) t)
    (fun bi p => ∃ bj, bj < (n2 + step - 1) / step ∧ ∃ i, i < min step (n1 - bi * step) ∧
        ∃ j, j < min step (n2 - bj * step) ∧ p = pos (bi * step + i) (bj * step + j))
    V
    (by
      rintro bi bi' p _ _ ⟨bj, _, i, hi, j, _, hp⟩ ⟨bj', _, i', hi', j', _, hp'⟩
      have := (hpos _ _ _ _ (hp.symm.trans hp')).1
      exact block_index_unique step bi bi' i i' (lt_of_lt_of_le hi (min_le_left _ _))
        (lt_of_lt_of_le hi' (min_le_left _ _)) this)
    (fun bi t hbi ht => hinner bi t hbi ht) s hs
  refine ⟨r, hr, hIr, fun p => ?_⟩
  have hiff : (∃ bi, bi < (n1 + step - 1) / step ∧ ∃ bj, bj < (n2 + step - 1) / step ∧
      ∃ i, i < min step (n1 - bi * step) ∧ ∃ j, j < min step (n2 - bj * step) ∧
        p = pos (bi * step + i) (bj * step + j)) ↔
      ∃ x, x < n1 ∧ ∃ y, y < n2 ∧ p = pos x y := by
    constructor
    · rintro ⟨bi, hbi, bj, hbj, i, hi, j, hj, hp⟩
      exact ⟨bi * step + i, (blocks_cover n1 step hstep _).1 ⟨bi, hbi, i, hi, rfl⟩,
        bj * step + j, (blocks_cover n2 step hstep _).1 ⟨bj, hbj, j, hj, rfl⟩, hp⟩
    · rintro ⟨x, hx, y, hy, hp⟩
      obtain ⟨bi, hbi, i, hi, rfl⟩ := (blocks_cover n1 step hstep x).2 hx
      obtain ⟨bj, hbj, j, hj, rfl⟩ := (blocks_cover n2 step hstep y).2 hy
      exact ⟨bi, hbi, bj, hbj, i, hi, j, hj, hp⟩
  exact ⟨fun h => (hget p).1 (hiff.2 h), fun h => (hget p).2 (fun h' => h (hiff.1 h'))⟩

theorem for_blocks_checked_ok {σ : Type} (n step : Nat) (body : Nat → σ → σ) (s : σ) :
    for_blocks_checked n step (fun i t => Except.ok (body i t)) s =
      .ok (for_blocks n step body s) :=
  for_range_checked_ok _ _ s

/-- The same for two nested loops over blocks whose body does not throw. -/
theorem for_blocks_pointwise {σ κ α : Type} (get : σ → κ → α) (I : σ → Prop)
    (n1 n2 step : Nat) (hstep : 0 < step) (pos : Nat → Nat → κ)
    (hpos : ∀ x y x' y', pos x y = pos x' y' → x = x' ∧ y = y')
    (body : Nat → Nat → σ → σ) (V : κ → α → α)
    (hbody : ∀ ib jb t, ib < n1 → jb < n2 → I t → I (body ib jb t) ∧
      ∀ p, ((∃ i, i < min step (n1 - ib) ∧ ∃ j, j < min step (n2 - jb) ∧
              p = pos (ib + i) (jb + j)) → get (body ib jb t) p = V p (get t p)) ∧
           ((¬ ∃ i, i < min step (n1 - ib) ∧ ∃ j, j < min step (n2 - jb) ∧
              p = pos (ib + i) (jb + j)) → get (body ib jb t) p = get t p))
    (s : σ) (hs : I s) :
    I (for_blocks n1 step (fun ib t => for_blocks n2 step (fun jb t => body ib jb t) t) s) ∧
      ∀ p, ((∃ x, x < n1 ∧ ∃ y, y < n2 ∧ p = pos x y) →
              get (for_blocks n1 step (fun ib t =>
                for_blocks n2 step (fun jb t => body ib jb t) t) s) p = V p (get s p)) ∧
           ((¬ ∃ x, x < n1 ∧ ∃ y, y < n2 ∧ p = pos x y) →
              get (for_blocks n1 step (fun ib t =>
                for_blocks n2 step (fun jb t => body ib jb t) t) s) p = get s p) := by
  obtain ⟨r, hr, hI, hget⟩ := for_blocks_checked_pointwise get I n1 n2 step hstep pos hpos
    (fun ib jb t => .ok (body ib jb t)) V
    (fun ib jb t hib hjb ht => ⟨_, rfl, hbody ib jb t hib hjb ht⟩) s hs
  have h1 : (fun ib t => for_blocks_checked n2 step
      (fun jb t => (Except.ok (body ib jb t) : Except Exception σ)) t) =
      fun ib t => Except.ok (for_blocks n2 step (fun jb t => body ib jb t) t) := by
    funext ib t
    exact for_blocks_checked_ok n2 step _ t
  rw [h1, for_blocks_checked_ok] at hr
  cases hr
  exact ⟨hI, hget⟩

end aBLAS

namespace aBLAS

/-- Two nested loops whose body updates the observation at the position of its
two indices: the observations at all positions `pos x y` with `x < n1`,
`y < n2` are updated exactly once, the others are kept. -/
theorem for_range2_pointwise {σ κ α : Type} (get : σ → κ → α) (I : σ → Prop)
    (n1 n2 : Nat) (pos : Nat → Nat → κ)
    (hpos : ∀ x y x' y', pos x y = pos x' y' → x = x' ∧ y = y')
    (body : Nat → Nat → σ → σ) (V : κ → α → α)
    (hbody : ∀ x y t, x < n1 → y < n2 → I t → I (body x y t) ∧
      ∀ p, (p = pos x y → get (body x y t) p = V p (get t p)) ∧
           (¬ p = pos x y → get (body x y t) p = get t p))
    (s : σ) (hs : I s) :
    I (for_range n1 (fun x t => for_range n2 (fun y t => body x y t) t) s) ∧
      ∀ p, ((∃ x, x < n1 ∧ ∃ y, y < n2 ∧ p = pos x y) →
              get (for_range n1 (fun x t => for_range n2 (fun y t => body x y t) t) s) p =
                V p (get s p)) ∧
           ((¬ ∃ x, x < n1 ∧ ∃ y, y < n2 ∧ p = pos x y) →
              get (for_range n1 (fun x t => for_range n2 (fun y t => body x y t) t) s) p =
                get s p) := by
  refine for_range_pointwise get I n1 (fun x t => for_range n2 (fun y t => body x y t) t)
    (fun x p => ∃ y, y < n2 ∧ p = pos x y) V ?_ ?_ s hs
  · rintro x x' p _ _ ⟨y, _, hp⟩ ⟨y', _, hp'⟩
    exact (hpos _ _ _ _ (hp.symm.trans hp')).1
  · intro x t hx ht
    exact for_range_pointwise get I n2 (fun y t => body x y t) (fun y p => p = pos x y) V
      (fun y y' p _ _ hp hp' => (hpos _ _ _ _ (hp.symm.trans hp')).2)
      (fun y u hy hu => hbody x y u hx hy hu) t ht

theorem index_M_position (O : orientation) (i k : Nat) :
    O.index_M (O.index_row i k) (O.index_col i k) = i := by
  cases O <;> rfl

theorem index_m_position (O : orientation) (i k : Nat) :
    O.index_m (O.index_row i k) (O.index_col i k) = k := by
  cases O <;> rfl

namespace kernels

/-- Body of the two loops over blocks of the kernel for operands of opposite
orientation: it reads the block of `e` into `blockStorage` and applies the
functor to the block of `m`. -/
theorem assign_matrix_transposed_block {α : Type} (F : α → α → α → α) (e : dense_matrix α)
    (alpha : α) (O : orientation) (iblock jblock blockSizei blockSizej : Nat)
    (s : dense_matrix α × (Nat → Nat → α)) :
    ∃ t : dense_matrix α × (Nat → Nat → α),
      for_range blockSizei (fun i s =>
        for_range blockSizej (fun j (s : dense_matrix α × (Nat → Nat → α)) =>
          (s.1.set (O.index_row (iblock + i) (jblock + j))
              (O.index_col (iblock + i) (jblock + j))
              (F alpha (s.1.elem (O.index_row (iblock + i) (jblock + j))
                  (O.index_col (iblock + i) (jblock + j)))
                (s.2 (O.index_row i j) (O.index_col i j))),
           s.2)) s)
        (for_range blockSizej (fun j s =>
          for_range blockSizei (fun i (s : dense_matrix α × (Nat → Nat → α)) =>
            (s.1, fun a b =>
              if a = O.index_row i j ∧ b = O.index_col i j then
                e.elem (O.index_row (iblock + i) (jblock + j))
                  (O.index_col (iblock + i) (jblock + j))
              else s.2 a b)) s) s) = t ∧
      (t.1.size1 = s.1.size1 ∧ t.1.size2 = s.1.size2 ∧ t.1.orientation = s.1.orientation) ∧
      ∀ p : Nat × Nat,
        ((∃ i, i < blockSizei ∧ ∃ j, j < blockSizej ∧
            p = (O.index_row (iblock + i) (jblock + j),
                 O.index_col (iblock + i) (jblock + j))) →
          t.1.elem p.1 p.2 = F alpha (s.1.elem p.1 p.2) (e.elem p.1 p.2)) ∧
        ((¬ ∃ i, i < blockSizei ∧ ∃ j, j < blockSizej ∧
            p = (O.index_row (iblock + i) (jblock + j),
                 O.index_col (iblock + i) (jblock + j))) →
          t.1.elem p.1 p.2 = s.1.elem p.1 p.2) := by
  -- the block is read
  obtain ⟨hr1, hr2⟩ := for_range2_pointwise
    (fun (t : dense_matrix α × (Nat → Nat → α)) (q : Nat × Nat) => t.2 q.1 q.2)
    (fun t => t.1 = s.1) blockSizej blockSizei
    (fun j i => (O.index_row i j, O.index_col i j))
    (fun j i j' i' h => (major_position_inj O i j i' j' h).symm)
    (fun j i (t : dense_matrix α × (Nat → Nat → α)) =>
      (t.1, fun a b =>
        if a = O.index_row i j ∧ b = O.index_col i j then
          e.elem (O.index_row (iblock + i) (jblock + j))
            (O.index_col (iblock + i) (jblock + j))
        else t.2 a b))
    (fun q _ => e.elem
      (O.index_row (iblock + O.index_M q.1 q.2) (jblock + O.index_m q.1 q.2))
      (O.index_col (iblock + O.index_M q.1 q.2) (jblock + O.index_m q.1 q.2)))
    (by
      intro j i t _ _ ht
      refine ⟨ht, fun q => ⟨?_, ?_⟩⟩
      · rintro rfl
        simp [index_M_position, index_m_position]
      · intro hq
        have : ¬ (q.1 = O.index_row i j ∧ q.2 = O.index_col i j) :=
          fun h => hq (Prod.ext h.1 h.2)
        simp [this]) s rfl
  generalize for_range blockSizej (fun j s =>
      for_range blockSizei (fun i (s : dense_matrix α × (Nat → Nat → α)) =>
        (s.1, fun a b =>
          if a = O.index_row i j ∧ b = O.index_col i j then
            e.elem (O.index_row (iblock + i) (jblock + j))
              (O.index_col (iblock + i) (jblock + j))
          else s.2 a b)) s) s = s1 at hr1 hr2 ⊢
  -- the block is applied to the target
  obtain ⟨hc1, hc2⟩ := for_range2_pointwise
    (fun (t : dense_matrix α × (Nat → Nat → α)) (p : Nat × Nat) => t.1.elem p.1 p.2)
    (fun t => t.2 = s1.2 ∧ t.1.size1 = s.1.size1 ∧ t.1.size2 = s.1.size2 ∧
      t.1.orientation = s.1.orientation) blockSizei blockSizej
    (fun i j => (O.index_row (iblock + i) (jblock + j),
                 O.index_col (iblock + i) (jblock + j)))
    (fun i j i' j' h => by
      have := major_position_inj O _ _ _ _ h
      omega)
    (fun i j (t : dense_matrix α × (Nat → Nat → α)) =>
      (t.1.set (O.index_row (iblock + i) (jblock + j))
          (O.index_col (iblock + i) (jblock + j))
          (F alpha (t.1.elem (O.index_row (iblock + i) (jblock + j))
              (O.index_col (iblock + i) (jblock + j)))
            (t.2 (O.index_row i j) (O.index_col i j))),
       t.2))
    (fun p x => F alpha x
      (s1.2 (O.index_row (O.index_M p.1 p.2 - iblock) (O.index_m p.1 p.2 - jblock))
        (O.index_col (O.index_M p.1 p.2 - iblock) (O.index_m p.1 p.2 - jblock))))
    (by
      intro i j t _ _ ht
      refine ⟨⟨ht.1, ht.2⟩, fun p => ⟨?_, ?_⟩⟩
      · rintro rfl
        simp [dense_matrix.set, index_M_position, index_m_position, ht.1]
      · intro hp
        have : ¬ (p.1 = O.index_row (iblock + i) (jblock + j) ∧
            p.2 = O.index_col (iblock + i) (jblock + j)) :=
          fun h => hp (Prod.ext h.1 h.2)
        simp [dense_matrix.set, this]) s1 ⟨rfl, by rw [hr1], by rw [hr1], by rw [hr1]⟩
  refine ⟨_, rfl, hc1.2, fun p => ⟨?_, ?_⟩⟩
  · rintro ⟨i, hi, j, hj, rfl⟩
    have h1 := (hc2 _).1 ⟨i, hi, j, hj, rfl⟩
    have h2 := (hr2 (O.index_row i j, O.index_col i j)).1 ⟨j, hj, i, hi, rfl⟩
    simp only [index_M_position, index_m_position, Nat.add_sub_cancel_left] at h1 h2
    rw [h1, h2, hr1]
  · intro hp
    rw [(hc2 p).2 hp, hr1]

end kernels

end aBLAS

namespace aBLAS

namespace kernels

/-- Closed form of the blocked kernel for operands of opposite orientation: it
does not depend on the contents of the uninitialised array. -/
theorem assign_matrix_transposed_eq {α : Type} (F : α → α → α → α) (m e : dense_matrix α)
    (alpha : α) (O : orientation) (blockStorage : Nat → Nat → α) :
    assign_matrix_transposed F m e alpha O blockStorage =
      { m with elem := fun a b =>
          (if a < m.size1 ∧ b < m.size2 then F alpha (m.elem a b) (e.elem a b)
           else m.elem a b) } := by
  obtain ⟨hI, hget⟩ := for_blocks_pointwise
    (fun (t : dense_matrix α × (Nat → Nat → α)) (p : Nat × Nat) => t.1.elem p.1 p.2)
    (fun t => t.1.size1 = m.size1 ∧ t.1.size2 = m.size2 ∧ t.1.orientation = m.orientation)
    (O.index_M m.size1 m.size2) (O.index_m m.size1 m.size2) 16 (by decide)
    (fun x y => (O.index_row x y, O.index_col x y))
    (fun x y x' y' h => major_position_inj O x y x' y' h)
    (fun iblock jblock s =>
      for_range (min 16 (O.index_M m.size1 m.size2 - iblock)) (fun i s =>
        for_range (min 16 (O.index_m m.size1 m.size2 - jblock))
          (fun j (s : dense_matrix α × (Nat → Nat → α)) =>
          (s.1.set (O.index_row (iblock + i) (jblock + j))
              (O.index_col (iblock + i) (jblock + j))
              (F alpha (s.1.elem (O.index_row (iblock + i) (jblock + j))
                  (O.index_col (iblock + i) (jblock + j)))
                (s.2 (O.index_row i j) (O.index_col i j))),
           s.2)) s)
        (for_range (min 16 (O.index_m m.size1 m.size2 - jblock)) (fun j s =>
          for_range (min 16 (O.index_M m.size1 m.size2 - iblock))
            (fun i (s : dense_matrix α × (Nat → Nat → α)) =>
            (s.1, fun a b =>
              if a = O.index_row i j ∧ b = O.index_col i j then
                e.elem (O.index_row (iblock + i) (jblock + j))
                  (O.index_col (iblock + i) (jblock + j))
              else s.2 a b)) s) s))
    (fun p x => F alpha x (e.elem p.1 p.2))
    (by
      intro ib jb t _ _ ht
      obtain ⟨t', ht', hs, hp⟩ := assign_matrix_transposed_block F e alpha O ib jb
        (min 16 (O.index_M m.size1 m.size2 - ib)) (min 16 (O.index_m m.size1 m.size2 - jb)) t
      subst ht'
      exact ⟨⟨hs.1.trans ht.1, hs.2.1.trans ht.2.1, hs.2.2.trans ht.2.2⟩, hp⟩)
    (m, blockStorage) ⟨rfl, rfl, rfl⟩
  apply dense_matrix_ext
  · exact hI.1
  · exact hI.2.1
  · exact hI.2.2
  · intro a b
    have hiff := major_range_iff O m.size1 m.size2 (a, b)
    by_cases hab : a < m.size1 ∧ b < m.size2
    · have := (hget (a, b)).1 (hiff.2 hab)
      simp only [hab, and_self, if_true]
      exact this
    · have := (hget (a, b)).2 (fun h => hab (hiff.1 h))
      simp only [hab, if_false]
      exact this

/-- Closed form of the dispatcher `assign<F>(m, e, alpha)` for operands of
equal sizes, whatever their orientations. -/
theorem assign_matrix_eq {α : Type} [Zero α] (F : α → α → α → α) (m e : dense_matrix α)
    (alpha : α) (h1 : m.size1 = e.size1) (h2 : m.size2 = e.size2) :
    assign_matrix F m e alpha =
      .ok { m with elem := fun a b =>
          (if a < m.size1 ∧ b < m.size2 then F alpha (m.elem a b) (e.elem a b)
           else m.elem a b) } := by
  simp only [assign_matrix, ABLAS_SIZE_CHECK, h1, h2, beq_self_eq_true, if_true, bind,
    Except.bind, pure, Except.pure, assign_matrix_impl]
  congr 1
  split
  · next h => rw [assign_matrix_same_eq F m e alpha h, h1, h2]
  · rw [assign_matrix_transposed_eq, h1, h2]

end kernels

end aBLAS

/-! ## Claims about the assignment kernels -/

namespace aBLAS

/-- C28: for dense vectors `target` and `source` of equal size and every
`alpha`, `kernels::assign<scalar_assign>(target, source, alpha)` returns and
leaves `target(i) = alpha * source(i)`, and
`kernels::assign<scalar_plus_assign>(target, source, alpha)` returns and leaves
`target(i) = target_old(i) + alpha * source(i)`, for every `i` below the size;
the size of `target` is kept and nothing beyond it is written. The element type
is any type with `+` and `*`, so the statement covers `unsigned` arithmetic
modulo `2^32`. The source is a `const` reference; the kernel only reads it. -/
theorem vector_assign_result {α : Type} [Mul α] [Add α] (target source : dense_vector α)
    (alpha : α) (h : target.size = source.size) :
    (∃ r, kernels.assign_vector scalar_assign target source alpha = .ok r ∧
      r.size = target.size ∧
      (∀ i, i < target.size → r.elem i = alpha * source.elem i) ∧
      ∀ i, target.size ≤ i → r.elem i = target.elem i) ∧
    (∃ r, kernels.assign_vector scalar_plus_assign target source alpha = .ok r ∧
      r.size = target.size ∧
      (∀ i, i < target.size → r.elem i = target.elem i + alpha * source.elem i) ∧
      ∀ i, target.size ≤ i → r.elem i = target.elem i) := by
  refine ⟨⟨_, kernels.assign_vector_eq scalar_assign target source alpha h, rfl, ?_, ?_⟩,
    ⟨_, kernels.assign_vector_eq scalar_plus_assign target source alpha h, rfl, ?_, ?_⟩⟩
  · intro i hi
    simp [hi, scalar_assign]
  · intro i hi
    simp [Nat.not_lt.2 hi]
  · intro i hi
    simp [hi, scalar_plus_assign]
  · intro i hi
    simp [Nat.not_lt.2 hi]

/-- Instance of C28 in arithmetic modulo `2^32`: `alpha = 2^31` and the source
elements `2` give the target elements `2^31 * 2 = 0`. -/
theorem vector_assign_result_witness :
    (2 : Nat) = 2 ∧ (2147483648 * 2 : Fin 4294967296) = 0 ∧
    ∃ r, kernels.assign_vector scalar_assign
        ({ size := 2, elem := fun _ => 7 } : dense_vector (Fin 4294967296))
        { size := 2, elem := fun _ => 2 } 2147483648 = .ok r ∧
      r.size = 2 ∧
      (∀ i, i < 2 → r.elem i = 2147483648 * 2) ∧
      ∀ i, 2 ≤ i → r.elem i = 7 :=
  ⟨rfl, by decide, (vector_assign_result
    ({ size := 2, elem := fun _ => 7 } : dense_vector (Fin 4294967296))
    { size := 2, elem := fun _ => 2 } 2147483648 rfl).1⟩

/-- C29: for matrices `m` and `e` of equal dimensions and opposite storage
orientations the dispatcher `kernels::assign<F>(m, e, alpha)` returns the result
of the blocked kernel (block size 16); this kernel, for every contents of its
uninitialised array, replaces every element `m(i,j)` inside the dimensions by
`F(alpha)(m(i,j), e(i,j))` exactly once and touches nothing else, and so gives
the same matrix as the kernel for equal orientations applied to the same
elements stored in the orientation of `m`. For `F = scalar_assign` the new
element is `alpha * e(i,j)`, for `F = scalar_plus_assign` it is
`m(i,j) + alpha * e(i,j)`. The dimensions are arbitrary (empty, or not
multiples of 16). -/
theorem blocked_assign_refines_same {α : Type} [Zero α] [Mul α] [Add α]
    (F : α → α → α → α) (m e e' : dense_matrix α) (alpha : α) (blockStorage : Nat → Nat → α)
    (h1 : m.size1 = e.size1) (h2 : m.size2 = e.size2)
    (ho : e.orientation = m.orientation.transposed_orientation)
    (he' : e' = { e with orientation := m.orientation }) :
    kernels.assign_matrix F m e alpha =
      .ok (kernels.assign_matrix_transposed F m e alpha m.orientation (fun _ _ => 0)) ∧
    kernels.assign_matrix_transposed F m e alpha m.orientation blockStorage =
      kernels.assign_matrix_same F m e' alpha m.orientation ∧
    (kernels.assign_matrix_transposed F m e alpha m.orientation blockStorage).size1 =
      m.size1 ∧
    (kernels.assign_matrix_transposed F m e alpha m.orientation blockStorage).size2 =
      m.size2 ∧
    (kernels.assign_matrix_transposed F m e alpha m.orientation blockStorage).orientation =
      m.orientation ∧
    (∀ i j, (kernels.assign_matrix_transposed F m e alpha m.orientation blockStorage).elem i j =
      if i < m.size1 ∧ j < m.size2 then F alpha (m.elem i j) (e.elem i j) else m.elem i j) ∧
    (∀ i j, i < m.size1 → j < m.size2 →
      (kernels.assign_matrix_transposed scalar_assign m e alpha m.orientation
        blockStorage).elem i j = alpha * e.elem i j) ∧
    ∀ i j, i < m.size1 → j < m.size2 →
      (kernels.assign_matrix_transposed scalar_plus_assign m e alpha m.orientation
        blockStorage).elem i j = m.elem i j + alpha * e.elem i j := by
  have hne : ¬ e.orientation = m.orientation := by
    rw [ho]
    cases m.orientation <;> simp [orientation.transposed_orientation]
  have ho' : e'.orientation = m.orientation := by rw [he']
  have hel : e'.elem = e.elem := by rw [he']
  refine ⟨?_, ?_, ?_, ?_, ?_, ?_, ?_, ?_⟩
  · simp [kernels.assign_matrix, ABLAS_SIZE_CHECK, h1, h2, bind, Except.bind, pure,
      Except.pure, kernels.assign_matrix_impl, hne]
  · rw [kernels.assign_matrix_transposed_eq, kernels.assign_matrix_same_eq F m e' alpha ho',
      hel]
  · rw [kernels.assign_matrix_transposed_eq]
  · rw [kernels.assign_matrix_transposed_eq]
  · rw [kernels.assign_matrix_transposed_eq]
  · intro i j
    rw [kernels.assign_matrix_transposed_eq]
  · intro i j hi hj
    rw [kernels.assign_matrix_transposed_eq]
    simp [hi, hj, scalar_assign]
  · intro i j hi hj
    rw [kernels.assign_matrix_transposed_eq]
    simp [hi, hj, scalar_plus_assign]

/-- Instance of C29: a row-major `17 x 3` target and a column-major source. -/
theorem blocked_assign_refines_same_witness :
    ((17 : Nat) = 17 ∧ (3 : Nat) = 3 ∧
      orientation.column_major = orientation.row_major.transposed_orientation) ∧
    kernels.assign_matrix_transposed scalar_plus_assign
        ({ size1 := 17, size2 := 3, orientation := .row_major,
           elem := fun i j => (i : Int) + j } : dense_matrix Int)
        { size1 := 17, size2 := 3, orientation := .column_major,
          elem := fun i j => (i : Int) * j } 2 .row_major (fun _ _ => 5) =
      kernels.assign_matrix_same scalar_plus_assign
        { size1 := 17, size2 := 3, orientation := .row_major,
          elem := fun i j => (i : Int) + j }
        { size1 := 17, size2 := 3, orientation := .row_major,
          elem := fun i j => (i : Int) * j } 2 .row_major :=
  ⟨⟨rfl, rfl, rfl⟩, (blocked_assign_refines_same scalar_plus_assign
    ({ size1 := 17, size2 := 3, orientation := .row_major,
       elem := fun i j => (i : Int) + j } : dense_matrix Int)
    { size1 := 17, size2 := 3, orientation := .column_major,
      elem := fun i j => (i : Int) * j }
    { size1 := 17, size2 := 3, orientation := .row_major,
      elem := fun i j => (i : Int) * j } 2 (fun _ _ => 5) rfl rfl rfl rfl).2.1⟩

/-- C30: for every dense vector `x`, every dense matrix `A` of either
orientation and every scalar `t`, `kernels::assign<scalar_plus_assign>(x, t)`
and `kernels::assign<scalar_plus_assign>(A, t)` add `t` to every element
exactly once, write nothing outside the dimensions, and keep the size of `x`
and the dimensions and orientation of `A`. -/
theorem scalar_plus_assign_adds_once {α : Type} [Semiring α] (x : dense_vector α)
    (A : dense_matrix α) (t : α) :
    (kernels.assign_vector_scalar scalar_plus_assign x t).size = x.size ∧
    (∀ i, i < x.size →
      (kernels.assign_vector_scalar scalar_plus_assign x t).elem i = x.elem i + t) ∧
    (∀ i, x.size ≤ i →
      (kernels.assign_vector_scalar scalar_plus_assign x t).elem i = x.elem i) ∧
    (kernels.assign_matrix_scalar scalar_plus_assign A t).size1 = A.size1 ∧
    (kernels.assign_matrix_scalar scalar_plus_assign A t).size2 = A.size2 ∧
    (kernels.assign_matrix_scalar scalar_plus_assign A t).orientation = A.orientation ∧
    (∀ i j, i < A.size1 → j < A.size2 →
      (kernels.assign_matrix_scalar scalar_plus_assign A t).elem i j = A.elem i j + t) ∧
    ∀ i j, ¬ (i < A.size1 ∧ j < A.size2) →
      (kernels.assign_matrix_scalar scalar_plus_assign A t).elem i j = A.elem i j := by
  rw [kernels.assign_vector_scalar_eq, kernels.assign_matrix_scalar_eq]
  refine ⟨rfl, ?_, ?_, rfl, rfl, rfl, ?_, ?_⟩
  · intro i hi
    simp [hi, scalar_plus_assign]
  · intro i hi
    simp [Nat.not_lt.2 hi]
  · intro i j hi hj
    simp [hi, hj, scalar_plus_assign]
  · intro i j hij
    simp only [hij, if_false]

end aBLAS

namespace aBLAS

/-! ## Properties of the product kernels -/

namespace bindings

/-- The implementation of `gemv` by dot products of rows returns the specified
result. -/
theorem gemv_impl_row_major_eq {α : Type} [Zero α] [Add α] [Mul α] (A : dense_matrix α)
    (x result : dense_vector α) (alpha : α) (h2 : A.size2 = x.size) :
    gemv_impl_row_major A x result alpha = .ok (gemv_spec A x result alpha) := by
  obtain ⟨r, hr, hI, hget⟩ := for_range_checked_pointwise
    (fun (w : dense_vector α) (i : Nat) => w.elem i) (fun w => w.size = result.size)
    A.size1
    (fun i result => do
      let value : α := 0
      let r ← A.row i
      let value ← kernels.dot r x value
      pure (result.set i (result.elem i + alpha * value)))
    (fun i p => p = i)
    (fun p y => y + alpha * ((List.range A.size2).map fun k => A.elem p k * x.elem k).sum)
    (fun i j p _ _ hi hj => hi.symm.trans hj)
    (by
      intro i t hi ht
      refine ⟨t.set i (t.elem i +
        alpha * ((List.range A.size2).map fun k => A.elem i k * x.elem k).sum), ?_, ht, ?_⟩
      · simp [dense_matrix.row, ABLAS_SIZE_CHECK, hi, kernels.dot, bindings.dot, h2, bind,
          Except.bind, pure, Except.pure]
      · intro p
        refine ⟨?_, ?_⟩
        · rintro rfl
          simp [dense_vector.set]
        · intro hp
          simp [dense_vector.set, hp]) result rfl
  rw [gemv_impl_row_major, hr]
  congr 1
  apply dense_vector_ext
  · exact hI
  · intro i
    by_cases hi : i < A.size1
    · simpa [gemv_spec, hi] using (hget i).1 ⟨i, hi, rfl⟩
    · have hno : ¬ ∃ j, j < A.size1 ∧ i = j := by
        rintro ⟨j, hj, rfl⟩
        exact hi hj
      simpa [gemv_spec, hi] using (hget i).2 hno

/-- The implementation of `gemv` by a linear combination of columns returns the
specified result. -/
theorem gemv_impl_column_major_eq {α : Type} [CommSemiring α] (A : dense_matrix α)
    (x result : dense_vector α) (alpha : α) (h1 : result.size = A.size1)
    (h2 : A.size2 = x.size) :
    gemv_impl_column_major A x result alpha = .ok (gemv_spec A x result alpha) := by
  obtain ⟨r, hr, hI, hget⟩ := for_range_checked_rule
    (fun k (w : dense_vector α) => w.size = result.size ∧
      ∀ i, w.elem i =
        if i < A.size1 then
          result.elem i + alpha * ((List.range k).map fun l => A.elem i l * x.elem l).sum
        else result.elem i)
    x.size
    (fun it result => do
      let multiplier := alpha * x.elem it
      let c ← A.column it
      kernels.assign_vector scalar_plus_assign result c multiplier)
    result ⟨rfl, fun i => by simp⟩
    (by
      intro k t hk ⟨hs, ht⟩
      have hk2 : k < A.size2 := by omega
      refine ⟨{ size := t.size, elem := fun i =>
          if i < t.size then scalar_plus_assign (alpha * x.elem k) (t.elem i) (A.elem i k)
          else t.elem i }, ?_, ?_⟩
      · simp only [dense_matrix.column, ABLAS_SIZE_CHECK, hk2, decide_True, if_true, bind,
          Except.bind, pure, Except.pure]
        exact kernels.assign_vector_eq scalar_plus_assign t _ _ (by rw [hs, h1])
      · refine ⟨hs, fun i => ?_⟩
        simp only [ht i, hs, h1, scalar_plus_assign]
        by_cases hi : i < A.size1
        · simp only [hi, if_true, List.range_succ, List.map_append, List.sum_append,
            List.map_cons, List.map_nil, List.sum_cons, List.sum_nil]
          ring
        · simp only [hi, if_false])
  rw [gemv_impl_column_major, hr]
  congr 1
  apply dense_vector_ext
  · exact hI
  · intro i
    rw [hget i, ← h2]
    rfl

/-- The two implementations of `gemv` agree, so `bindings::gemv` returns the
specified result for either orientation of the matrix. -/
theorem gemv_dispatch_eq {α : Type} [CommSemiring α] (A : dense_matrix α)
    (x result : dense_vector α) (alpha : α) (h1 : result.size = A.size1)
    (h2 : A.size2 = x.size) :
    gemv A x result alpha = .ok (gemv_spec A x result alpha) := by
  unfold gemv gemv_impl
  cases A.orientation
  · exact gemv_impl_row_major_eq A x result alpha h2
  · exact gemv_impl_column_major_eq A x result alpha h1 h2

end bindings

namespace kernels

/-- The kernel `gemv` returns the specified result when the sizes fit. -/
theorem gemv_eq {α : Type} [CommSemiring α] (e1 : dense_matrix α) (e2 m : dense_vector α)
    (alpha : α) (h1 : m.size = e1.size1) (h2 : e1.size2 = e2.size) :
    gemv e1 e2 m alpha = .ok (gemv_spec e1 e2 m alpha) := by
  simp only [gemv, ABLAS_SIZE_CHECK, h1, h2, beq_self_eq_true, if_true, bind, Except.bind,
    pure, Except.pure]
  exact bindings.gemv_dispatch_eq e1 e2 m alpha h1 h2

end kernels

end aBLAS

namespace aBLAS

theorem dense_matrix.row_eq {α : Type} (m : dense_matrix α) (i : Nat) (hi : i < m.size1) :
    m.row i = .ok { size := m.size2, elem := fun j => m.elem i j } := by
  simp [dense_matrix.row, ABLAS_SIZE_CHECK, hi, bind, Except.bind, pure, Except.pure]

namespace bindings

/-- The function `gemm_impl` that computes one matrix-vector product for every
row returns the specified result, whatever the orientation of the second
argument. -/
theorem gemm_impl_row_row_eq {α : Type} [CommSemiring α] (e1 e2 m : dense_matrix α)
    (alpha : α) (h1 : m.size1 = e1.size1) (h2 : m.size2 = e2.size2)
    (h3 : e1.size2 = e2.size1) :
    gemm_impl_row_row e1 e2 m alpha = .ok (gemm_spec e1 e2 m alpha) := by
  obtain ⟨r, hr, hI, hget⟩ := for_range_checked_pointwise
    (fun (w : dense_matrix α) (p : Nat × Nat) => w.elem p.1 p.2)
    (fun w => w.size1 = m.size1 ∧ w.size2 = m.size2 ∧ w.orientation = m.orientation)
    e1.size1
    (fun i m => do
      let mat_row ← m.row i
      let r ← e1.row i
      let mat_row ← kernels.gemv e2.trans r mat_row alpha
      pure (m.store_row i mat_row))
    (fun i p => p.1 = i ∧ p.2 < m.size2)
    (fun p y => y + alpha *
      ((List.range e1.size2).map fun l => e1.elem p.1 l * e2.elem l p.2).sum)
    (fun i j p _ _ hi hj => hi.1.symm.trans hj.1)
    (by
      intro i t hi ht
      have hg := kernels.gemv_eq e2.trans { size := e1.size2, elem := fun j => e1.elem i j }
        { size := t.size2, elem := fun j => t.elem i j } alpha
        (by simp [dense_matrix.trans, ht.2.1, h2]) (by simp [dense_matrix.trans, h3])
      refine ⟨t.store_row i (gemv_spec e2.trans
        { size := e1.size2, elem := fun j => e1.elem i j }
        { size := t.size2, elem := fun j => t.elem i j } alpha), ?_, ⟨ht.1, ht.2.1, ht.2.2⟩, ?_⟩
      · simp only [dense_matrix.row_eq t i (by omega), dense_matrix.row_eq e1 i hi, hg, bind,
          Except.bind, pure, Except.pure]
      · intro p
        have hsum : ((List.range e2.size1).map fun k => e2.elem k p.2 * e1.elem i k) =
            (List.range e2.size1).map fun l => e1.elem i l * e2.elem l p.2 :=
          List.map_congr_left fun l _ => mul_comm _ _
        refine ⟨?_, ?_⟩
        · rintro ⟨rfl, hp⟩
          simp [dense_matrix.store_row, gemv_spec, dense_matrix.trans, ← h2, hp, hsum, h3]
        · intro hp
          by_cases hpi : p.1 = i
          · have hp2 : ¬ p.2 < e2.size2 := fun h => hp ⟨hpi, by omega⟩
            simp [dense_matrix.store_row, gemv_spec, dense_matrix.trans, hpi, hp2]
          · simp [dense_matrix.store_row, hpi]) m ⟨rfl, rfl, rfl⟩
  rw [gemm_impl_row_row, hr]
  congr 1
  apply dense_matrix_ext
  · exact hI.1
  · exact hI.2.1
  · exact hI.2.2
  · intro a b
    by_cases hab : a < m.size1 ∧ b < m.size2
    · simpa [gemm_spec, hab] using (hget (a, b)).1 ⟨a, by omega, rfl, hab.2⟩
    · have hno : ¬ ∃ i, i < e1.size1 ∧ (a, b).1 = i ∧ (a, b).2 < m.size2 := by
        rintro ⟨i, hi, rfl, hb⟩
        exact hab ⟨by omega, hb⟩
      simpa [gemm_spec, hab] using (hget (a, b)).2 hno

/-- The function `gemm_impl` that computes a sequence of outer products returns
the specified result. -/
theorem gemm_impl_row_column_row_eq {α : Type} [CommSemiring α] (e1 e2 m : dense_matrix α)
    (alpha : α) (h1 : m.size1 = e1.size1) (h2 : m.size2 = e2.size2)
    (h3 : e1.size2 = e2.size1) :
    gemm_impl_row_column_row e1 e2 m alpha = .ok (gemm_spec e1 e2 m alpha) := by
  obtain ⟨r, hr, hI, hget⟩ := for_range_checked_rule
    (fun k (w : dense_matrix α) =>
      (w.size1 = m.size1 ∧ w.size2 = m.size2 ∧ w.orientation = m.orientation) ∧
      ∀ a b, w.elem a b =
        if a < m.size1 ∧ b < m.size2 then
          m.elem a b + alpha * ((List.range k).map fun l => e1.elem a l * e2.elem l b).sum
        else m.elem a b)
    e1.size2
    (fun k m => do
      let e2_row ← e2.row k
      for_range_checked e1.size1 (fun e1_col_pos m => do
        let m_row ← m.row e1_col_pos
        let m_row ← kernels.assign_vector scalar_plus_assign m_row e2_row
          (alpha * e1.elem e1_col_pos k)
        pure (m.store_row e1_col_pos m_row)) m)
    m ⟨⟨rfl, rfl, rfl⟩, fun a b => by simp⟩
    (by
      intro k t hk ⟨hI, ht⟩
      obtain ⟨t', ht', hI', hget'⟩ := for_range_checked_pointwise
        (fun (w : dense_matrix α) (p : Nat × Nat) => w.elem p.1 p.2)
        (fun w => w.size1 = m.size1 ∧ w.size2 = m.size2 ∧ w.orientation = m.orientation)
        e1.size1
        (fun e1_col_pos m => do
          let m_row ← m.row e1_col_pos
          let m_row ← kernels.assign_vector scalar_plus_assign m_row
            { size := e2.size2, elem := fun j => e2.elem k j }
            (alpha * e1.elem e1_col_pos k)
          pure (m.store_row e1_col_pos m_row))
        (fun a p => p.1 = a ∧ p.2 < m.size2)
        (fun p y => y + alpha * e1.elem p.1 k * e2.elem k p.2)
        (fun i j p _ _ hi hj => hi.1.symm.trans hj.1)
        (by
          intro a w ha hw
          have hv := kernels.assign_vector_eq scalar_plus_assign
            { size := w.size2, elem := fun j => w.elem a j }
            { size := e2.size2, elem := fun j => e2.elem k j } (alpha * e1.elem a k)
            (by simp [hw.2.1, h2])
          refine ⟨w.store_row a { size := w.size2, elem := fun i =>
              (if i < w.size2 then
                scalar_plus_assign (alpha * e1.elem a k) (w.elem a i) (e2.elem k i)
              else w.elem a i) }, ?_, ⟨hw.1, hw.2.1, hw.2.2⟩, ?_⟩
          · simp only [dense_matrix.row_eq w a (by omega), hv, bind, Except.bind, pure,
              Except.pure]
          · intro p
            refine ⟨?_, ?_⟩
            · rintro ⟨rfl, hp⟩
              simp [dense_matrix.store_row, scalar_plus_assign, hw.2.1, hp]
            · intro hp
              by_cases hpa : p.1 = a
              · have hp2 : ¬ p.2 < m.size2 := fun h => hp ⟨hpa, h⟩
                simp [dense_matrix.store_row, hpa, hw.2.1, hp2]
              · simp [dense_matrix.store_row, hpa]) t hI
      refine ⟨t', ?_, hI', fun a b => ?_⟩
      · simp only [dense_matrix.row_eq e2 k (by omega), bind, Except.bind]
        exact ht'
      · by_cases hab : a < m.size1 ∧ b < m.size2
        · have := (hget' (a, b)).1 ⟨a, by omega, rfl, hab.2⟩
          simp only [] at this
          rw [this, ht a b]
          simp only [hab, and_self, if_true, List.range_succ, List.map_append, List.sum_append,
            List.map_cons, List.map_nil, List.sum_cons, List.sum_nil]
          ring
        · have hno : ¬ ∃ i, i < e1.size1 ∧ (a, b).1 = i ∧ (a, b).2 < m.size2 := by
            rintro ⟨i, hi, rfl, hb⟩
            exact hab ⟨by omega, hb⟩
          have := (hget' (a, b)).2 hno
          simp only [] at this
          rw [this, ht a b]
          simp only [hab, if_false])
  rw [gemm_impl_row_column_row, hr]
  congr 1
  apply dense_matrix_ext
  · exact hI.1
  · exact hI.2.1
  · exact hI.2.2
  · intro a b
    rw [hget a b]
    rfl

end bindings

end aBLAS

namespace aBLAS

theorem dense_matrix.matrix_range_eq {α : Type} (m : dense_matrix α)
    (start1 size1 start2 size2 : Nat) (h1 : start1 + size1 ≤ m.size1)
    (h2 : start2 + size2 ≤ m.size2) :
    m.matrix_range start1 size1 start2 size2 =
      .ok { size1 := size1, size2 := size2, orientation := m.orientation,
            elem := fun i j => m.elem (start1 + i) (start2 + j) } := by
  have h3 : start1 ≤ m.size1 := by omega
  have h4 : start2 ≤ m.size2 := by omega
  simp [dense_matrix.matrix_range, ABLAS_SIZE_CHECK, h1, h2, h3, h4, bind, Except.bind, pure,
    Except.pure]

theorem dense_matrix.subrange_eq {α : Type} (m : dense_matrix α)
    (start1 stop1 start2 stop2 : Nat) (h1 : start1 ≤ stop1) (h2 : start2 ≤ stop2)
    (h3 : stop1 ≤ m.size1) (h4 : stop2 ≤ m.size2) :
    m.subrange start1 stop1 start2 stop2 =
      .ok { size1 := stop1 - start1, size2 := stop2 - start2, orientation := m.orientation,
            elem := fun i j => m.elem (start1 + i) (start2 + j) } := by
  simp only [dense_matrix.subrange, ABLAS_RANGE_CHECK, ABLAS_SIZE_CHECK, h1, h2, h3, h4,
    decide_True, if_true, bind, Except.bind, pure, Except.pure]
  exact dense_matrix.matrix_range_eq m _ _ _ _ (by omega) (by omega)

theorem dense_matrix.rows_eq {α : Type} (m : dense_matrix α) (start stop : Nat)
    (h1 : start ≤ stop) (h2 : stop ≤ m.size1) :
    m.rows start stop =
      .ok { size1 := stop - start, size2 := m.size2, orientation := m.orientation,
            elem := fun i j => m.elem (start + i) j } := by
  simp only [dense_matrix.rows, ABLAS_RANGE_CHECK, ABLAS_SIZE_CHECK, h1, h2,
    decide_True, if_true, bind, Except.bind, pure, Except.pure]
  rw [dense_matrix.matrix_range_eq m _ _ _ _ (by omega) (by omega)]
  simp

theorem dense_matrix.columns_eq {α : Type} (m : dense_matrix α) (start stop : Nat)
    (h1 : start ≤ stop) (h2 : stop ≤ m.size2) :
    m.columns start stop =
      .ok { size1 := m.size1, size2 := stop - start, orientation := m.orientation,
            elem := fun i j => m.elem i (start + j) } := by
  simp only [dense_matrix.columns, ABLAS_RANGE_CHECK, ABLAS_SIZE_CHECK, h1, h2,
    decide_True, if_true, bind, Except.bind, pure, Except.pure]
  rw [dense_matrix.matrix_range_eq m _ _ _ _ (by omega) (by omega)]
  simp

namespace bindings

/-- Body of the two loops over blocks of the blocked `gemm_impl`: it returns
and adds the product to the elements of its block of `m` exactly once. -/
theorem gemm_block {α : Type} [CommSemiring α] (e1 e2 m : dense_matrix α) (alpha : α)
    (h1 : m.size1 = e1.size1) (h2 : m.size2 = e2.size2) (h3 : e1.size2 = e2.size1)
    (i j : Nat) (hi : i < m.size1) (hj : j < m.size2)
    (s : dense_matrix α × dense_matrix α)
    (hs : s.1.size1 = m.size1 ∧ s.1.size2 = m.size2 ∧ s.1.orientation = m.orientation ∧
      s.2.size1 = 24 ∧ s.2.size2 = 24) :
    ∃ t : dense_matrix α × dense_matrix α,
      (do
        let blockSizei := min 24 (m.size1 - i)
        let blockSizej := min 24 (m.size2 - j)
        let transBlock ← s.2.subrange 0 blockSizej 0 blockSizei
        let transBlock := kernels.assign_matrix_scalar scalar_assign transBlock 0
        let c ← e2.columns j (j + blockSizej)
        let r ← e1.rows i (i + blockSizei)
        let transBlock ← gemm_impl_row_row c.trans r.trans transBlock alpha
        let m_block ← s.1.subrange i (i + blockSizei) j (j + blockSizej)
        let m_block ← kernels.assign_matrix scalar_plus_assign m_block transBlock.trans 1
        pure (s.1.store_range i j m_block, s.2.store_range 0 0 transBlock)) = Except.ok t ∧
      (t.1.size1 = m.size1 ∧ t.1.size2 = m.size2 ∧ t.1.orientation = m.orientation ∧
        t.2.size1 = 24 ∧ t.2.size2 = 24) ∧
      ∀ p : Nat × Nat,
        ((∃ a, a < min 24 (m.size1 - i) ∧ ∃ b, b < min 24 (m.size2 - j) ∧
            p = (i + a, j + b)) →
          t.1.elem p.1 p.2 = s.1.elem p.1 p.2 + alpha *
            ((List.range e1.size2).map fun l => e1.elem p.1 l * e2.elem l p.2).sum) ∧
        ((¬ ∃ a, a < min 24 (m.size1 - i) ∧ ∃ b, b < min 24 (m.size2 - j) ∧
            p = (i + a, j + b)) →
          t.1.elem p.1 p.2 = s.1.elem p.1 p.2) := by
  obtain ⟨hs1, hs2, hso, hb1, hb2⟩ := hs
  generalize hbi : min 24 (m.size1 - i) = bsi
  generalize hbj : min 24 (m.size2 - j) = bsj
  have hbi1 : bsi ≤ 24 := by rw [← hbi]; exact min_le_left _ _
  have hbi2 : bsi ≤ m.size1 - i := by rw [← hbi]; exact min_le_right _ _
  have hbj1 : bsj ≤ 24 := by rw [← hbj]; exact min_le_left _ _
  have hbj2 : bsj ≤ m.size2 - j := by rw [← hbj]; exact min_le_right _ _
  have e1sub := dense_matrix.subrange_eq s.2 0 bsj 0 bsi (by omega) (by omega) (by omega)
    (by omega)
  have e2col := dense_matrix.columns_eq e2 j (j + bsj) (by omega) (by omega)
  have e3row := dense_matrix.rows_eq e1 i (i + bsi) (by omega) (by omega)
  have e4 := gemm_impl_row_row_eq
    (dense_matrix.trans
      { size1 := e2.size1, size2 := j + bsj - j, orientation := e2.orientation,
        elem := fun a b => e2.elem a (j + b) })
    (dense_matrix.trans
      { size1 := i + bsi - i, size2 := e1.size2, orientation := e1.orientation,
        elem := fun a b => e1.elem (i + a) b })
    (kernels.assign_matrix_scalar scalar_assign
      { size1 := bsj - 0, size2 := bsi - 0, orientation := s.2.orientation,
        elem := fun a b => s.2.elem (0 + a) (0 + b) } 0) alpha
    (by rw [kernels.assign_matrix_scalar_eq]; simp [dense_matrix.trans])
    (by rw [kernels.assign_matrix_scalar_eq]; simp [dense_matrix.trans])
    (by simp [dense_matrix.trans, h3])
  have e5sub := dense_matrix.subrange_eq s.1 i (i + bsi) j (j + bsj) (by omega) (by omega)
    (by omega) (by omega)
  have e6 := kernels.assign_matrix_eq scalar_plus_assign
    { size1 := i + bsi - i, size2 := j + bsj - j, orientation := s.1.orientation,
      elem := fun a b => s.1.elem (i + a) (j + b) }
    (dense_matrix.trans (gemm_spec
      (dense_matrix.trans
        { size1 := e2.size1, size2 := j + bsj - j, orientation := e2.orientation,
          elem := fun a b => e2.elem a (j + b) })
      (dense_matrix.trans
        { size1 := i + bsi - i, size2 := e1.size2, orientation := e1.orientation,
          elem := fun a b => e1.elem (i + a) b })
      (kernels.assign_matrix_scalar scalar_assign
        { size1 := bsj - 0, size2 := bsi - 0, orientation := s.2.orientation,
          elem := fun a b => s.2.elem (0 + a) (0 + b) } 0) alpha)) 1
    (by rw [kernels.assign_matrix_scalar_eq]; simp [dense_matrix.trans, gemm_spec])
    (by rw [kernels.assign_matrix_scalar_eq]; simp [dense_matrix.trans, gemm_spec])
  simp only [e1sub, e2col, e3row, e4, e5sub, e6, bind, Except.bind, pure, Except.pure]
  refine ⟨_, rfl, ?_, ?_⟩
  · simp [dense_matrix.store_range, hs1, hs2, hso, hb1, hb2]
  · intro p
    refine ⟨?_, ?_⟩
    · rintro ⟨a, ha, b, hb, rfl⟩
      have hsum : ((List.range e2.size1).map fun l => e2.elem l (j + b) * e1.elem (i + a) l) =
          (List.range e2.size1).map fun l => e1.elem (i + a) l * e2.elem l (j + b) :=
        List.map_congr_left fun l _ => mul_comm _ _
      simp [dense_matrix.store_range, kernels.assign_matrix_scalar_eq, dense_matrix.trans,
        gemm_spec, scalar_plus_assign, scalar_assign, ha, hb, hsum, h3]
    · intro hp
      have hno : ¬ (i ≤ p.1 ∧ p.1 < i + bsi ∧ j ≤ p.2 ∧ p.2 < j + bsj) := by
        rintro ⟨h1', h2', h3', h4'⟩
        exact hp ⟨p.1 - i, by omega, p.2 - j, by omega, Prod.ext (by simp; omega)
          (by simp; omega)⟩
      simp only [dense_matrix.store_range, kernels.assign_matrix_scalar_eq,
        Nat.add_sub_cancel_left]
      rw [if_neg hno]

end bindings

end aBLAS

namespace aBLAS

namespace bindings

/-- The blocked function `gemm_impl` (block size 24) returns the specified
result for all dimensions. -/
theorem gemm_impl_row_column_column_eq {α : Type} [CommSemiring α]
    (e1 e2 m : dense_matrix α) (alpha : α) (h1 : m.size1 = e1.size1)
    (h2 : m.size2 = e2.size2) (h3 : e1.size2 = e2.size1) :
    gemm_impl_row_column_column e1 e2 m alpha = .ok (gemm_spec e1 e2 m alpha) := by
  obtain ⟨r, hr, hI, hget⟩ := for_blocks_checked_pointwise
    (fun (t : dense_matrix α × dense_matrix α) (p : Nat × Nat) => t.1.elem p.1 p.2)
    (fun t => t.1.size1 = m.size1 ∧ t.1.size2 = m.size2 ∧ t.1.orientation = m.orientation ∧
      t.2.size1 = 24 ∧ t.2.size2 = 24)
    m.size1 m.size2 24 (by decide) (fun x y => (x, y))
    (fun x y x' y' h => ⟨congrArg Prod.fst h, congrArg Prod.snd h⟩)
    (fun i j (s : dense_matrix α × dense_matrix α) => do
      let blockSizei := min 24 (m.size1 - i)
      let blockSizej := min 24 (m.size2 - j)
      let transBlock ← s.2.subrange 0 blockSizej 0 blockSizei
      let transBlock := kernels.assign_matrix_scalar scalar_assign transBlock 0
      let c ← e2.columns j (j + blockSizej)
      let r ← e1.rows i (i + blockSizei)
      let transBlock ← gemm_impl_row_row c.trans r.trans transBlock alpha
      let m_block ← s.1.subrange i (i + blockSizei) j (j + blockSizej)
      let m_block ← kernels.assign_matrix scalar_plus_assign m_block transBlock.trans 1
      pure (s.1.store_range i j m_block, s.2.store_range 0 0 transBlock))
    (fun p y => y + alpha *
      ((List.range e1.size2).map fun l => e1.elem p.1 l * e2.elem l p.2).sum)
    (fun ib jb t hib hjb ht => gemm_block e1 e2 m alpha h1 h2 h3 ib jb hib hjb t ht)
    (m, { size1 := 24, size2 := 24, orientation := .row_major, elem := fun _ _ => 0 })
    ⟨rfl, rfl, rfl, rfl, rfl⟩
  have hres : gemm_impl_row_column_column e1 e2 m alpha = .ok r.1 :=
    congrArg (fun x => x >>= fun (s : dense_matrix α × dense_matrix α) => pure s.1) hr
  rw [hres]
  congr 1
  apply dense_matrix_ext
  · exact hI.1
  · exact hI.2.1
  · exact hI.2.2.1
  · intro a b
    by_cases hab : a < m.size1 ∧ b < m.size2
    · simpa [gemm_spec, hab] using (hget (a, b)).1 ⟨a, hab.1, b, hab.2, rfl⟩
    · have hno : ¬ ∃ x, x < m.size1 ∧ ∃ y, y < m.size2 ∧ (a, b) = (x, y) := by
        rintro ⟨x, hx, y, hy, hxy⟩
        cases hxy
        exact hab ⟨hx, hy⟩
      simpa [gemm_spec, hab] using (hget (a, b)).2 hno

/-- The three functions `gemm_impl` for a row-major result return the
specified result, whatever the tags of the arguments. -/
theorem gemm_impl_row_major_eq {α : Type} [CommSemiring α] (e1 e2 m : dense_matrix α)
    (alpha : α) (Orientation1 Orientation2 : orientation) (h1 : m.size1 = e1.size1)
    (h2 : m.size2 = e2.size2) (h3 : e1.size2 = e2.size1) :
    gemm_impl_row_major e1 e2 m alpha Orientation1 Orientation2 =
      .ok (gemm_spec e1 e2 m alpha) := by
  cases Orientation1 <;> cases Orientation2
  · exact gemm_impl_row_row_eq e1 e2 m alpha h1 h2 h3
  · exact gemm_impl_row_row_eq e1 e2 m alpha h1 h2 h3
  · exact gemm_impl_row_column_row_eq e1 e2 m alpha h1 h2 h3
  · exact gemm_impl_row_column_column_eq e1 e2 m alpha h1 h2 h3

/-- The transposed product written through `matrix_transpose<M>(m)` is the
specified result for `m`. -/
theorem store_trans_gemm_spec {α : Type} [CommSemiring α] (e1 e2 m : dense_matrix α)
    (alpha : α) (h3 : e1.size2 = e2.size1) :
    m.store_trans (gemm_spec e2.trans e1.trans m.trans alpha) = gemm_spec e1 e2 m alpha := by
  apply dense_matrix_ext
  · rfl
  · rfl
  · rfl
  · intro i j
    have hsum : ((List.range e2.size1).map fun l => e2.elem l j * e1.elem i l) =
        (List.range e2.size1).map fun l => e1.elem i l * e2.elem l j :=
      List.map_congr_left fun l _ => mul_comm _ _
    simp only [dense_matrix.store_trans, gemm_spec, dense_matrix.trans, hsum, h3]
    by_cases hij : i < m.size1 ∧ j < m.size2
    · simp [hij]
    · have : ¬ (j < m.size2 ∧ i < m.size1) := fun h => hij ⟨h.2, h.1⟩
      simp [hij, this]

/-- Every one of the functions `gemm_impl` returns the specified result. -/
theorem gemm_impl_eq {α : Type} [CommSemiring α] (e1 e2 m : dense_matrix α) (alpha : α)
    (ResultOrientation Orientation1 Orientation2 : orientation) (h1 : m.size1 = e1.size1)
    (h2 : m.size2 = e2.size2) (h3 : e1.size2 = e2.size1) :
    gemm_impl e1 e2 m alpha ResultOrientation Orientation1 Orientation2 =
      .ok (gemm_spec e1 e2 m alpha) := by
  cases ResultOrientation
  · exact gemm_impl_row_major_eq e1 e2 m alpha _ _ h1 h2 h3
  · simp only [gemm_impl]
    rw [gemm_impl_row_major_eq e2.trans e1.trans m.trans alpha _ _ h2 h1 h3.symm]
    simp only [bind, Except.bind, pure, Except.pure, store_trans_gemm_spec e1 e2 m alpha h3]

end bindings

namespace kernels

/-- The kernel `gemm` returns the specified result when the dimensions fit. -/
theorem gemm_eq {α : Type} [CommSemiring α] (e1 e2 m : dense_matrix α) (alpha : α)
    (h1 : m.size1 = e1.size1) (h2 : m.size2 = e2.size2) (h3 : e1.size2 = e2.size1) :
    gemm e1 e2 m alpha = .ok (gemm_spec e1 e2 m alpha) := by
  simp only [gemm, ABLAS_SIZE_CHECK, h1, h2, h3, beq_self_eq_true, if_true, bind,
    Except.bind, pure, Except.pure, bindings.gemm]
  exact bindings.gemm_impl_eq e1 e2 m alpha _ _ _ h1 h2 h3

end kernels

end aBLAS

/-! ## Claims about the product kernels -/

namespace aBLAS

/-- C26: for matrices `e1` (`r x k`), `e2` (`k x c`) and `m` (`r x c`), every
`alpha` and every one of the eight combinations of orientation tags of the three
operands, `kernels::gemm(e1, e2, m, alpha)` returns and leaves
`m(i,j) = m_old(i,j) + alpha * sum_l e1(i,l) * e2(l,j)` for all `i`, `j` inside
the dimensions (exact arithmetic: a commutative semiring), writes nothing else
and keeps dimensions and orientation of `m`; the dimensions are arbitrary, so
they need not be multiples of the block size 24, and the elements of the result
do not depend on the orientations. -/
theorem gemm_result {α : Type} [CommSemiring α] (e1 e2 m : dense_matrix α) (alpha : α)
    (O1 O2 OM : orientation) (h1 : m.size1 = e1.size1) (h2 : m.size2 = e2.size2)
    (h3 : e1.size2 = e2.size1) :
    ∃ r, kernels.gemm { e1 with orientation := O1 } { e2 with orientation := O2 }
        { m with orientation := OM } alpha = .ok r ∧
      r = { gemm_spec e1 e2 m alpha with orientation := OM } ∧
      r.size1 = m.size1 ∧ r.size2 = m.size2 ∧ r.orientation = OM ∧
      (∀ i j, i < m.size1 → j < m.size2 →
        r.elem i j = m.elem i j +
          alpha * ((List.range e1.size2).map fun l => e1.elem i l * e2.elem l j).sum) ∧
      ∀ i j, ¬ (i < m.size1 ∧ j < m.size2) → r.elem i j = m.elem i j := by
  refine ⟨_, kernels.gemm_eq { e1 with orientation := O1 } { e2 with orientation := O2 }
    { m with orientation := OM } alpha h1 h2 h3, rfl, rfl, rfl, rfl, ?_, ?_⟩
  · intro i j hi hj
    simp [gemm_spec, hi, hj]
  · intro i j hij
    simp only [gemm_spec, hij, if_false]

/-- Instance of C26: a `2 x 2` product with column-major arguments and a
row-major result (the blocked function). -/
theorem gemm_result_witness :
    ((2 : Nat) = 2 ∧ (2 : Nat) = 2 ∧ (2 : Nat) = 2) ∧
    ∃ r, kernels.gemm
        ({ size1 := 2, size2 := 2, orientation := .column_major,
           elem := fun i j => (i : Int) + 2 * j } : dense_matrix Int)
        { size1 := 2, size2 := 2, orientation := .column_major,
          elem := fun i j => (i : Int) * j + 1 }
        { size1 := 2, size2 := 2, orientation := .row_major, elem := fun _ _ => 5 } 3 =
          .ok r ∧
      r.size1 = 2 ∧ r.size2 = 2 ∧ r.orientation = .row_major :=
  ⟨⟨rfl, rfl, rfl⟩,
    (gemm_result
      ({ size1 := 2, size2 := 2, orientation := .row_major,
         elem := fun i j => (i : Int) + 2 * j } : dense_matrix Int)
      { size1 := 2, size2 := 2, orientation := .row_major,
        elem := fun i j => (i : Int) * j + 1 }
      { size1 := 2, size2 := 2, orientation := .column_major, elem := fun _ _ => 5 } 3
      .column_major .column_major .row_major rfl rfl rfl).imp
      fun _ h => ⟨h.1, h.2.2.1, h.2.2.2.1, h.2.2.2.2.1⟩⟩

/-- C27: for a matrix `A` (`r x c`), a vector `x` of size `c`, a vector `result`
of size `r` and every `alpha`, `kernels::gemv(A, x, result, alpha)` returns and
leaves `result(i) = result_old(i) + alpha * sum_k A(i,k) * x(k)` for every
`i < r` (exact arithmetic: a commutative semiring), whatever the orientation of
`A`; the implementation by dot products of rows and the implementation by a
linear combination of columns both return, with the same result. -/
theorem gemv_result {α : Type} [CommSemiring α] (A : dense_matrix α)
    (x result : dense_vector α) (alpha : α) (h1 : result.size = A.size1)
    (h2 : A.size2 = x.size) :
    (∃ r, kernels.gemv A x result alpha = .ok r ∧ r = gemv_spec A x result alpha ∧
      r.size = result.size ∧
      (∀ i, i < A.size1 →
        r.elem i = result.elem i +
          alpha * ((List.range A.size2).map fun k => A.elem i k * x.elem k).sum) ∧
      ∀ i, A.size1 ≤ i → r.elem i = result.elem i) ∧
    bindings.gemv_impl_row_major A x result alpha = .ok (gemv_spec A x result alpha) ∧
    bindings.gemv_impl_column_major A x result alpha = .ok (gemv_spec A x result alpha) ∧
    bindings.gemv_impl_row_major A x result alpha =
      bindings.gemv_impl_column_major A x result alpha := by
  have hr := bindings.gemv_impl_row_major_eq A x result alpha h2
  have hc := bindings.gemv_impl_column_major_eq A x result alpha h1 h2
  refine ⟨⟨_, kernels.gemv_eq A x result alpha h1 h2, rfl, rfl, ?_, ?_⟩, hr, hc,
    hr.trans hc.symm⟩
  · intro i hi
    simp [gemv_spec, hi]
  · intro i hi
    simp [gemv_spec, Nat.not_lt.2 hi]

/-- Instance of C27: a `2 x 3` matrix. -/
theorem gemv_result_witness :
    ((2 : Nat) = 2 ∧ (3 : Nat) = 3) ∧
    bindings.gemv_impl_row_major
        ({ size1 := 2, size2 := 3, orientation := .row_major,
           elem := fun i j => (i : Int) + 2 * j } : dense_matrix Int)
        { size := 3, elem := fun k => (k : Int) + 1 }
        { size := 2, elem := fun _ => 4 } 3 =
      bindings.gemv_impl_column_major
        { size1 := 2, size2 := 3, orientation := .row_major,
          elem := fun i j => (i : Int) + 2 * j }
        { size := 3, elem := fun k => (k : Int) + 1 }
        { size := 2, elem := fun _ => 4 } 3 :=
  ⟨⟨rfl, rfl⟩,
    (gemv_result
      ({ size1 := 2, size2 := 3, orientation := .row_major,
         elem := fun i j => (i : Int) + 2 * j } : dense_matrix Int)
      { size := 3, elem := fun k => (k : Int) + 1 }
      { size := 2, elem := fun _ => 4 } 3 rfl rfl).2.2.2⟩

end aBLAS

/-! ## Claims about the bookkeeping of the scheduler -/

namespace aBLAS
namespace scheduling
namespace dependency_scheduling

theorem notifyInv_foldl_prefix (t : Nat) :
    ∀ (pre P : List Nat) {s : dependency_scheduling}, NotifyInv s t (pre ++ P) →
      NotifyInv (pre.foldl notify s) t P
  | [], _, _, h => h
  | e :: pre, P, _, h => by
    rw [List.foldl_cons]
    exact notifyInv_foldl_prefix t pre P (notifyInv_step h)

theorem head_not_target {s : dependency_scheduling} (h : Inv s) (w0 : work_item)
    (L : List work_item) (hL : s.m_work_items = w0 :: L) :
    ∀ v ∈ s.m_work_items, w0.id ∉ v.out_edges := by
  intro v hv he
  have hlt := h.edges_later v hv _ he
  have hs := h.ids_sorted
  rw [hL] at hv hs
  rw [List.pairwise_cons] at hs
  rcases List.mem_cons.1 hv with rfl | hv2
  · omega
  · have := hs.1 v hv2
    omega

/-- C32: in every reachable state the counter `active_dependencies` of every live
work item `T` is the number of entries equal to `T` over the `out_edges` of all
live work items; it is zero exactly when no live item lists `T`. In
`finalize_work` of a live item `w` every decrement meets a counter that is not
zero (no wrap-around), and afterwards the counter of every other live item is
its old value minus the number of entries of `w` that point to it. -/
theorem counter_counts_successor_entries {s : dependency_scheduling} (hs : Reachable s) :
    (∀ T ∈ s.m_work_items, T.active_dependencies = indeg s.m_work_items T.id) ∧
    (∀ T ∈ s.m_work_items,
      T.active_dependencies = 0 ↔ ∀ v ∈ s.m_work_items, T.id ∉ v.out_edges) ∧
    (∀ w ∈ s.m_work_items, ∀ pre e post, w.out_edges = pre ++ e :: post →
      ∃ T ∈ (pre.foldl notify s).m_work_items, T.id = e ∧ 0 < T.active_dependencies ∧
        dec32 T.active_dependencies = T.active_dependencies - 1) ∧
    ∀ w ∈ s.m_work_items, ∀ T ∈ s.m_work_items, T.id ≠ w.id →
      w.out_edges.count T.id ≤ T.active_dependencies ∧
      { T with active_dependencies := T.active_dependencies - w.out_edges.count T.id } ∈
        (finalize_work s w.id).m_work_items := by
  have h := inv_of_reachable hs
  refine ⟨h.counts, ?_, ?_, ?_⟩
  · intro T hT
    rw [h.counts T hT]
    exact indeg_eq_zero _ _
  · intro w hw pre e post hsplit
    have hN : NotifyInv (pre.foldl notify s) w.id (e :: post) :=
      notifyInv_foldl_prefix _ pre (e :: post) (hsplit ▸ notifyInv_of_inv h w hw)
    obtain ⟨T, hT, hTe⟩ := hN.pending_live e (List.mem_cons_self _ _)
    have hc := hN.counts T hT
    rw [hTe, List.count_cons_self] at hc
    have hpos : 0 < T.active_dependencies := by omega
    refine ⟨T, hT, hTe, hpos, ?_⟩
    have hne : T.active_dependencies ≠ 0 := by omega
    simp [dec32, hne]
  · intro w hw T hT hne
    have hc := h.counts T hT
    rw [indeg_split w.id T.id _ h.ids_sorted w hw rfl] at hc
    refine ⟨by omega, ?_⟩
    rw [finalize_work_items_of_inv h w hw]
    refine List.mem_map.2 ⟨T, List.mem_filter.2 ⟨hT, by simpa using hne⟩, rfl⟩

/-- Instance of C32: the reader 1 of variable 0 waits for the writer 0. -/
theorem counter_counts_successor_entries_witness :
    Reachable (spawn (spawn empty 0 []) 1 [0]) ∧
    ∀ T ∈ (spawn (spawn empty 0 []) 1 [0]).m_work_items,
      T.active_dependencies = indeg (spawn (spawn empty 0 []) 1 [0]).m_work_items T.id :=
  ⟨reachable_spawn (reachable_spawn Reachable.init 0 []) 1 [0],
    (counter_counts_successor_entries
      (reachable_spawn (reachable_spawn Reachable.init 0 []) 1 [0])).1⟩

theorem reachable_of_run {s : dependency_scheduling} {admitted completed : List Nat}
    (h : Run s admitted completed) : Reachable s := by
  induction h with
  | init => exact Reachable.init
  | spawn W R _ ih => exact Reachable.step ih (Step.spawn _ W R)
  | on_complete work _ hp hl ih => exact Reachable.step ih (Step.on_complete _ work hp hl)

theorem run_of_reachable {s : dependency_scheduling} (h : Reachable s) :
    ∃ admitted completed, Run s admitted completed := by
  induction h with
  | init => exact ⟨[], [], Run.init⟩
  | step _ hst ih =>
    obtain ⟨a, c, hr⟩ := ih
    cases hst with
    | spawn W R => exact ⟨_, _, Run.spawn W R hr⟩
    | on_complete work hp hl => exact ⟨_, _, Run.on_complete work hr hp hl⟩

/-- Bookkeeping of a history. -/
theorem run_history {s : dependency_scheduling} {admitted completed : List Nat}
    (h : Run s admitted completed) :
    (∀ t ∈ admitted, t < s.next) ∧ (∀ t ∈ completed, t ∈ admitted) ∧
    (∀ t, live s t ↔ t ∈ admitted ∧ t ∉ completed) ∧
    s.m_work_items.length + completed.length = admitted.length := by
  induction h with
  | init =>
    refine ⟨by simp, by simp, fun t => ?_, rfl⟩
    simp [live, empty]
  | @spawn s a c W R hr ih =>
    have hinv := inv_of_reachable (reachable_of_run hr)
    obtain ⟨h1, h2, h3, h4⟩ := ih
    refine ⟨?_, ?_, ?_, ?_⟩
    · intro t ht
      rw [enqueue_work_next]
      rcases List.mem_append.1 ht with ht | ht
      · have := h1 t ht
        omega
      · have := List.mem_singleton.1 ht
        omega
    · intro t ht
      exact List.mem_append_left _ (h2 t ht)
    · intro t
      rw [live_enqueue_work hinv, h3 t, List.mem_append, List.mem_singleton]
      constructor
      · rintro (⟨ha, hc⟩ | rfl)
        · exact ⟨Or.inl ha, hc⟩
        · refine ⟨Or.inr rfl, fun hc => ?_⟩
          have := h1 _ (h2 _ hc)
          omega
      · rintro ⟨ha | rfl, hc⟩
        · exact Or.inl ⟨ha, hc⟩
        · exact Or.inr rfl
    · rw [enqueue_work_items_of_inv hinv]
      simp only [List.length_append, List.length_map, List.length_singleton]
      omega
  | @on_complete s a c work hr hp hl ih =>
    have hinv := inv_of_reachable (reachable_of_run hr)
    obtain ⟨h1, h2, h3, h4⟩ := ih
    obtain ⟨w, hw, rfl⟩ := hl
    have hshape := finalize_work_shape hinv w hw
    refine ⟨?_, ?_, ?_, ?_⟩
    · intro t ht
      rw [hshape.2.1]
      exact h1 t ht
    · intro t ht
      rcases List.mem_append.1 ht with ht | ht
      · exact h2 t ht
      · rw [List.mem_singleton.1 ht]
        exact ((h3 w.id).1 ⟨w, hw, rfl⟩).1
    · intro t
      rw [live_finalize_work hinv w hw, h3 t, List.mem_append, List.mem_singleton]
      constructor
      · rintro ⟨⟨ha, hc⟩, hne⟩
        exact ⟨ha, fun h => h.elim hc hne⟩
      · rintro ⟨ha, hc⟩
        exact ⟨⟨ha, fun h => hc (Or.inl h)⟩, fun h => hc (Or.inr h)⟩
    · rw [finalize_work_items_of_inv hinv w hw]
      have := length_filter_ne_id w _ hinv.ids_sorted hw
      simp only [List.length_append, List.length_map, List.length_singleton]
      omega

/-- C33: along every execution the live list `m_work_items` holds exactly the
work items admitted by `spawn` whose completion handler has not run, so
`num_work_items()` is the number of admitted minus the number of completed
items, and the loop of `wait()` is left exactly when every admitted item has
completed. -/
theorem live_list_admitted_not_completed {s : dependency_scheduling}
    {admitted completed : List Nat} (h : Run s admitted completed) :
    Reachable s ∧
    (∀ t, live s t ↔ t ∈ admitted ∧ t ∉ completed) ∧
    (∀ t ∈ completed, t ∈ admitted) ∧
    completed.length ≤ admitted.length ∧
    s.num_work_items = admitted.length - completed.length ∧
    (s.wait_returns = true ↔ ∀ t ∈ admitted, t ∈ completed) ∧
    (s.m_work_items = [] ↔ ∀ t ∈ admitted, t ∈ completed) := by
  obtain ⟨_, h2, h3, h4⟩ := run_history h
  have hempty : s.m_work_items = [] ↔ ∀ t ∈ admitted, t ∈ completed := by
    constructor
    · intro he t ht
      by_contra hc
      obtain ⟨w, hw, _⟩ := (h3 t).2 ⟨ht, hc⟩
      rw [he] at hw
      cases hw
    · intro hall
      cases hL : s.m_work_items with
      | nil => rfl
      | cons w L =>
        have hl : live s w.id := ⟨w, by rw [hL]; exact List.mem_cons_self _ _, rfl⟩
        have := (h3 w.id).1 hl
        exact absurd (hall _ this.1) this.2
  refine ⟨reachable_of_run h, h3, h2, by omega, ?_, ?_, hempty⟩
  · unfold num_work_items
    omega
  · rw [← hempty]
    simp [wait_returns, num_work_items]

/-- Instance of C33: two items admitted, the first completed. -/
theorem live_list_admitted_not_completed_witness :
    Run (finalize_work (spawn (spawn empty 0 []) 1 [0]) 0) [0, 1] [0] ∧
    (finalize_work (spawn (spawn empty 0 []) 1 [0]) 0).num_work_items = 2 - 1 :=
  ⟨Run.on_complete 0 (Run.spawn 1 [0] (Run.spawn 0 [] Run.init)) (by decide)
      ⟨⟨0, [1], [0], 0⟩, by decide, rfl⟩,
    (live_list_admitted_not_completed
      (Run.on_complete 0 (Run.spawn 1 [0] (Run.spawn 0 [] Run.init)) (by decide)
        ⟨⟨0, [1], [0], 0⟩, by decide, rfl⟩)).2.2.2.2.1⟩

end dependency_scheduling
end scheduling
end aBLAS

namespace aBLAS
namespace scheduling
namespace dependency_scheduling

/-- C34: in every reachable state every address stored in the claim list
`m_dependencies` of a dependency node and every address stored in `out_edges` of
a live work item is the address of a work item in `m_work_items`; no address of
an erased item survives `finalize_work`. The read lists of the steps are
arbitrary, so this covers a task that names a node several times as read node
or as read and write node, in which case the node holds at most as many entries
of the task as the task holds entries of the node in `in_variables`. -/
theorem references_are_live {s : dependency_scheduling} (hs : Reachable s) :
    (∀ N, ∀ t ∈ (s.nodes N).m_dependencies, live s t) ∧
    (∀ w ∈ s.m_work_items, ∀ e ∈ w.out_edges, live s e) ∧
    (∀ u ∈ s.m_work_items, ∀ N,
      (s.nodes N).m_dependencies.count u.id ≤ u.in_variables.count N) ∧
    ∀ work, work ∈ s.m_pool → live s work →
      (∀ N, work ∉ ((finalize_work s work).nodes N).m_dependencies) ∧
      ∀ w ∈ (finalize_work s work).m_work_items, work ∉ w.out_edges := by
  have h := inv_of_reachable hs
  refine ⟨h.claims_live, h.edges_live, h.claims_mult, ?_⟩
  intro work hp hl
  have h2 := inv_of_reachable (Reachable.step hs (Step.on_complete s work hp hl))
  obtain ⟨w0, hw0, rfl⟩ := hl
  have hnl : ¬ live (finalize_work s w0.id) w0.id := by
    rw [live_finalize_work h w0 hw0]
    exact fun hh => hh.2 rfl
  exact ⟨fun N hN => hnl (h2.claims_live N _ hN), fun w hw he => hnl (h2.edges_live w hw _ he)⟩

/-- Instance of C34: task 0 names node 0 twice as read node and as write node,
task 1 reads node 0; then task 0 completes. -/
theorem references_are_live_witness :
    Reachable (finalize_work (spawn (spawn empty 0 [0, 0]) 1 [0]) 0) ∧
    ∀ N, ∀ t ∈ ((finalize_work (spawn (spawn empty 0 [0, 0]) 1 [0]) 0).nodes N).m_dependencies,
      live (finalize_work (spawn (spawn empty 0 [0, 0]) 1 [0]) 0) t :=
  ⟨Reachable.step (reachable_spawn (reachable_spawn Reachable.init 0 [0, 0]) 1 [0])
      (Step.on_complete _ 0 (by decide) ⟨⟨0, [1], [0, 0, 0], 0⟩, by decide, rfl⟩),
    (references_are_live
      (Reachable.step (reachable_spawn (reachable_spawn Reachable.init 0 [0, 0]) 1 [0])
        (Step.on_complete _ 0 (by decide) ⟨⟨0, [1], [0, 0, 0], 0⟩, by decide, rfl⟩))).1⟩

/-- C35: in every reachable state with a non-empty list of work items some live
work item has `active_dependencies = 0` and has been handed to the pool: the
first item of the list, since successor links point to later items only. So the
remaining items never all wait on each other or on erased items. -/
theorem some_live_item_dispatched {s : dependency_scheduling} (hs : Reachable s)
    (hne : s.m_work_items ≠ []) :
    ∃ w ∈ s.m_work_items, w.active_dependencies = 0 ∧ w.id ∈ s.m_pool ∧
      s.m_work_items.head? = some w ∧ ∀ v ∈ s.m_work_items, w.id ∉ v.out_edges := by
  have h := inv_of_reachable hs
  cases hL : s.m_work_items with
  | nil => exact absurd hL hne
  | cons w0 L =>
    have hw0 : w0 ∈ s.m_work_items := by rw [hL]; exact List.mem_cons_self _ _
    have hno := head_not_target h w0 L hL
    have h0 : w0.active_dependencies = 0 := by
      rw [h.counts w0 hw0]
      exact (indeg_eq_zero _ _).2 hno
    refine ⟨w0, List.mem_cons_self _ _, h0, (h.pool_iff w0 hw0).2 h0, rfl, ?_⟩
    rw [← hL]
    exact hno

/-- Instance of C35: after the writer 0 of variable 0 has completed, its reader
1 is the dispatched item. -/
theorem some_live_item_dispatched_witness :
    Reachable (finalize_work (spawn (spawn empty 0 []) 1 [0]) 0) ∧
    (finalize_work (spawn (spawn empty 0 []) 1 [0]) 0).m_work_items ≠ [] ∧
    ∃ w ∈ (finalize_work (spawn (spawn empty 0 []) 1 [0]) 0).m_work_items,
      w.active_dependencies = 0 ∧
      w.id ∈ (finalize_work (spawn (spawn empty 0 []) 1 [0]) 0).m_pool :=
  ⟨Reachable.step (reachable_spawn (reachable_spawn Reachable.init 0 []) 1 [0])
      (Step.on_complete _ 0 (by decide) ⟨⟨0, [1], [0], 0⟩, by decide, rfl⟩),
    by decide,
    (some_live_item_dispatched
      (Reachable.step (reachable_spawn (reachable_spawn Reachable.init 0 []) 1 [0])
        (Step.on_complete _ 0 (by decide) ⟨⟨0, [1], [0], 0⟩, by decide, rfl⟩))
      (by decide)).imp fun _ hw => ⟨hw.1, hw.2.1, hw.2.2.1⟩⟩

end dependency_scheduling
end scheduling
end aBLAS

/-! ## Claims about the storage layout -/

namespace aBLAS

theorem element_row_major (i size_i j size_j : Nat) (hi : i < size_i) (hj : j < size_j) :
    orientation.row_major.element i size_i j size_j = .ok (i * size_j + j) := by
  simp [orientation.element, ABLAS_SIZE_CHECK, hi, hj, bind, Except.bind, pure, Except.pure]

theorem element_column_major (i size_i j size_j : Nat) (hi : i < size_i) (hj : j < size_j) :
    orientation.column_major.element i size_i j size_j = .ok (i + j * size_i) := by
  simp [orientation.element, ABLAS_SIZE_CHECK, hi, hj, bind, Except.bind, pure, Except.pure]

theorem linear_index_lt (a n b m : Nat) (ha : a < n) (hb : b < m) : a * m + b < n * m := by
  have h1 : (a + 1) * m ≤ n * m := Nat.mul_le_mul_right m ha
  have h2 : (a + 1) * m = a * m + m := by ring
  omega

/-- With exact arithmetic `element(i, size_i, j, size_j)` returns for
`i < size_i`, `j < size_j` (and throws otherwise), and on these pairs it is a
bijection onto the indices below `size_i * size_j`. -/
theorem element_exact_bijective (O : orientation) (size_i size_j : Nat) :
    (∀ i j, i < size_i → j < size_j →
      ∃ k, O.element i size_i j size_j = .ok k ∧ k < size_i * size_j) ∧
    (∀ i j, ¬ (i < size_i ∧ j < size_j) → ∃ e, O.element i size_i j size_j = .error e) ∧
    (∀ i j i' j' k, O.element i size_i j size_j = .ok k →
      O.element i' size_i j' size_j = .ok k → i = i' ∧ j = j') ∧
    ∀ k, k < size_i * size_j →
      ∃ i j, i < size_i ∧ j < size_j ∧ O.element i size_i j size_j = .ok k := by
  have hrange : ∀ i j k, O.element i size_i j size_j = .ok k → i < size_i ∧ j < size_j := by
    intro i j k h
    by_cases hi : i < size_i
    · by_cases hj : j < size_j
      · exact ⟨hi, hj⟩
      · cases O <;>
          simp [orientation.element, ABLAS_SIZE_CHECK, hi, hj, bind, Except.bind, pure,
            Except.pure] at h
    · cases O <;>
        simp [orientation.element, ABLAS_SIZE_CHECK, hi, bind, Except.bind, pure,
          Except.pure] at h
  refine ⟨?_, ?_, ?_, ?_⟩
  · intro i j hi hj
    cases O
    · exact ⟨_, element_row_major i _ j _ hi hj, linear_index_lt i size_i j size_j hi hj⟩
    · refine ⟨_, element_column_major i _ j _ hi hj, ?_⟩
      have := linear_index_lt j size_j i size_i hj hi
      rw [Nat.mul_comm size_j size_i] at this
      omega
  · intro i j hij
    cases h : O.element i size_i j size_j with
    | error e => exact ⟨e, rfl⟩
    | ok k => exact absurd (hrange i j k h) hij
  · intro i j i' j' k h h'
    obtain ⟨hi, hj⟩ := hrange i j k h
    obtain ⟨hi', hj'⟩ := hrange i' j' k h'
    cases O
    · rw [element_row_major i _ j _ hi hj] at h
      rw [element_row_major i' _ j' _ hi' hj'] at h'
      cases h
      have heq : i * size_j + j = i' * size_j + j' := (Except.ok.inj h').symm
      have := block_index_unique size_j i i' j j' hj hj' heq
      subst this
      exact ⟨rfl, by omega⟩
    · rw [element_column_major i _ j _ hi hj] at h
      rw [element_column_major i' _ j' _ hi' hj'] at h'
      cases h
      have heq : j * size_i + i = j' * size_i + i' := by
        have := (Except.ok.inj h').symm
        omega
      have := block_index_unique size_i j j' i i' hi hi' heq
      subst this
      exact ⟨by omega, rfl⟩
  · intro k hk
    cases O
    · have hpos : 0 < size_j := by
        rcases Nat.eq_zero_or_pos size_j with h0 | h0
        · rw [h0] at hk; simp at hk
        · exact h0
      have hdm : size_j * (k / size_j) + k % size_j = k := Nat.div_add_mod k size_j
      have hi : k / size_j < size_i := (Nat.div_lt_iff_lt_mul hpos).2 hk
      have hj : k % size_j < size_j := Nat.mod_lt k hpos
      refine ⟨k / size_j, k % size_j, hi, hj, ?_⟩
      rw [element_row_major _ _ _ _ hi hj, Nat.mul_comm]
      exact congrArg Except.ok hdm
    · have hpos : 0 < size_i := by
        rcases Nat.eq_zero_or_pos size_i with h0 | h0
        · rw [h0] at hk; simp at hk
        · exact h0
      have hdm : size_i * (k / size_i) + k % size_i = k := Nat.div_add_mod k size_i
      have hj : k / size_i < size_j :=
        (Nat.div_lt_iff_lt_mul hpos).2 (by rw [Nat.mul_comm]; exact hk)
      have hi : k % size_i < size_i := Nat.mod_lt k hpos
      refine ⟨k % size_i, k / size_i, hi, hj, ?_⟩
      rw [element_column_major _ _ _ _ hi hj, Nat.mul_comm, Nat.add_comm]
      exact congrArg Except.ok hdm

theorem add64_exact (a b : Nat) (h : a + b < 18446744073709551616) : add64 a b = a + b :=
  Nat.mod_eq_of_lt h

theorem mul64_exact (a b : Nat) (h : a * b < 18446744073709551616) : mul64 a b = a * b :=
  Nat.mod_eq_of_lt h

theorem sub64_exact (a b : Nat) (hb : b ≤ a) (ha : a < 18446744073709551616) :
    sub64 a b = a - b := by
  unfold sub64
  omega

/-- Function `element` in the arithmetic of `size_type` is the exact `element`
when the number of elements `size_i * size_j` is below `2^64`. -/
theorem element_size_t_eq (O : orientation) (i size_i j size_j : Nat)
    (hb : size_i * size_j < 18446744073709551616) :
    O.element_size_t i size_i j size_j = O.element i size_i j size_j := by
  by_cases hi : i < size_i
  · by_cases hj : j < size_j
    · cases O
      · have h1 := linear_index_lt i size_i j size_j hi hj
        have e1 : mul64 i size_j = i * size_j := mul64_exact _ _ (by omega)
        have e2 : add64 (i * size_j) j = i * size_j + j := add64_exact _ _ (by omega)
        simp only [orientation.element_size_t, orientation.element, e1, e2]
      · have h1 := linear_index_lt j size_j i size_i hj hi
        rw [Nat.mul_comm size_j size_i] at h1
        have e1 : mul64 j size_i = j * size_i := mul64_exact _ _ (by omega)
        have e2 : add64 i (j * size_i) = i + j * size_i := add64_exact _ _ (by omega)
        simp only [orientation.element_size_t, orientation.element, e1, e2]
    · cases O <;>
        simp [orientation.element_size_t, orientation.element, ABLAS_SIZE_CHECK, hi, hj, bind,
          Except.bind, pure, Except.pure]
  · cases O <;>
      simp [orientation.element_size_t, orientation.element, ABLAS_SIZE_CHECK, hi, bind,
        Except.bind, pure, Except.pure]

/-- C38, as stated, fails: for the sizes `size_i = 2^32 + 1`, `size_j = 2^32`
the product `i * size_j` of `row_major::element` wraps for `i = 2^32`, so the
distinct in-range elements `(2^32, 0)` and `(0, 0)` both get the index 0; the
same holds for `column_major::element` with the sizes exchanged and the
elements `(0, 2^32)` and `(0, 0)`. -/
theorem element_slot_shared :
    ((4294967296 : Nat) < 4294967297 ∧ (0 : Nat) < 4294967296) ∧
    orientation.row_major.element_size_t 4294967296 4294967297 0 4294967296 = .ok 0 ∧
    orientation.row_major.element_size_t 0 4294967297 0 4294967296 = .ok 0 ∧
    orientation.column_major.element_size_t 0 4294967296 4294967296 4294967297 = .ok 0 ∧
    orientation.column_major.element_size_t 0 4294967296 0 4294967297 = .ok 0 :=
  ⟨⟨by decide, by decide⟩, rfl, rfl, rfl, rfl⟩

/-- C38, amended: for both orientations and all sizes with
`size_i * size_j < 2^64`, `element(i, size_i, j, size_j)` returns for
`i < size_i`, `j < size_j` (and throws otherwise), and on these pairs it is a
bijection onto the indices below `size_i * size_j`: the index is in the range,
two in-range pairs with the same index are equal, and every index of the range
is taken. -/
theorem element_size_t_bijective (O : orientation) (size_i size_j : Nat)
    (hb : size_i * size_j < 18446744073709551616) :
    (∀ i j, i < size_i → j < size_j →
      ∃ k, O.element_size_t i size_i j size_j = .ok k ∧ k < size_i * size_j) ∧
    (∀ i j, ¬ (i < size_i ∧ j < size_j) →
      ∃ e, O.element_size_t i size_i j size_j = .error e) ∧
    (∀ i j i' j' k, O.element_size_t i size_i j size_j = .ok k →
      O.element_size_t i' size_i j' size_j = .ok k → i = i' ∧ j = j') ∧
    ∀ k, k < size_i * size_j →
      ∃ i j, i < size_i ∧ j < size_j ∧ O.element_size_t i size_i j size_j = .ok k := by
  have he : ∀ i j, O.element_size_t i size_i j size_j = O.element i size_i j size_j :=
    fun i j => element_size_t_eq O i size_i j size_j hb
  simp only [he]
  exact element_exact_bijective O size_i size_j

/-- Instance of C38 (amended): a `2 x 3` matrix in row-major layout. -/
theorem element_size_t_bijective_witness :
    (2 : Nat) * 3 < 18446744073709551616 ∧
    ∀ i j i' j' k, orientation.row_major.element_size_t i 2 j 3 = .ok k →
      orientation.row_major.element_size_t i' 2 j' 3 = .ok k → i = i' ∧ j = j' :=
  ⟨by decide, (element_size_t_bijective .row_major 2 3 (by decide)).2.2.1⟩

end aBLAS

namespace aBLAS

/-- Rows stored one after the other: when row `i` starts at `S i` and has
`len i` entries, the map from (row, position) to `S i + c` is increasing in
row-by-row order, stays below `S n` and takes every index below `S n`. -/
theorem rows_bijective (S len : Nat → Nat) (n : Nat) (h0 : S 0 = 0)
    (hS : ∀ i, i < n → S (i + 1) = S i + len i) :
    (∀ i c, i < n → c < len i → S i + c < S n) ∧
    (∀ i c i' c', i' < n → c < len i → (i < i' ∨ (i = i' ∧ c < c')) →
      S i + c < S i' + c') ∧
    ∀ k, k < S n → ∃ i c, i < n ∧ c < len i ∧ S i + c = k := by
  have hmono : ∀ d i, i + d ≤ n → S i ≤ S (i + d) := by
    intro d
    induction d with
    | zero => intro i _; exact le_refl _
    | succ d ih =>
      intro i hi
      have h1 := ih i (by omega)
      have h2 := hS (i + d) (by omega)
      rw [← Nat.add_assoc, h2]
      omega
  have hle : ∀ i i', i ≤ i' → i' ≤ n → S i ≤ S i' := by
    intro i i' h1 h2
    have := hmono (i' - i) i (by omega)
    rwa [Nat.add_sub_cancel' h1] at this
  have hrow : ∀ i i', i < i' → i' ≤ n → S i + len i ≤ S i' := by
    intro i i' h1 h2
    rw [← hS i (by omega)]
    exact hle (i + 1) i' h1 h2
  refine ⟨?_, ?_, ?_⟩
  · intro i c hi hc
    have := hrow i n hi (le_refl n)
    omega
  · intro i c i' c' hi' hc h
    rcases h with h | ⟨rfl, h⟩
    · have := hrow i i' h (by omega)
      omega
    · omega
  · have hsur : ∀ m, m ≤ n → ∀ k, k < S m → ∃ i c, i < m ∧ c < len i ∧ S i + c = k := by
      intro m
      induction m with
      | zero => intro _ k hk; rw [h0] at hk; omega
      | succ m ih =>
        intro hm k hk
        by_cases hlt : k < S m
        · obtain ⟨i, c, hi, hc, he⟩ := ih (by omega) k hlt
          exact ⟨i, c, by omega, hc, he⟩
        · rw [hS m (by omega)] at hk
          exact ⟨m, k - S m, by omega, by omega, by omega⟩
    intro k hk
    exact hsur n (le_refl n) k hk

theorem even_mul_succ (i : Nat) : i * (i + 1) % 2 = 0 := by
  have := Nat.even_mul_succ_self i
  exact Nat.even_iff.1 this

theorem lower_row_start (i : Nat) : (i + 1) * (i + 1 + 1) / 2 = i * (i + 1) / 2 + (i + 1) := by
  have h : (i + 1) * (i + 1 + 1) = i * (i + 1) + 2 * (i + 1) := by ring
  rw [h, Nat.add_mul_div_left _ _ (by decide : 0 < 2)]

theorem upper_row_start (n i : Nat) (hi : i < n) :
    (i + 1) * (2 * n - (i + 1) + 1) / 2 = i * (2 * n - i + 1) / 2 + (n - i) := by
  have h1 : 2 * n - (i + 1) + 1 = 2 * n - i := by omega
  have h2 : (i + 1) * (2 * n - i) = i * (2 * n - i + 1) + 2 * (n - i) := by
    obtain ⟨d, rfl⟩ : ∃ d, n = i + 1 + d := ⟨n - i - 1, by omega⟩
    have e1 : 2 * (i + 1 + d) - i = i + 2 + 2 * d := by omega
    have e2 : i + 1 + d - i = d + 1 := by omega
    rw [e1, e2]
    ring
  rw [h1, h2, Nat.add_mul_div_left _ _ (by decide : 0 < 2)]

theorem upper_even (n : Nat) : ∀ i, i ≤ n → i * (2 * n - i + 1) % 2 = 0
  | 0, _ => by simp
  | i + 1, hi => by
    have h1 : 2 * n - (i + 1) + 1 = 2 * n - i := by omega
    have h2 : (i + 1) * (2 * n - i) = i * (2 * n - i + 1) + 2 * (n - i) := by
      obtain ⟨d, rfl⟩ : ∃ d, n = i + 1 + d := ⟨n - i - 1, by omega⟩
      have e1 : 2 * (i + 1 + d) - i = i + 2 + 2 * d := by omega
      have e2 : i + 1 + d - i = d + 1 := by omega
      rw [e1, e2]
      ring
    have ih := upper_even n i (by omega)
    rw [h1, h2]
    omega

end aBLAS

namespace aBLAS

/-- On sizes below `2^32` the lower overload of `row_major::triangular_index`
is `i (i + 1) / 2 + j` without wrap, and its dividend is `i (i + 1)`. -/
theorem triangular_index_lower_exact (n i j : Nat) (hn : n < 4294967296) (hji : j ≤ i)
    (hi : i < n) :
    mul64 i (add64 i 1) = i * (i + 1) ∧
    orientation.triangular_index .row_major i j n .lower = i * (i + 1) / 2 + j := by
  have h1 : i * (i + 1) ≤ 4294967295 * 4294967296 :=
    Nat.mul_le_mul (by omega) (by omega)
  have e1 : add64 i 1 = i + 1 := add64_exact _ _ (by omega)
  have e2 : mul64 i (i + 1) = i * (i + 1) := mul64_exact _ _ (by omega)
  have e3 : add64 (i * (i + 1) / 2) j = i * (i + 1) / 2 + j := add64_exact _ _ (by omega)
  refine ⟨by rw [e1, e2], ?_⟩
  show add64 (mul64 i (add64 i 1) / 2) j = _
  rw [e1, e2, e3]

theorem upper_dividend_le (n i : Nat) (hi : i ≤ n) : i * (2 * n - i + 1) ≤ n * (n + 1) := by
  obtain ⟨d, rfl⟩ : ∃ d, n = i + d := ⟨n - i, by omega⟩
  have e1 : 2 * (i + d) - i + 1 = i + 2 * d + 1 := by omega
  rw [e1]
  have e2 : (i + d) * (i + d + 1) = i * (i + 2 * d + 1) + d * (d + 1) := by ring
  omega

/-- On sizes below `2^32` the upper overload of `row_major::triangular_index`
is `i (2 n - i + 1) / 2 + (j - i)` without wrap, and its dividend is
`i (2 n - i + 1)`. -/
theorem triangular_index_upper_exact (n i j : Nat) (hn : n < 4294967296) (hij : i ≤ j)
    (hj : j < n) :
    mul64 i (add64 (sub64 (mul64 2 n) i) 1) = i * (2 * n - i + 1) ∧
    orientation.triangular_index .row_major i j n .upper =
      i * (2 * n - i + 1) / 2 + (j - i) := by
  have h0 := upper_dividend_le n i (by omega)
  have h1 : n * (n + 1) ≤ 4294967295 * 4294967296 :=
    Nat.mul_le_mul (by omega) (by omega)
  have e1 : mul64 2 n = 2 * n := mul64_exact _ _ (by omega)
  have e2 : sub64 (2 * n) i = 2 * n - i := sub64_exact _ _ (by omega) (by omega)
  have e3 : add64 (2 * n - i) 1 = 2 * n - i + 1 := add64_exact _ _ (by omega)
  have e4 : mul64 i (2 * n - i + 1) = i * (2 * n - i + 1) := mul64_exact _ _ (by omega)
  have e5 : add64 (i * (2 * n - i + 1) / 2) j = i * (2 * n - i + 1) / 2 + j :=
    add64_exact _ _ (by omega)
  have e6 : sub64 (i * (2 * n - i + 1) / 2 + j) i = i * (2 * n - i + 1) / 2 + j - i :=
    sub64_exact _ _ (by omega) (by omega)
  refine ⟨by rw [e1, e2, e3, e4], ?_⟩
  show sub64 (add64 (mul64 i (add64 (sub64 (mul64 2 n) i) 1) / 2) j) i = _
  rw [e1, e2, e3, e4, e5, e6]
  omega

/-- C39, as stated, fails: for `n = 2^32 + 1` the product `i (i + 1)` wraps for
`i = 2^32`, so the lower index of the pair `(2^32, 0)` is `2147483648`, which is
also the lower index of the pair `(65535, 32768)`; for `n = 2^32` the upper
index of the last pair `(2^32 - 1, 2^32 - 1)` is `2147483647`, the upper index
of `(0, 2147483647)`. -/
theorem triangular_index_slot_shared :
    ((0 : Nat) ≤ 4294967296 ∧ (4294967296 : Nat) < 4294967297 ∧
      (32768 : Nat) ≤ 65535 ∧ (65535 : Nat) < 4294967297) ∧
    orientation.triangular_index .row_major 4294967296 0 4294967297 .lower = 2147483648 ∧
    orientation.triangular_index .row_major 65535 32768 4294967297 .lower = 2147483648 ∧
    orientation.triangular_index .row_major 4294967295 4294967295 4294967296 .upper =
      2147483647 ∧
    orientation.triangular_index .row_major 0 2147483647 4294967296 .upper = 2147483647 :=
  ⟨⟨by decide, by decide, by decide, by decide⟩, by decide, by decide, by decide, by decide⟩

/-- C39, amended: for every size `n < 2^32`,
`row_major::triangular_index(i, j, n, lower)` maps the pairs `j <= i < n` onto
the indices below `n (n + 1) / 2`, increasing in row-by-row order (hence
one-to-one) and taking every index; `row_major::triangular_index(i, j, n, upper)`
does the same for the pairs `i <= j < n`; the two dividends are `i (i + 1)` and
`i (2 n - i + 1)` without wrap and are even, so the divisions by 2 are exact;
the `column_major` functions are the `row_major` functions of the pair `(j, i)`
with the other triangle. -/
theorem triangular_index_bijective (n : Nat) (hn : n < 4294967296) :
    ((∀ i j, j ≤ i → i < n →
        orientation.triangular_index .row_major i j n .lower < n * (n + 1) / 2) ∧
      (∀ i j i' j', j ≤ i → i < n → j' ≤ i' → i' < n → (i < i' ∨ (i = i' ∧ j < j')) →
        orientation.triangular_index .row_major i j n .lower <
          orientation.triangular_index .row_major i' j' n .lower) ∧
      (∀ i j i' j', j ≤ i → i < n → j' ≤ i' → i' < n →
        orientation.triangular_index .row_major i j n .lower =
          orientation.triangular_index .row_major i' j' n .lower → i = i' ∧ j = j') ∧
      ∀ k, k < n * (n + 1) / 2 →
        ∃ i j, j ≤ i ∧ i < n ∧ orientation.triangular_index .row_major i j n .lower = k) ∧
    ((∀ i j, i ≤ j → j < n →
        orientation.triangular_index .row_major i j n .upper < n * (n + 1) / 2) ∧
      (∀ i j i' j', i ≤ j → j < n → i' ≤ j' → j' < n → (i < i' ∨ (i = i' ∧ j < j')) →
        orientation.triangular_index .row_major i j n .upper <
          orientation.triangular_index .row_major i' j' n .upper) ∧
      (∀ i j i' j', i ≤ j → j < n → i' ≤ j' → j' < n →
        orientation.triangular_index .row_major i j n .upper =
          orientation.triangular_index .row_major i' j' n .upper → i = i' ∧ j = j') ∧
      ∀ k, k < n * (n + 1) / 2 →
        ∃ i j, i ≤ j ∧ j < n ∧ orientation.triangular_index .row_major i j n .upper = k) ∧
    ((∀ i, i < n → mul64 i (add64 i 1) = i * (i + 1) ∧ mul64 i (add64 i 1) % 2 = 0) ∧
      ∀ i, i < n → mul64 i (add64 (sub64 (mul64 2 n) i) 1) = i * (2 * n - i + 1) ∧
        mul64 i (add64 (sub64 (mul64 2 n) i) 1) % 2 = 0) ∧
    (∀ i j, orientation.triangular_index .column_major i j n .lower =
        orientation.triangular_index .row_major j i n .upper) ∧
    ∀ i j, orientation.triangular_index .column_major i j n .upper =
        orientation.triangular_index .row_major j i n .lower := by
  obtain ⟨hl1, hl2, hl3⟩ := rows_bijective (fun i => i * (i + 1) / 2) (fun i => i + 1) n
    (by simp) (fun i _ => lower_row_start i)
  obtain ⟨hu1, hu2, hu3⟩ := rows_bijective (fun i => i * (2 * n - i + 1) / 2)
    (fun i => n - i) n (by simp) (fun i hi => upper_row_start n i hi)
  have hn2 : 2 * n - n + 1 = n + 1 := by omega
  simp only [hn2] at hu1 hu3
  have hlow : ∀ i j, j ≤ i → i < n → orientation.triangular_index .row_major i j n .lower =
      i * (i + 1) / 2 + j := fun i j hji hi => (triangular_index_lower_exact n i j hn hji hi).2
  have hupp : ∀ i j, i ≤ j → j < n → orientation.triangular_index .row_major i j n .upper =
      i * (2 * n - i + 1) / 2 + (j - i) :=
    fun i j hij hj => (triangular_index_upper_exact n i j hn hij hj).2
  have hlmono : ∀ i j i' j', j ≤ i → i < n → j' ≤ i' → i' < n →
      (i < i' ∨ (i = i' ∧ j < j')) →
      orientation.triangular_index .row_major i j n .lower <
        orientation.triangular_index .row_major i' j' n .lower := by
    intro i j i' j' hji hi hji' hi' h
    rw [hlow i j hji hi, hlow i' j' hji' hi']
    exact hl2 i j i' j' hi' (by omega) h
  have humono : ∀ i j i' j', i ≤ j → j < n → i' ≤ j' → j' < n →
      (i < i' ∨ (i = i' ∧ j < j')) →
      orientation.triangular_index .row_major i j n .upper <
        orientation.triangular_index .row_major i' j' n .upper := by
    intro i j i' j' hij hj hij' hj' h
    rw [hupp i j hij hj, hupp i' j' hij' hj']
    exact hu2 i (j - i) i' (j' - i') (by omega) (by omega) (by omega)
  refine ⟨⟨?_, hlmono, ?_, ?_⟩, ⟨?_, humono, ?_, ?_⟩, ⟨?_, ?_⟩,
    fun _ _ => rfl, fun _ _ => rfl⟩
  · intro i j hji hi
    rw [hlow i j hji hi]
    exact hl1 i j hi (by omega)
  · intro i j i' j' hji hi hji' hi' heq
    by_contra hne
    have hcases : (i < i' ∨ (i = i' ∧ j < j')) ∨ (i' < i ∨ (i' = i ∧ j' < j)) := by omega
    rcases hcases with h | h
    · have := hlmono i j i' j' hji hi hji' hi' h
      omega
    · have := hlmono i' j' i j hji' hi' hji hi h
      omega
  · intro k hk
    obtain ⟨i, c, hi, hc, he⟩ := hl3 k hk
    refine ⟨i, c, by omega, hi, ?_⟩
    rw [hlow i c (by omega) hi]
    exact he
  · intro i j hij hj
    rw [hupp i j hij hj]
    exact hu1 i (j - i) (by omega) (by omega)
  · intro i j i' j' hij hj hij' hj' heq
    by_contra hne
    have hcases : (i < i' ∨ (i = i' ∧ j < j')) ∨ (i' < i ∨ (i' = i ∧ j' < j)) := by omega
    rcases hcases with h | h
    · have := humono i j i' j' hij hj hij' hj' h
      omega
    · have := humono i' j' i j hij' hj' hij hj h
      omega
  · intro k hk
    obtain ⟨i, c, hi, hc, he⟩ := hu3 k hk
    refine ⟨i, i + c, by omega, by omega, ?_⟩
    rw [hupp i (i + c) (by omega) (by omega), Nat.add_sub_cancel_left]
    exact he
  · intro i hi
    have e := (triangular_index_lower_exact n i i hn (le_refl i) hi).1
    exact ⟨e, by rw [e]; exact even_mul_succ i⟩
  · intro i hi
    have e := (triangular_index_upper_exact n i i hn (le_refl i) hi).1
    exact ⟨e, by rw [e]; exact upper_even n i (by omega)⟩

/-- Instance of C39 (amended): the packed storage of a `3 x 3` triangle. -/
theorem triangular_index_bijective_witness :
    (3 : Nat) < 4294967296 ∧
    (∀ i j, j ≤ i → i < 3 →
      orientation.triangular_index .row_major i j 3 .lower < 3 * (3 + 1) / 2) ∧
    ∀ k, k < 3 * (3 + 1) / 2 →
      ∃ i j, i ≤ j ∧ j < 3 ∧ orientation.triangular_index .row_major i j 3 .upper = k :=
  ⟨by decide, (triangular_index_bijective 3 (by decide)).1.1,
    (triangular_index_bijective 3 (by decide)).2.1.2.2.2⟩

end aBLAS

/-! ## Claims about `resize` and the evaluation of sums -/

namespace aBLAS

theorem length_storage_resize {α : Type} [Zero α] (data : List α) (n : Nat) :
    (storage_resize data n).length = n := by
  simp only [storage_resize, List.length_append, List.length_take, List.length_replicate]
  omega

/-- Storage of an idle matrix after `resize` to other sizes: it holds
`new_size1 * new_size1` elements. -/
theorem resize_idle {α : Type} [Zero α] (m_internals : dense_matrix_state α)
    (new_size1 new_size2 : Nat) (hready : matrix.is_ready m_internals = true)
    (hne : ¬ (new_size1 = m_internals.size1 ∧ new_size2 = m_internals.size2)) :
    (matrix.resize m_internals new_size1 new_size2).size1 = new_size1 ∧
    (matrix.resize m_internals new_size1 new_size2).size2 = new_size2 ∧
    (matrix.resize m_internals new_size1 new_size2).data.length = new_size1 * new_size1 := by
  have hc : (new_size1 == m_internals.size1 && new_size2 == m_internals.size2) = false := by
    rw [Bool.and_eq_false_iff]
    by_cases h1 : new_size1 = m_internals.size1
    · exact Or.inr (by simpa using fun h2 => hne ⟨h1, h2⟩)
    · exact Or.inl (by simpa using h1)
  simp only [matrix.resize, hc, hready, if_true, Bool.false_eq_true, if_false,
    length_storage_resize, and_self]

/-- C36 fails on the code: an idle `2 x 2` matrix (storage of 4 elements, as its
constructor establishes) resized to `2 x 3` has `size1() = 2`, `size2() = 3` and
a storage of `2 * 2 = 4` elements instead of 6, so element `(1, 2)` maps to the
index 5 outside the storage. The resize of the storage takes
`new_size1 * new_size1`; the constructors and the branch for a matrix in use
take the product of both sizes. -/
theorem resize_storage_mismatch :
    (dense_matrix_state.filled 2 2 (0 : Nat)).data.length = 2 * 2 ∧
    matrix.is_ready (dense_matrix_state.filled 2 2 (0 : Nat)) = true ∧
    (matrix.resize (dense_matrix_state.filled 2 2 (0 : Nat)) 2 3).size1 = 2 ∧
    (matrix.resize (dense_matrix_state.filled 2 2 (0 : Nat)) 2 3).size2 = 3 ∧
    (matrix.resize (dense_matrix_state.filled 2 2 (0 : Nat)) 2 3).data.length = 4 ∧
    (matrix.resize (dense_matrix_state.filled 2 2 (0 : Nat)) 2 3).data.length ≠ 2 * 3 ∧
    orientation.row_major.element 1 2 2 3 = .ok 5 ∧
    matrix.get .row_major (matrix.resize (dense_matrix_state.filled 2 2 (0 : Nat)) 2 3) 1 2 =
      .ok none ∧
    (dense_matrix_state.sized 2 3 : dense_matrix_state Nat).data.length = 2 * 3 := by
  refine ⟨by decide, by decide, by decide, by decide, by decide, by decide, rfl, rfl,
    by decide⟩

namespace evaluation

theorem plus_assign_matrix_closed {α : Type} [Zero α] [Add α] [Mul α] (A B : dense_matrix α)
    (alpha : α) (h1 : A.size1 = B.size1) (h2 : A.size2 = B.size2) :
    plus_assign_matrix A B alpha =
      .ok { A with elem := fun a b =>
          (if a < A.size1 ∧ b < A.size2 then A.elem a b + alpha * B.elem a b
           else A.elem a b) } := by
  simp only [plus_assign_matrix, ABLAS_SIZE_CHECK, h1, h2, beq_self_eq_true, if_true, bind,
    Except.bind, pure, Except.pure]
  rw [kernels.assign_matrix_eq scalar_plus_assign A B alpha h1 h2]
  simp only [scalar_plus_assign, h1, h2]

theorem assign_matrix_closed {α : Type} [Zero α] [Add α] [Mul α] (A B : dense_matrix α)
    (alpha : α) (h1 : A.size1 = B.size1) (h2 : A.size2 = B.size2) :
    assign_matrix A B alpha =
      .ok { A with elem := fun a b =>
          (if a < A.size1 ∧ b < A.size2 then alpha * B.elem a b else A.elem a b) } := by
  simp only [assign_matrix, ABLAS_SIZE_CHECK, h1, h2, beq_self_eq_true, if_true, bind,
    Except.bind, pure, Except.pure]
  rw [kernels.assign_matrix_eq scalar_assign A B alpha h1 h2]
  simp only [scalar_assign, h1, h2]

theorem plus_assign_vector_closed {α : Type} [Add α] [Mul α] (x v : dense_vector α) (alpha : α)
    (h : x.size = v.size) :
    plus_assign_vector x v alpha =
      .ok { size := x.size, elem := fun i =>
          (if i < x.size then x.elem i + alpha * v.elem i else x.elem i) } := by
  simp only [plus_assign_vector, ABLAS_SIZE_CHECK, h, beq_self_eq_true, if_true, bind,
    Except.bind, pure, Except.pure]
  rw [kernels.assign_vector_eq scalar_plus_assign x v alpha h]
  simp only [scalar_plus_assign, h]

end evaluation

/-- Result of `matrix_addition::plus_assign_to(X, alpha)` for operands of the
dimensions of `X`: every element inside the dimensions receives
`alpha * (alpha * lhs) + alpha * (alpha * rhs)`. -/
theorem matrix_addition_plus_assign_to_eq {α : Type} [Zero α] [Add α] [Mul α]
    (m_lhs m_rhs X : dense_matrix α) (alpha : α) (h1 : X.size1 = m_lhs.size1)
    (h2 : X.size2 = m_lhs.size2) (h3 : X.size1 = m_rhs.size1) (h4 : X.size2 = m_rhs.size2) :
    matrix_addition.plus_assign_to m_lhs m_rhs X alpha =
      .ok { X with elem := fun a b =>
          (if a < X.size1 ∧ b < X.size2 then
             X.elem a b + alpha * (alpha * m_lhs.elem a b) + alpha * (alpha * m_rhs.elem a b)
           else X.elem a b) } := by
  have e1 := evaluation.plus_assign_matrix_closed X (matrix_scalar_multiply m_lhs alpha) alpha h1 h2
  have e2 := evaluation.plus_assign_matrix_closed
    { X with elem := fun a b =>
        (if a < X.size1 ∧ b < X.size2 then
           X.elem a b + alpha * (matrix_scalar_multiply m_lhs alpha).elem a b
         else X.elem a b) }
    (matrix_scalar_multiply m_rhs alpha) alpha h3 h4
  unfold matrix_addition.plus_assign_to
  rw [e1]
  simp only [bind, Except.bind]
  rw [e2]
  congr 1
  apply dense_matrix_ext
  · rfl
  · rfl
  · rfl
  · intro a b
    by_cases hab : a < X.size1 ∧ b < X.size2
    · simp [hab, matrix_scalar_multiply]
    · simp [hab]

/-- Result of `matrix_addition::assign_to(X, alpha)` for operands of the
dimensions of `X`. -/
theorem matrix_addition_assign_to_eq {α : Type} [Zero α] [Add α] [Mul α]
    (m_lhs m_rhs X : dense_matrix α) (alpha : α) (h1 : X.size1 = m_lhs.size1)
    (h2 : X.size2 = m_lhs.size2) (h3 : X.size1 = m_rhs.size1) (h4 : X.size2 = m_rhs.size2) :
    matrix_addition.assign_to m_lhs m_rhs X alpha =
      .ok { X with elem := fun a b =>
          (if a < X.size1 ∧ b < X.size2 then
             alpha * m_lhs.elem a b + alpha * m_rhs.elem a b
           else X.elem a b) } := by
  have e1 := evaluation.assign_matrix_closed X m_lhs alpha h1 h2
  have e2 := evaluation.plus_assign_matrix_closed
    { X with elem := fun a b =>
        (if a < X.size1 ∧ b < X.size2 then alpha * m_lhs.elem a b else X.elem a b) }
    m_rhs alpha h3 h4
  unfold matrix_addition.assign_to
  rw [e1]
  simp only [bind, Except.bind]
  rw [e2]
  congr 1
  apply dense_matrix_ext
  · rfl
  · rfl
  · rfl
  · intro a b
    by_cases hab : a < X.size1 ∧ b < X.size2
    · simp [hab]
    · simp [hab]

/-- Result of `vector_addition::plus_assign_to(x, alpha)` for operands of the
size of `x`. -/
theorem vector_addition_plus_assign_to_eq {α : Type} [Add α] [Mul α]
    (m_lhs m_rhs x : dense_vector α) (alpha : α) (h1 : x.size = m_lhs.size)
    (h2 : x.size = m_rhs.size) :
    vector_addition.plus_assign_to m_lhs m_rhs x alpha =
      .ok { size := x.size, elem := fun i =>
          (if i < x.size then x.elem i + alpha * m_lhs.elem i + alpha * m_rhs.elem i
           else x.elem i) } := by
  have e1 := evaluation.plus_assign_vector_closed x m_lhs alpha h1
  have e2 := evaluation.plus_assign_vector_closed
    { size := x.size, elem := fun i =>
        (if i < x.size then x.elem i + alpha * m_lhs.elem i else x.elem i) }
    m_rhs alpha h2
  unfold vector_addition.plus_assign_to
  rw [e1]
  simp only [bind, Except.bind]
  rw [e2]
  congr 1
  apply dense_vector_ext
  · rfl
  · intro i
    by_cases hi : i < x.size
    · simp [hi]
    · simp [hi]

/-- C37 fails on the code: for `1 x 1` operands `lhs = rhs = 1`, target `0` and
`alpha = 2`, `matrix_addition::plus_assign_to` leaves `X(0,0) = 8`, while
`X_old + alpha * (lhs + rhs) = 4`; the method multiplies the operands by `alpha`
and passes `alpha` on to `plus_assign` as well. `matrix_addition::assign_to` and
`vector_addition::plus_assign_to` on the same data leave 4. -/
theorem matrix_addition_plus_assign_scales_twice :
    (∃ X, matrix_addition.plus_assign_to
        ({ size1 := 1, size2 := 1, orientation := .row_major, elem := fun _ _ => 1 } :
          dense_matrix Int)
        { size1 := 1, size2 := 1, orientation := .row_major, elem := fun _ _ => 1 }
        { size1 := 1, size2 := 1, orientation := .row_major, elem := fun _ _ => 0 } 2 =
          .ok X ∧ X.elem 0 0 = 8 ∧ X.elem 0 0 ≠ 0 + 2 * (1 + 1)) ∧
    (∃ X, matrix_addition.assign_to
        ({ size1 := 1, size2 := 1, orientation := .row_major, elem := fun _ _ => 1 } :
          dense_matrix Int)
        { size1 := 1, size2 := 1, orientation := .row_major, elem := fun _ _ => 1 }
        { size1 := 1, size2 := 1, orientation := .row_major, elem := fun _ _ => 0 } 2 =
          .ok X ∧ X.elem 0 0 = 2 * (1 + 1)) ∧
    ∃ x, vector_addition.plus_assign_to
        ({ size := 1, elem := fun _ => 1 } : dense_vector Int)
        { size := 1, elem := fun _ => 1 } { size := 1, elem := fun _ => 0 } 2 =
          .ok x ∧ x.elem 0 = 0 + 2 * (1 + 1) := by
  exact ⟨⟨_, matrix_addition_plus_assign_to_eq _ _ _ 2 rfl rfl rfl rfl, by decide, by decide⟩,
    ⟨_, matrix_addition_assign_to_eq _ _ _ 2 rfl rfl rfl rfl, by decide⟩,
    ⟨_, vector_addition_plus_assign_to_eq _ _ _ 2 rfl rfl, by decide⟩⟩

end aBLAS
